import Mathlib

/-!
# TDMA slot scheduler and timed traffic generator

Shallow embedding of the scheduling loop of `main` and of the class
`TdmaClientApp` of `src/TDMA_RR_Mobility.cc` (the class is, line for line, the
one of `src/tdmaMobilitynew.cc`), of the scheduling loops of
`src/tdmaMobilitynew.cc`, `src/TDMA_RR_Static.cc` and `src/tdma1.cc`, and of the
generator of `src/mobilityTDMA.cc`.

Conventions of the embedding:

* `double` and `ns3::Time` values are exact rationals (`ℚ`), and the arithmetic
  of the loop bodies and of the generator is the exact one that the program
  writes down. The one place where the rounding of `double` decides what the
  program does, the trip count of line 210, is also embedded with its
  rounding (`binary64`, `numCyclesBinary64`); theorems on the emitted slots
  are stated for every trip count of the outer loop, or for every trip count
  within that rounding (`WithinRounding`).
* `uint32_t` values are natural numbers; where the program does 32-bit
  arithmetic that can wrap (`i * 2`, `m_count++`) the wrap is written
  `% UINT32_MOD`, and theorems that need the type bound assume it.
* The discrete-event substrate (`ns3::Simulator`) is reduced to what one
  generator instance can observe: the list of its own pending events, in
  registration order. An event fires at its own timestamp; among events of the
  same timestamp the one registered first fires first.
* A packet is "sent" when `SendPacket` reaches `m_socket->Send(packet)`; the
  time of every such call is appended to the log `sent`.
-/

namespace Tdma

/-- Number of values of a `uint32_t`. -/
def UINT32_MOD : Nat := 4294967296

/-! ## The generator `TdmaClientApp` -/

/-- The two member functions that the class hands to `Simulator::Schedule`. -/
inductive Callback where
  | startApplication
  | sendPacket
  deriving DecidableEq, Repr

/-- One pending event of the simulator that calls back into the instance.
`held` says that the member `m_sendEvent` currently holds the `EventId` of this
event (at most one event is held, because assigning `m_sendEvent` makes it
refer to the new event only). -/
structure Event where
  time : ℚ
  cb : Callback
  held : Bool
  deriving DecidableEq, Repr

/-- State of one `TdmaClientApp` together with its pending events.
`m_socket` records whether the pointer is non-null. `m_sendEvent` is
represented by the `held` flags in `queue`. -/
structure TdmaClientApp where
  m_socket : Bool
  m_nPackets : Nat
  m_count : Nat
  m_interval : ℚ
  m_startTime : ℚ
  m_stopTime : ℚ
  queue : List Event
  sent : List ℚ
  deriving DecidableEq, Repr

/-- Call of `Simulator::Schedule (delay, cb, this)` whose returned `EventId` is thrown
away (line 59). -/
def scheduleDiscard (now delay : ℚ) (cb : Callback) (q : List Event) : List Event :=
  q ++ [⟨now + delay, cb, false⟩]

/-- Assignment `m_sendEvent = Simulator::Schedule (delay, cb, this)`: the new event is
registered and `m_sendEvent` refers to it and to no older event. -/
def scheduleHeld (now delay : ℚ) (cb : Callback) (q : List Event) : List Event :=
  q.map (fun e => { e with held := false }) ++ [⟨now + delay, cb, true⟩]

/-- Test `m_sendEvent.IsPending ()`. -/
def isPending (q : List Event) : Bool :=
  q.any (fun e => e.held)

/-- Call of `Simulator::Cancel (m_sendEvent)`: the held event never fires. -/
def cancelHeld (q : List Event) : List Event :=
  q.filter (fun e => !e.held)

/-- The constructor `TdmaClientApp ()` with the default member initialisers. -/
def TdmaClientApp.new : TdmaClientApp :=
  { m_socket := false, m_nPackets := 0, m_count := 0, m_interval := 0,
    m_startTime := 0, m_stopTime := 0, queue := [], sent := [] }

/-- Member function `TdmaClientApp::Setup` (lines 35-41), called with a non-null socket. The
file constants `kSlotDuration` and `kGuardTime` are parameters. The interval
stored here is the exact quotient; line 40 divides in `double` and `Seconds`
keeps a whole number of nanoseconds (19.2 ms for the 5 packets per slot of the
file, where the two agree). The theorems on a running generator take the
stored interval as it is. -/
def Setup (kSlotDuration kGuardTime : ℚ) (nPackets : Nat) (a : TdmaClientApp) :
    TdmaClientApp :=
  { a with m_socket := true, m_nPackets := nPackets,
           m_interval := (kSlotDuration - kGuardTime) / nPackets }

/-- Member function `TdmaClientApp::SetStartStopTime` (lines 42-47). -/
def SetStartStopTime (startTime stopTime : ℚ) (a : TdmaClientApp) : TdmaClientApp :=
  { a with m_startTime := startTime, m_stopTime := stopTime }

/-- Member function `TdmaClientApp::StartApplication` (lines 50-65) run at simulator time `now`. -/
def StartApplication (now : ℚ) (a : TdmaClientApp) : TdmaClientApp :=
  if a.m_socket = false then a
  else
    let a1 := { a with m_count := 0 }
    if now < a1.m_startTime then
      { a1 with queue :=
          scheduleDiscard now (a1.m_startTime - now) Callback.startApplication a1.queue }
    else if now > a1.m_stopTime then a1
    else { a1 with queue := scheduleHeld now 0 Callback.sendPacket a1.queue }

/-- Member function `TdmaClientApp::StopApplication` (lines 67-70). Closing the socket is an
effect on the transport endpoint and leaves the members unchanged. -/
def StopApplication (a : TdmaClientApp) : TdmaClientApp :=
  if isPending a.queue then { a with queue := cancelHeld a.queue } else a

/-- Member function `TdmaClientApp::ScheduleNextTx` (lines 82-84). -/
def ScheduleNextTx (now : ℚ) (a : TdmaClientApp) : TdmaClientApp :=
  { a with queue := scheduleHeld now a.m_interval Callback.sendPacket a.queue }

/-- Member function `TdmaClientApp::SendPacket` (lines 72-80) run at simulator time `now`. -/
def SendPacket (now : ℚ) (a : TdmaClientApp) : TdmaClientApp :=
  if now ≥ a.m_stopTime then a
  else
    let a1 := { a with sent := a.sent ++ [now], m_count := (a.m_count + 1) % UINT32_MOD }
    if a1.m_count < a1.m_nPackets ∧ now + a1.m_interval < a1.m_stopTime then
      ScheduleNextTx now a1
    else a1

/-- The event the simulator dispatches next: smallest timestamp, and among
equal timestamps the one registered first. -/
def earliest : List Event → Option Event
  | [] => none
  | e :: q =>
    match earliest q with
    | none => some e
    | some e1 => if e1.time < e.time then some e1 else some e

/-- One dispatch of the simulator: the next event is removed from the pending
events and its callback runs with `Simulator::Now ()` equal to its timestamp.
`none` when nothing is pending. -/
def step (a : TdmaClientApp) : Option TdmaClientApp :=
  match earliest a.queue with
  | none => none
  | some e =>
    let a1 := { a with queue := a.queue.erase e }
    match e.cb with
    | Callback.startApplication => some (StartApplication e.time a1)
    | Callback.sendPacket => some (SendPacket e.time a1)

/-- At most `fuel` dispatches; stops early when nothing is pending. -/
def run : Nat → TdmaClientApp → TdmaClientApp
  | 0, a => a
  | fuel + 1, a =>
    match step a with
    | none => a
    | some a1 => run fuel a1

/-- A generator as `main` leaves it after construction, `Setup` and
`SetStartStopTime`: socket set, counter zero, nothing pending, nothing sent. -/
def Configured (a : TdmaClientApp) : Prop :=
  a.m_socket = true ∧ a.m_count = 0 ∧ a.queue = [] ∧ a.sent = []

instance (a : TdmaClientApp) : Decidable (Configured a) := by
  unfold Configured; infer_instance

/-- States of a generator `a` after one activation at some time, followed by
any number of event dispatches and calls of `StopApplication`. -/
inductive Reachable (a : TdmaClientApp) : TdmaClientApp → Prop where
  | activate (now : ℚ) : Reachable a (StartApplication now a)
  | fire {s s1 : TdmaClientApp} : Reachable a s → step s = some s1 → Reachable a s1
  | stop {s : TdmaClientApp} : Reachable a s → Reachable a (StopApplication s)

/-- Invariant of the states reachable from a configured generator `a`. -/
structure Inv (a s : TdmaClientApp) : Prop where
  socket : s.m_socket = true
  nPackets : s.m_nPackets = a.m_nPackets
  interval : s.m_interval = a.m_interval
  startTime : s.m_startTime = a.m_startTime
  stopTime : s.m_stopTime = a.m_stopTime
  shape : s.queue = [] ∨
    (s.queue = [⟨a.m_startTime, Callback.startApplication, false⟩] ∧
      s.sent = [] ∧ s.m_count = 0) ∨
    (∃ t, s.queue = [⟨t, Callback.sendPacket, true⟩] ∧
      (0 ≤ a.m_interval → a.m_startTime ≤ t) ∧
      (1 ≤ a.m_nPackets → s.m_count < a.m_nPackets))
  window : 0 ≤ a.m_interval → ∀ t ∈ s.sent, a.m_startTime ≤ t ∧ t < a.m_stopTime
  count : 1 ≤ a.m_nPackets → a.m_nPackets < UINT32_MOD →
    s.sent.length = s.m_count ∧ s.m_count ≤ a.m_nPackets

/-- Upper bound on the number of dispatches still to come. -/
def budget (s : TdmaClientApp) : Nat :=
  match s.queue with
  | [] => 0
  | e :: _ =>
    match e.cb with
    | Callback.startApplication => s.m_nPackets + 1
    | Callback.sendPacket => s.m_nPackets - s.m_count

/-- Lines 230-232 (and 239-241): `CreateObject<TdmaClientApp> ()`, then `Setup`
with a created socket, then `SetStartStopTime`. -/
def slotGenerator (kSlotDuration kGuardTime : ℚ) (nPackets : Nat) (startTime stopTime : ℚ) :
    TdmaClientApp :=
  SetStartStopTime startTime stopTime (Setup kSlotDuration kGuardTime nPackets TdmaClientApp.new)

/-- The generator of a slot that starts at 3 s, with the constants of
`TDMA_RR_Mobility.cc`: slot 0.1 s, guard 4 ms, 5 packets per slot. -/
def demoApp : TdmaClientApp :=
  slotGenerator (1 / 10) (4 / 1000) 5 3 (3 + 1 / 10 - 4 / 1000)

/-! ## The scheduling loop of `main` -/

/-- Direction of a slot. -/
inductive Direction where
  | uplink
  | downlink
  deriving DecidableEq, Repr

/-- One slot: the `(cycle, i)` of the loop iteration that created the
application, its direction, the base-station index `bsIndex`, and the two
arguments of `SetStartStopTime`. -/
structure Slot where
  cycle : Nat
  node : Nat
  direction : Direction
  bsIndex : Nat
  start : ℚ
  stop : ℚ
  deriving DecidableEq, Repr

/-- Line 209: `2 * slotDuration * numUes`. -/
def cycleDuration (numUes : Nat) (slotDuration : ℚ) : ℚ :=
  2 * slotDuration * numUes

/-- Line 210 in exact arithmetic: `static_cast<uint32_t> (simDuration / cycleDuration)`
for the exact quotient. The conversion truncates; it is defined by the
language only when the truncated quotient is in `[0, 2^32)`. The program
divides in `double`: the count it computes is `numCyclesBinary64`, which can
differ from this one by one (3 UEs, slot `0.1`, horizon 60 s: 99 cycles, where
the exact floor for a slot of one tenth is 100). -/
def numCycles (simDuration cycleDur : ℚ) : Nat :=
  (simDuration / cycleDur).floor.toNat

/-- Line 215: `(i < numUes / 2 ? 0 : 1)`, with the integer division of
`uint32_t`. -/
def bsIndexOf (numUes i : Nat) : Nat :=
  if i < numUes / 2 then 0 else 1

/-- Body of the inner loop (lines 215-243) for one `(cycle, i)`: the slots of
the applications it creates, none when one of the two `continue` fires.
`i * 2` is a 32-bit product. -/
def loopBody (numUes : Nat) (slotDuration simDuration kGuardTime cycleDur : ℚ)
    (cycle i : Nat) : List Slot :=
  let cycleStartTime : ℚ := cycle * cycleDur
  let bsIndex : Nat := bsIndexOf numUes i
  let uplinkStart : ℚ := cycleStartTime + ((i * 2 % UINT32_MOD : Nat) : ℚ) * slotDuration
  let downlinkStart : ℚ := uplinkStart + slotDuration
  let uplinkStop : ℚ := uplinkStart + slotDuration - kGuardTime
  let downlinkStop : ℚ := downlinkStart + slotDuration - kGuardTime
  if uplinkStart ≥ simDuration ∨ uplinkStop ≤ uplinkStart then []
  else if downlinkStart ≥ simDuration ∨ downlinkStop ≤ downlinkStart then []
  else
    [ ⟨cycle, i, Direction.uplink, bsIndex, uplinkStart, uplinkStop⟩,
      ⟨cycle, i, Direction.downlink, bsIndex, downlinkStart, downlinkStop⟩ ]

/-- The nested loops of lines 212-245 for a given trip count of the outer
loop. -/
def scheduleLoop (numUes : Nat) (slotDuration simDuration kGuardTime : ℚ)
    (nCycles : Nat) : List Slot :=
  (List.range nCycles).flatMap fun cycle =>
    (List.range numUes).flatMap fun i =>
      loopBody numUes slotDuration simDuration kGuardTime
        (cycleDuration numUes slotDuration) cycle i

/-- Lines 209-245: the slots for which `main` creates applications, with the
trip count of line 210 in exact arithmetic. -/
def schedule (numUes : Nat) (slotDuration simDuration kGuardTime : ℚ) : List Slot :=
  scheduleLoop numUes slotDuration simDuration kGuardTime
    (numCycles simDuration (cycleDuration numUes slotDuration))

/-- Position of a slot inside its node's block: 0 for uplink, 1 for downlink. -/
def Direction.index : Direction → Nat
  | Direction.uplink => 0
  | Direction.downlink => 1

/-- Half-open intervals `[start, stop)` of two slots do not meet. -/
def Slot.Disjoint (x y : Slot) : Prop :=
  x.stop ≤ y.start ∨ y.stop ≤ x.start

/-- Strict lexicographic order of slots by `(cycle, node, direction)`, uplink
before downlink. -/
def Slot.Before (x y : Slot) : Prop :=
  x.cycle < y.cycle ∨ (x.cycle = y.cycle ∧
    (x.node < y.node ∨ (x.node = y.node ∧ x.direction.index < y.direction.index)))

/-- Position of a slot in the back-to-back layout:
`cycle * 2 * numUes + 2 * node + direction`. -/
def Slot.position (numUes : Nat) (x : Slot) : Nat :=
  x.cycle * 2 * numUes + 2 * x.node + x.direction.index

/-- Number of UEs `i < numUes` that line 215 assigns to base station `m`. -/
def groupSize (numUes m : Nat) : Nat :=
  ((List.range numUes).filter (fun i => bsIndexOf numUes i = m)).length

/-! ## The scheduling loop of `tdmaMobilitynew.cc` -/

/-- Body of the inner loop of `tdmaMobilitynew.cc` (lines 261-288) for one
`(cycle, i)`. There is one base station (index 0) and no test before the two
applications are created; `kGuardTime` is a parameter. -/
def loopBodySingle (slotDuration kGuardTime cycleDur : ℚ) (cycle i : Nat) : List Slot :=
  let cycleStartTime : ℚ := cycle * cycleDur
  let uplinkStart : ℚ := cycleStartTime + ((i * 2 % UINT32_MOD : Nat) : ℚ) * slotDuration
  let downlinkStart : ℚ := uplinkStart + slotDuration
  [ ⟨cycle, i, Direction.uplink, 0, uplinkStart, uplinkStart + slotDuration - kGuardTime⟩,
    ⟨cycle, i, Direction.downlink, 0, downlinkStart,
      downlinkStart + slotDuration - kGuardTime⟩ ]

/-- The nested loops of `tdmaMobilitynew.cc` (lines 258-289) for a given trip
count of the outer loop. -/
def scheduleLoopSingle (numUes : Nat) (slotDuration kGuardTime : ℚ) (nCycles : Nat) :
    List Slot :=
  (List.range nCycles).flatMap fun cycle =>
    (List.range numUes).flatMap fun i =>
      loopBodySingle slotDuration kGuardTime (cycleDuration numUes slotDuration) cycle i

/-- Lines 249-289 of `tdmaMobilitynew.cc`: the slots for which `main` creates
applications, with the trip count of line 250 in exact arithmetic. -/
def scheduleSingle (numUes : Nat) (slotDuration simDuration kGuardTime : ℚ) : List Slot :=
  scheduleLoopSingle numUes slotDuration kGuardTime
    (numCycles simDuration (cycleDuration numUes slotDuration))

/-! ## The scheduling loops of `TDMA_RR_Static.cc` -/

/-- Constant `kNumUes` of `TDMA_RR_Static.cc`. -/
def Static.kNumUes : Nat := 250

/-- Constant `kSlotDuration` of `TDMA_RR_Static.cc`. -/
def Static.kSlotDuration : ℚ := 1 / 10

/-- Constant `kSimDuration` of `TDMA_RR_Static.cc`. -/
def Static.kSimDuration : ℚ := 60

/-- Line 37: `half = kNumUes / 2`. -/
def Static.half : Nat := Static.kNumUes / 2

/-- The loop `while (t < kSimDuration)` of lines 119-143 (and 149-173) for one
UE: each iteration creates an uplink application on `[t, t + kSlotDuration)` and
a downlink application on `[t + kSlotDuration, t + 2 * kSlotDuration)`, then adds
`2 * kSlotDuration * half` to `t`. `fuel` bounds the number of iterations and
`k` counts the iterations done. -/
def Static.ueLoop (ue bs : Nat) : Nat → Nat → ℚ → List Slot
  | 0, _, _ => []
  | fuel + 1, k, t =>
    if t < Static.kSimDuration then
      ⟨k, ue, Direction.uplink, bs, t, t + Static.kSlotDuration⟩ ::
      ⟨k, ue, Direction.downlink, bs, t + Static.kSlotDuration,
        t + 2 * Static.kSlotDuration⟩ ::
      Static.ueLoop ue bs fuel (k + 1) (t + 2 * Static.kSlotDuration * Static.half)
    else []

/-- Line 118 (and 148): the first `t` of the UE with local index `i`. -/
def Static.firstStart (i : Nat) : ℚ :=
  ((i * 2 % UINT32_MOD : Nat) : ℚ) * Static.kSlotDuration

/-- Lines 117-144: the applications of the UEs of base station 1 (index 0). -/
def Static.group1 (fuel : Nat) : List Slot :=
  (List.range Static.half).flatMap fun i =>
    Static.ueLoop i 0 fuel 0 (Static.firstStart i)

/-- Lines 147-174: the applications of the UEs of base station 2 (index 1);
the UE of local index `i` is node `half + i`. -/
def Static.group2 (fuel : Nat) : List Slot :=
  (List.range Static.half).flatMap fun i =>
    Static.ueLoop (Static.half + i) 1 fuel 0 (Static.firstStart i)

/-- Number of uplink applications in a list of slots. -/
def uplinkCount (l : List Slot) : Nat :=
  l.countP (fun x => decide (x.direction = Direction.uplink))

/-- Number of downlink applications in a list of slots. -/
def downlinkCount (l : List Slot) : Nat :=
  l.countP (fun x => decide (x.direction = Direction.downlink))

/-! ## Further definitions for the scheduling loop and the generator -/

/-- Lines 230-232 and 239-241 of `TDMA_RR_Mobility.cc`: the generator that `main`
creates for a slot, `Setup` with `kPacketsPerSlot` and `SetStartStopTime` with
the window of the slot. -/
def slotApp (kSlotDuration kGuardTime : ℚ) (kPacketsPerSlot : Nat) (x : Slot) : TdmaClientApp :=
  slotGenerator kSlotDuration kGuardTime kPacketsPerSlot x.start x.stop

/-- All candidate slots of the nested loops, before any test: for each
`cycle < nCycles` and `i < numUes` the uplink and the downlink window of lines
216-220. -/
def candidateSlots (numUes : Nat) (slotDuration kGuardTime : ℚ) (nCycles : Nat) : List Slot :=
  (List.range nCycles).flatMap fun cycle =>
    (List.range numUes).flatMap fun i =>
      [ ⟨cycle, i, Direction.uplink, bsIndexOf numUes i,
          cycle * cycleDuration numUes slotDuration
            + ((i * 2 % UINT32_MOD : Nat) : ℚ) * slotDuration,
          cycle * cycleDuration numUes slotDuration
            + ((i * 2 % UINT32_MOD : Nat) : ℚ) * slotDuration + slotDuration - kGuardTime⟩,
        ⟨cycle, i, Direction.downlink, bsIndexOf numUes i,
          cycle * cycleDuration numUes slotDuration
            + ((i * 2 % UINT32_MOD : Nat) : ℚ) * slotDuration + slotDuration,
          cycle * cycleDuration numUes slotDuration
            + ((i * 2 % UINT32_MOD : Nat) : ℚ) * slotDuration + slotDuration
            + slotDuration - kGuardTime⟩ ]

/-- The per-slot drop policy in the words of the specification: every candidate
is kept or dropped on its own, kept when `start < simDuration` and
`stop > start`. -/
def scheduleByFilter (numUes : Nat) (slotDuration simDuration kGuardTime : ℚ) : List Slot :=
  (candidateSlots numUes slotDuration kGuardTime
    (numCycles simDuration (cycleDuration numUes slotDuration))).filter
    (fun x => decide (x.start < simDuration ∧ x.stop > x.start))

/-- Line 234: the slots whose generators are pushed to `uplinkApps[i]`. -/
def uplinkApps (l : List Slot) (i : Nat) : List Slot :=
  l.filter (fun x => decide (x.node = i ∧ x.direction = Direction.uplink))

/-- Line 243: the slots whose generators are pushed to `downlinkApps[i]`. -/
def downlinkApps (l : List Slot) (i : Nat) : List Slot :=
  l.filter (fun x => decide (x.node = i ∧ x.direction = Direction.downlink))

/-- Number of packets of a burst that starts at `now` inside the window:
`min (n, ceil ((stop - now) / interval))`. -/
def burstLength (n : Nat) (interval stop now : ℚ) : Nat :=
  min n ⌈(stop - now) / interval⌉.toNat

/-! ## The generator of `mobilityTDMA.cc` -/

/-- Member function `TdmaClientApp::ScheduleNextTx` of `mobilityTDMA.cc`
(lines 102-105). -/
def Blind.ScheduleNextTx (now : ℚ) (a : TdmaClientApp) : TdmaClientApp :=
  { a with queue := scheduleHeld now a.m_interval Callback.sendPacket a.queue }

/-- Member function `TdmaClientApp::StartApplication` of `mobilityTDMA.cc`
(lines 78-81): no test of the socket, of `m_startTime` or of `m_stopTime`. -/
def Blind.StartApplication (now : ℚ) (a : TdmaClientApp) : TdmaClientApp :=
  { a with m_count := 0, queue := scheduleHeld now 0 Callback.sendPacket a.queue }

/-- Member function `TdmaClientApp::SendPacket` of `mobilityTDMA.cc`
(lines 92-100): no test of `m_stopTime`. -/
def Blind.SendPacket (now : ℚ) (a : TdmaClientApp) : TdmaClientApp :=
  let a1 := { a with sent := a.sent ++ [now], m_count := (a.m_count + 1) % UINT32_MOD }
  if a1.m_count < a1.m_nPackets then Blind.ScheduleNextTx now a1 else a1

/-- One dispatch of the simulator for the generator of `mobilityTDMA.cc`. -/
def Blind.step (a : TdmaClientApp) : Option TdmaClientApp :=
  match earliest a.queue with
  | none => none
  | some e =>
    let a1 := { a with queue := a.queue.erase e }
    match e.cb with
    | Callback.startApplication => some (Blind.StartApplication e.time a1)
    | Callback.sendPacket => some (Blind.SendPacket e.time a1)

/-- At most `fuel` dispatches for the generator of `mobilityTDMA.cc`. -/
def Blind.run : Nat → TdmaClientApp → TdmaClientApp
  | 0, a => a
  | fuel + 1, a =>
    match Blind.step a with
    | none => a
    | some a1 => Blind.run fuel a1

/-! ## The round-robin loop of `tdma1.cc` -/

/-- Start and stop time of an `ns3::Application`, and the number of calls of
`ScheduleUeTraffic` made on it so far (bookkeeping of the embedding). -/
structure ClientApp where
  startTime : ℚ
  stopTime : ℚ
  calls : Nat
  deriving DecidableEq, Repr

/-- A freshly installed client: start and stop time 0, no call yet. -/
def ClientApp.new : ClientApp := ⟨0, 0, 0⟩

/-- Function `ScheduleUeTraffic` of `tdma1.cc` (lines 19-22). -/
def ScheduleUeTraffic (app : ClientApp) (startTime duration : ℚ) : ClientApp :=
  { app with startTime := startTime, stopTime := startTime + duration,
             calls := app.calls + 1 }

/-- The loop `while (currentTime < kSimDuration)` of `tdma1.cc` (lines 91-94);
`fuel` bounds the number of iterations. -/
def roundRobinLoop (kNumUes : Nat) (kSlotDuration kSimDuration : ℚ) :
    Nat → ℚ → ClientApp → ClientApp
  | 0, _, app => app
  | fuel + 1, currentTime, app =>
    if currentTime < kSimDuration then
      roundRobinLoop kNumUes kSlotDuration kSimDuration fuel
        (currentTime + kSlotDuration * kNumUes)
        (ScheduleUeTraffic app currentTime kSlotDuration)
    else app

/-- Lines 86-94 of `tdma1.cc` for the UE `i`: the installed client after its
while loop, which starts at `currentTime = i * kSlotDuration`. -/
def ueClient (kNumUes : Nat) (kSlotDuration kSimDuration : ℚ) (fuel i : Nat) : ClientApp :=
  roundRobinLoop kNumUes kSlotDuration kSimDuration fuel ((i : ℚ) * kSlotDuration)
    ClientApp.new

/-- Number of iterations that the claim gives for the loop of UE `i`:
`ceil ((T - i * d) / (N * d))`. -/
def roundCount (kNumUes : Nat) (kSlotDuration kSimDuration : ℚ) (i : Nat) : Nat :=
  ⌈(kSimDuration - (i : ℚ) * kSlotDuration) / ((kNumUes : ℚ) * kSlotDuration)⌉.toNat

/-! ## Lines 209-210 in `double` arithmetic -/

/-- Nearest integer of a rational, a tie going to the even neighbour. -/
def roundHalfEven (x : ℚ) : ℤ :=
  if x - ⌊x⌋ < 1 / 2 then ⌊x⌋
  else if 1 / 2 < x - ⌊x⌋ then ⌊x⌋ + 1
  else if ⌊x⌋ % 2 = 0 then ⌊x⌋ else ⌊x⌋ + 1

/-- Rounding of an exact result to `double` (IEEE 754 binary64, round to
nearest, ties to even): 53 significant bits are kept. The exponent is not
bounded: overflow to infinity and the subnormal numbers below `2^-1022` are
outside the model. -/
def binary64 (x : ℚ) : ℚ :=
  if x = 0 then 0
  else (roundHalfEven (x / 2 ^ (Int.log 2 |x| - 52)) : ℚ) * 2 ^ (Int.log 2 |x| - 52)

/-- Line 209 as the program evaluates it: `2 * slotDuration` and the product
with `numUes` (converted to `double` without error) are two `double`
operations, each rounded. -/
def cycleDurationBinary64 (numUes : Nat) (slotDuration : ℚ) : ℚ :=
  binary64 (binary64 (2 * slotDuration) * numUes)

/-- Line 210 as the program evaluates it, for a positive cycle duration: the
quotient is rounded to `double` and the conversion to `uint32_t` truncates it
(the language defines the conversion for a quotient in `[0, 2^32)`). -/
def numCyclesBinary64 (numUes : Nat) (slotDuration simDuration : ℚ) : Nat :=
  (binary64 (simDuration / cycleDurationBinary64 numUes slotDuration)).floor.toNat

/-- A trip count of the outer loop that exceeds the exact quotient
`simDuration / cycleDur` by no more than the roundings of lines 209-210 allow
(three `double` operations, each with a relative error of at most `2^-53`). It
holds of the exact floor `numCycles` and of `numCyclesBinary64`. -/
def WithinRounding (simDuration cycleDur : ℚ) (nCycles : Nat) : Prop :=
  (nCycles : ℚ) * cycleDur ≤ simDuration * (1 + 1 / 2 ^ 51)

instance (simDuration cycleDur : ℚ) (nCycles : Nat) :
    Decidable (WithinRounding simDuration cycleDur nCycles) := by
  unfold WithinRounding; infer_instance

/-- The `double` nearest to `0.1`, the value that the literal of `kSlotDuration`
denotes. -/
def kSlotDurationBinary64 : ℚ := 3602879701896397 / 36028797018963968

/-! ## Scheduling loop: slot invariant and disjointness -/

/-- What the loop body fixes about each slot it creates. -/
theorem mem_loopBody {numUes : Nat} {slotDuration simDuration kGuardTime cycleDur : ℚ}
    {cycle i : Nat} {x : Slot}
    (hx : x ∈ loopBody numUes slotDuration simDuration kGuardTime cycleDur cycle i) :
    x.cycle = cycle ∧ x.node = i ∧
    x.bsIndex = bsIndexOf numUes i ∧
    x.start = cycle * cycleDur +
      ((i * 2 % UINT32_MOD + x.direction.index : Nat) : ℚ) * slotDuration ∧
    x.stop = x.start + slotDuration - kGuardTime ∧
    x.start < x.stop ∧ x.start < simDuration := by
  unfold loopBody at hx
  simp only at hx
  split_ifs at hx with h1 h2
  · simp at hx
  · simp at hx
  · simp only [not_or, not_le, ge_iff_le] at h1 h2
    simp only [List.mem_cons, List.mem_singleton, List.not_mem_nil, or_false] at hx
    rcases hx with rfl | rfl
    · refine ⟨rfl, rfl, rfl, ?_, rfl, h1.2, h1.1⟩
      simp [Direction.index]
    · refine ⟨rfl, rfl, rfl, ?_, rfl, h2.2, h2.1⟩
      simp only [Direction.index]
      push_cast
      ring

/-- Membership in the nested loops. -/
theorem mem_scheduleLoop {numUes : Nat} {slotDuration simDuration kGuardTime : ℚ}
    {nCycles : Nat} {x : Slot} :
    x ∈ scheduleLoop numUes slotDuration simDuration kGuardTime nCycles ↔
    ∃ cycle, cycle < nCycles ∧ ∃ i, i < numUes ∧
      x ∈ loopBody numUes slotDuration simDuration kGuardTime
        (cycleDuration numUes slotDuration) cycle i := by
  simp [scheduleLoop, List.mem_flatMap, List.mem_range]

/-- Two slots whose starts are integer multiples `k1 < k2` of the slot
duration: the earlier one stops before the later one starts. -/
theorem stop_le_start_of_index_lt {d g : ℚ} (hd : 0 < d) (hg : 0 ≤ g) {k1 k2 : Nat}
    (hk : k1 < k2) {x y : Slot} (hx : x.start = (k1 : ℚ) * d)
    (hxs : x.stop = x.start + d - g) (hy : y.start = (k2 : ℚ) * d) :
    x.stop ≤ y.start := by
  have h : (k1 : ℚ) + 1 ≤ k2 := by exact_mod_cast hk
  rw [hxs, hx, hy]
  nlinarith

/-- The start of a slot as a multiple of the slot duration. -/
theorem start_eq_index_mul {numUes : Nat} {slotDuration simDuration kGuardTime : ℚ}
    {cycle i : Nat} {x : Slot}
    (hx : x ∈ loopBody numUes slotDuration simDuration kGuardTime
      (cycleDuration numUes slotDuration) cycle i) :
    x.start = ((cycle * (2 * numUes) + (i * 2 % UINT32_MOD + x.direction.index) : Nat) : ℚ)
      * slotDuration := by
  rw [(mem_loopBody hx).2.2.2.1, cycleDuration]
  push_cast
  ring

theorem Direction.index_le_one (d : Direction) : d.index ≤ 1 := by
  cases d <;> simp [Direction.index]

/-- Slots of one loop iteration are disjoint. -/
theorem loopBody_pairwise (numUes : Nat) (slotDuration simDuration kGuardTime cycleDur : ℚ)
    (hg : 0 ≤ kGuardTime) (cycle i : Nat) :
    (loopBody numUes slotDuration simDuration kGuardTime cycleDur cycle i).Pairwise
      (fun x y => x.bsIndex = y.bsIndex → Slot.Disjoint x y) := by
  unfold loopBody
  simp only
  split_ifs
  · exact List.Pairwise.nil
  · exact List.Pairwise.nil
  · simp only [List.pairwise_cons, List.mem_singleton, forall_eq, List.not_mem_nil,
      false_implies, implies_true, List.Pairwise.nil, and_true, Slot.Disjoint]
    intro _
    left
    linarith

/-- Disjointness for any trip count of the outer loop. -/
theorem scheduleLoop_pairwise (numUes : Nat) (slotDuration simDuration kGuardTime : ℚ)
    (nCycles : Nat) (hN : numUes < UINT32_MOD) (hd : 0 < slotDuration)
    (hg : 0 ≤ kGuardTime) :
    (scheduleLoop numUes slotDuration simDuration kGuardTime nCycles).Pairwise
      (fun x y => x.bsIndex = y.bsIndex → Slot.Disjoint x y) := by
  unfold scheduleLoop
  rw [List.pairwise_flatMap]
  refine ⟨fun c _ => ?_, ?_⟩
  · rw [List.pairwise_flatMap]
    refine ⟨fun i _ => loopBody_pairwise _ _ _ _ _ hg c i, ?_⟩
    refine (List.pairwise_lt_range numUes).imp_of_mem ?_
    intro i1 i2 h1 h2 hlt x hx y hy hbs
    rw [List.mem_range] at h1 h2
    have ex := mem_loopBody hx
    have ey := mem_loopBody hy
    have sx := start_eq_index_mul hx
    have sy := start_eq_index_mul hy
    have kx := x.direction.index_le_one
    have ky := y.direction.index_le_one
    rw [ex.2.2.1, ey.2.2.1] at hbs
    simp only [UINT32_MOD] at hN sx sy
    unfold bsIndexOf at hbs
    have hne : i1 * 2 % 4294967296 + x.direction.index ≠
        i2 * 2 % 4294967296 + y.direction.index := by
      split_ifs at hbs <;> omega
    rcases Nat.lt_or_gt_of_ne hne with hlt2 | hgt2
    · left
      exact stop_le_start_of_index_lt hd hg (by omega) sx ex.2.2.2.2.1 sy
    · right
      exact stop_le_start_of_index_lt hd hg (by omega) sy ey.2.2.2.2.1 sx
  · refine (List.pairwise_lt_range nCycles).imp ?_
    intro c1 c2 hlt x hx y hy _
    rw [List.mem_flatMap] at hx hy
    obtain ⟨i1, h1, hx⟩ := hx
    obtain ⟨i2, h2, hy⟩ := hy
    rw [List.mem_range] at h1 h2
    have ex := mem_loopBody hx
    have sx := start_eq_index_mul hx
    have sy := start_eq_index_mul hy
    have kx := x.direction.index_le_one
    simp only [UINT32_MOD] at hN sx sy
    have hmul : (c1 + 1) * (2 * numUes) ≤ c2 * (2 * numUes) :=
      Nat.mul_le_mul_right _ hlt
    rw [Nat.add_mul, Nat.one_mul] at hmul
    left
    exact stop_le_start_of_index_lt hd hg (by omega) sx ex.2.2.2.2.1 sy

/-- C1. Disjointness: for a `uint32_t` number of UEs, a positive slot duration
and a non-negative guard time (any simulation duration), any two slots at
different positions of the output of the scheduling loop of
`TDMA_RR_Mobility.cc` that carry the same base-station index have disjoint
half-open intervals `[start, stop)`. -/
theorem schedule_disjoint (numUes : Nat) (slotDuration simDuration kGuardTime : ℚ)
    (hN : numUes < UINT32_MOD) (hd : 0 < slotDuration) (hg : 0 ≤ kGuardTime) :
    (schedule numUes slotDuration simDuration kGuardTime).Pairwise
      (fun x y => x.bsIndex = y.bsIndex → Slot.Disjoint x y) :=
  scheduleLoop_pairwise numUes slotDuration simDuration kGuardTime _ hN hd hg

/-- Witness of `schedule_disjoint`: three UEs, slot 0.1 s, horizon 0.7 s, guard
4 ms. -/
theorem schedule_disjoint_witness :
    3 < UINT32_MOD ∧ (0 : ℚ) < 1 / 10 ∧ (0 : ℚ) ≤ 4 / 1000 ∧
    (schedule 3 (1 / 10) (7 / 10) (4 / 1000)).Pairwise
      (fun x y => x.bsIndex = y.bsIndex → Slot.Disjoint x y) :=
  ⟨by decide, by norm_num, by norm_num,
    schedule_disjoint 3 (1 / 10) (7 / 10) (4 / 1000) (by decide) (by norm_num) (by norm_num)⟩

/-! ## Generator: single dispatch steps -/

theorem earliest_singleton (e : Event) : earliest [e] = some e := rfl

theorem earliest_eq_none_iff (q : List Event) : earliest q = none ↔ q = [] := by
  cases q with
  | nil => simp [earliest]
  | cons e q =>
    simp only [earliest]
    cases earliest q with
    | none => simp
    | some e1 =>
      simp only
      split_ifs <;> simp

theorem step_eq_none_iff (s : TdmaClientApp) : step s = none ↔ s.queue = [] := by
  rw [← earliest_eq_none_iff]
  unfold step
  cases earliest s.queue with
  | none => simp
  | some e =>
    simp only
    cases h : e.cb <;> simp

/-- Dispatch of the only pending event when it is a `StartApplication`
callback. -/
theorem step_start (s : TdmaClientApp) (t : ℚ) (h : Bool)
    (hq : s.queue = [⟨t, Callback.startApplication, h⟩]) :
    step s = some (StartApplication t { s with queue := [] }) := by
  simp [step, hq, earliest]

/-- Dispatch of the only pending event when it is a `SendPacket` callback. -/
theorem step_send (s : TdmaClientApp) (t : ℚ) (h : Bool)
    (hq : s.queue = [⟨t, Callback.sendPacket, h⟩]) :
    step s = some (SendPacket t { s with queue := [] }) := by
  simp [step, hq, earliest]

/-- Run of `StartApplication` on an instance with a socket and nothing pending. -/
theorem StartApplication_cases (now : ℚ) (b : TdmaClientApp) (hs : b.m_socket = true)
    (hq : b.queue = []) :
    (now < b.m_startTime ∧ StartApplication now b =
        { b with m_count := 0,
                 queue := [⟨b.m_startTime, Callback.startApplication, false⟩] }) ∨
    (b.m_startTime ≤ now ∧ b.m_stopTime < now ∧
      StartApplication now b = { b with m_count := 0 }) ∨
    (b.m_startTime ≤ now ∧ now ≤ b.m_stopTime ∧ StartApplication now b =
        { b with m_count := 0, queue := [⟨now, Callback.sendPacket, true⟩] }) := by
  unfold StartApplication
  simp only [hs, Bool.true_eq_false, if_false, hq]
  by_cases h1 : now < b.m_startTime
  · left
    simp [h1, scheduleDiscard]
  · right
    by_cases h2 : now > b.m_stopTime
    · left
      exact ⟨not_lt.1 h1, h2, by simp [h1, h2]⟩
    · right
      exact ⟨not_lt.1 h1, not_lt.1 h2, by simp [h1, h2, scheduleHeld]⟩

/-- Run of `SendPacket` on an instance with nothing else pending. -/
theorem SendPacket_cases (now : ℚ) (b : TdmaClientApp) (hq : b.queue = []) :
    (b.m_stopTime ≤ now ∧ SendPacket now b = b) ∨
    (now < b.m_stopTime ∧
      (b.m_count + 1) % UINT32_MOD < b.m_nPackets ∧ now + b.m_interval < b.m_stopTime ∧
      SendPacket now b =
        { b with sent := b.sent ++ [now], m_count := (b.m_count + 1) % UINT32_MOD,
                 queue := [⟨now + b.m_interval, Callback.sendPacket, true⟩] }) ∨
    (now < b.m_stopTime ∧
      ¬ ((b.m_count + 1) % UINT32_MOD < b.m_nPackets ∧ now + b.m_interval < b.m_stopTime) ∧
      SendPacket now b =
        { b with sent := b.sent ++ [now], m_count := (b.m_count + 1) % UINT32_MOD }) := by
  unfold SendPacket
  by_cases h1 : now ≥ b.m_stopTime
  · left
    exact ⟨h1, by simp [h1]⟩
  · right
    have h1' : now < b.m_stopTime := not_le.1 h1
    by_cases h2 : (b.m_count + 1) % UINT32_MOD < b.m_nPackets ∧
        now + b.m_interval < b.m_stopTime
    · left
      refine ⟨h1', h2.1, h2.2, ?_⟩
      simp [h1, h2, ScheduleNextTx, scheduleHeld, hq]
    · right
      refine ⟨h1', h2, ?_⟩
      simp only [h1, if_false]
      rw [if_neg h2]

/-! ## Generator: the invariant is kept -/

theorem Inv.startApplication {a b : TdmaClientApp} (now : ℚ) (hs : b.m_socket = true)
    (hn : b.m_nPackets = a.m_nPackets) (hi : b.m_interval = a.m_interval)
    (h1 : b.m_startTime = a.m_startTime) (h2 : b.m_stopTime = a.m_stopTime)
    (hq : b.queue = []) (hsent : b.sent = []) :
    Inv a (StartApplication now b) := by
  rcases StartApplication_cases now b hs hq with ⟨_, e⟩ | ⟨_, _, e⟩ | ⟨hlo, _, e⟩
  · rw [e]
    exact ⟨hs, hn, hi, h1, h2, Or.inr (Or.inl ⟨by simp [h1], hsent, rfl⟩),
      by simp [hsent], by simp [hsent]⟩
  · rw [e]
    exact ⟨hs, hn, hi, h1, h2, Or.inl hq, by simp [hsent], by simp [hsent]⟩
  · rw [e]
    refine ⟨hs, hn, hi, h1, h2, Or.inr (Or.inr ⟨now, rfl, fun _ => h1 ▸ hlo, fun h => h⟩),
      by simp [hsent], by simp [hsent]⟩

theorem Inv.sendPacket {a s : TdmaClientApp} (t : ℚ) (hinv : Inv a s)
    (ht : 0 ≤ a.m_interval → a.m_startTime ≤ t)
    (hc : 1 ≤ a.m_nPackets → s.m_count < a.m_nPackets) :
    Inv a (SendPacket t { s with queue := [] }) := by
  obtain ⟨hs, hn, hi, h1, h2, _, hw, hcnt⟩ := hinv
  have hcount : 1 ≤ a.m_nPackets → a.m_nPackets < UINT32_MOD →
      (s.sent ++ [t]).length = (s.m_count + 1) % UINT32_MOD ∧
      (s.m_count + 1) % UINT32_MOD ≤ a.m_nPackets := by
    intro hn1 hn2
    have hlt := hc hn1
    have hmod : (s.m_count + 1) % UINT32_MOD = s.m_count + 1 :=
      Nat.mod_eq_of_lt (by omega)
    rw [hmod, List.length_append, (hcnt hn1 hn2).1]
    exact ⟨rfl, hlt⟩
  rcases SendPacket_cases t { s with queue := [] } rfl with ⟨_, e⟩ | ⟨hlt, hc1, _, e⟩ | ⟨hlt, _, e⟩
  · rw [e]
    exact ⟨hs, hn, hi, h1, h2, Or.inl rfl, hw, hcnt⟩
  · rw [e]
    refine ⟨hs, hn, hi, h1, h2, Or.inr (Or.inr ⟨_, rfl, ?_, ?_⟩), ?_, hcount⟩
    · intro h0
      have := ht h0
      simp only [hi]
      linarith
    · intro _
      simpa [hn] using hc1
    · intro h0 u hu
      simp only [List.mem_append, List.mem_singleton] at hu
      rcases hu with hu | rfl
      · exact hw h0 u hu
      · exact ⟨ht h0, by simpa [h2] using hlt⟩
  · rw [e]
    refine ⟨hs, hn, hi, h1, h2, Or.inl rfl, ?_, hcount⟩
    intro h0 u hu
    simp only [List.mem_append, List.mem_singleton] at hu
    rcases hu with hu | rfl
    · exact hw h0 u hu
    · exact ⟨ht h0, by simpa [h2] using hlt⟩

theorem Inv.step {a s s1 : TdmaClientApp} (hinv : Inv a s) (hstep : step s = some s1) :
    Inv a s1 := by
  rcases hinv.shape with hq | ⟨hq, hsent, _⟩ | ⟨t, hq, ht, hc⟩
  · rw [(step_eq_none_iff s).2 hq] at hstep
    exact absurd hstep (by simp)
  · rw [step_start s _ _ hq] at hstep
    cases hstep
    exact Inv.startApplication _ hinv.socket hinv.nPackets hinv.interval hinv.startTime
      hinv.stopTime rfl hsent
  · rw [step_send s _ _ hq] at hstep
    cases hstep
    exact Inv.sendPacket t hinv ht hc

theorem Inv.stopApplication {a s : TdmaClientApp} (hinv : Inv a s) :
    Inv a (StopApplication s) := by
  rcases hinv.shape with hq | ⟨hq, _, _⟩ | ⟨t, hq, _, _⟩
  · have e : StopApplication s = s := by simp [StopApplication, hq, isPending]
    rw [e]
    exact hinv
  · have e : StopApplication s = s := by simp [StopApplication, hq, isPending]
    rw [e]
    exact hinv
  · have e : StopApplication s = { s with queue := [] } := by
      simp [StopApplication, hq, isPending, cancelHeld]
    rw [e]
    exact ⟨hinv.socket, hinv.nPackets, hinv.interval, hinv.startTime, hinv.stopTime,
      Or.inl rfl, hinv.window, hinv.count⟩

/-- Every state reachable from a configured generator satisfies the
invariant. -/
theorem Reachable.inv {a s : TdmaClientApp} (ha : Configured a) (h : Reachable a s) :
    Inv a s := by
  induction h with
  | activate now => exact Inv.startApplication now ha.1 rfl rfl rfl rfl ha.2.2.1 ha.2.2.2
  | fire _ hstep ih => exact ih.step hstep
  | stop _ ih => exact ih.stopApplication

/-! ## Generator: running until nothing is pending -/

theorem run_of_queue_nil (k : Nat) (s : TdmaClientApp) (hq : s.queue = []) : run k s = s := by
  cases k with
  | zero => rfl
  | succ k => simp [run, (step_eq_none_iff s).2 hq]

theorem run_succ_of_step {s s1 : TdmaClientApp} (k : Nat) (h : step s = some s1) :
    run (k + 1) s = run k s1 := by
  simp [run, h]

theorem run_add (j k : Nat) (s : TdmaClientApp) : run (j + k) s = run k (run j s) := by
  induction j generalizing s with
  | zero => simp [run]
  | succ j ih =>
    rw [Nat.succ_add]
    cases h : step s with
    | none =>
      have hq := (step_eq_none_iff s).1 h
      rw [run_of_queue_nil _ s hq, run_of_queue_nil _ s hq, run_of_queue_nil _ s hq]
    | some s1 => rw [run_succ_of_step _ h, run_succ_of_step _ h, ih]

/-- Once nothing is pending, more fuel changes nothing. -/
theorem run_of_le {j k : Nat} (hjk : j ≤ k) (s : TdmaClientApp) (hq : (run j s).queue = []) :
    run k s = run j s := by
  obtain ⟨d, rfl⟩ := Nat.exists_eq_add_of_le hjk
  rw [run_add, run_of_queue_nil _ _ hq]

theorem Reachable.run {a s : TdmaClientApp} (h : Reachable a s) (k : Nat) :
    Reachable a (Tdma.run k s) := by
  induction k generalizing s with
  | zero => exact h
  | succ k ih =>
    cases hs : step s with
    | none => rw [run_of_queue_nil _ s ((step_eq_none_iff s).1 hs)]; exact h
    | some s1 => rw [run_succ_of_step _ hs]; exact ih (h.fire hs)

theorem budget_step {a s s1 : TdmaClientApp} (hinv : Inv a s) (hn : 1 ≤ a.m_nPackets)
    (hW : a.m_nPackets < UINT32_MOD) (hstep : step s = some s1) :
    budget s1 + 1 ≤ budget s := by
  rcases hinv.shape with hq | ⟨hq, _, _⟩ | ⟨t, hq, _, hc⟩
  · rw [(step_eq_none_iff s).2 hq] at hstep
    exact absurd hstep (by simp)
  · rw [step_start s _ _ hq] at hstep
    cases hstep
    have hb : budget s = a.m_nPackets + 1 := by simp [budget, hq, hinv.nPackets]
    rw [hb]
    rcases StartApplication_cases a.m_startTime { s with queue := [] } hinv.socket rfl with
      ⟨hlt, _⟩ | ⟨_, _, e⟩ | ⟨_, _, e⟩
    · simp only [hinv.startTime] at hlt
      exact absurd hlt (lt_irrefl _)
    · rw [e]; simp [budget]
    · rw [e]; simp [budget, hinv.nPackets]
  · rw [step_send s _ _ hq] at hstep
    cases hstep
    have hlt := hc hn
    have hb : budget s = a.m_nPackets - s.m_count := by simp [budget, hq, hinv.nPackets]
    rw [hb]
    rcases SendPacket_cases t { s with queue := [] } rfl with ⟨_, e⟩ | ⟨_, _, _, e⟩ | ⟨_, _, e⟩
    · rw [e]; simp only [budget]; omega
    · rw [e]
      have hmod : (s.m_count + 1) % UINT32_MOD = s.m_count + 1 :=
        Nat.mod_eq_of_lt (by omega)
      simp only [budget, hmod, hinv.nPackets]
      omega
    · rw [e]; simp only [budget]; omega

theorem queue_nil_of_budget_zero {a s : TdmaClientApp} (hinv : Inv a s)
    (hn : 1 ≤ a.m_nPackets) (hb : budget s = 0) : s.queue = [] := by
  rcases hinv.shape with hq | ⟨hq, _, _⟩ | ⟨t, hq, _, hc⟩
  · exact hq
  · simp [budget, hq] at hb
  · have := hc hn
    simp only [budget, hq, hinv.nPackets] at hb
    omega

/-- After as many dispatches as the budget nothing is pending. -/
theorem run_dormant {a : TdmaClientApp} (hn : 1 ≤ a.m_nPackets)
    (hW : a.m_nPackets < UINT32_MOD) (k : Nat) :
    ∀ s, Inv a s → budget s ≤ k → (run k s).queue = [] := by
  induction k with
  | zero =>
    intro s hinv hb
    exact queue_nil_of_budget_zero hinv hn (Nat.le_zero.1 hb)
  | succ k ih =>
    intro s hinv hb
    cases hs : step s with
    | none =>
      have hq := (step_eq_none_iff s).1 hs
      rw [run_of_queue_nil _ s hq]
      exact hq
    | some s1 =>
      rw [run_succ_of_step _ hs]
      have := budget_step hinv hn hW hs
      exact ih s1 (hinv.step hs) (by omega)

theorem budget_StartApplication {a : TdmaClientApp} (ha : Configured a) (now : ℚ) :
    budget (StartApplication now a) ≤ a.m_nPackets + 1 ∧
    (a.m_startTime ≤ now → budget (StartApplication now a) ≤ a.m_nPackets) := by
  rcases StartApplication_cases now a ha.1 ha.2.2.1 with ⟨hlt, e⟩ | ⟨_, _, e⟩ | ⟨_, _, e⟩
  · rw [e]
    exact ⟨by simp [budget], fun h => absurd hlt (not_lt.2 h)⟩
  · rw [e]
    exact ⟨by simp [budget, ha.2.2.1], fun _ => by simp [budget, ha.2.2.1]⟩
  · rw [e]
    exact ⟨by simp [budget], fun _ => by simp [budget]⟩

/-- C4. Window confinement (`TDMA_RR_Mobility.cc`, `tdmaMobilitynew.cc`): for a
configured generator with a positive interval, after an activation at any time
followed by any event dispatches and `StopApplication` calls, every packet was
sent at a time `t` with `m_startTime ≤ t < m_stopTime`. -/
theorem window_confinement (a s : TdmaClientApp) (ha : Configured a)
    (hI : 0 < a.m_interval) (h : Reachable a s) :
    ∀ t ∈ s.sent, a.m_startTime ≤ t ∧ t < a.m_stopTime :=
  (h.inv ha).window hI.le

/-- C9. Single outstanding callback: in every state reached from a configured
generator by one activation followed by any event dispatches and
`StopApplication` calls, at most one callback of the instance is pending
(re-registered `StartApplication` and `SendPacket` events counted together). -/
theorem single_outstanding_callback (a s : TdmaClientApp) (ha : Configured a)
    (h : Reachable a s) : s.queue.length ≤ 1 := by
  rcases (h.inv ha).shape with hq | ⟨hq, _, _⟩ | ⟨t, hq, _, _⟩ <;> simp [hq]

/-- C8. Bounded burst: for a configured generator with `1 ≤ m_nPackets`
(a `uint32_t`), whatever the window, the interval and the activation time, the
counter `m_count` and the number of packets sent never exceed `m_nPackets`;
after at most `m_nPackets` `SendPacket` dispatches (preceded by one
`StartApplication` dispatch when the activation was early) nothing is pending. -/
theorem bounded_burst (a : TdmaClientApp) (ha : Configured a) (hn : 1 ≤ a.m_nPackets)
    (hW : a.m_nPackets < UINT32_MOD) :
    (∀ s, Reachable a s → s.m_count ≤ a.m_nPackets ∧ s.sent.length ≤ a.m_nPackets) ∧
    (∀ now, (run (a.m_nPackets + 1) (StartApplication now a)).queue = []) ∧
    (∀ now, a.m_startTime ≤ now →
      (run a.m_nPackets (StartApplication now a)).queue = []) := by
  refine ⟨fun s h => ?_, fun now => ?_, fun now hnow => ?_⟩
  · have hc := (h.inv ha).count hn hW
    exact ⟨hc.2, hc.1 ▸ hc.2⟩
  · exact run_dormant hn hW _ _ ((Reachable.activate now).inv ha)
      (budget_StartApplication ha now).1
  · exact run_dormant hn hW _ _ ((Reachable.activate now).inv ha)
      ((budget_StartApplication ha now).2 hnow)

/-! ## Generator: the paced burst -/

theorem range_succ_map_pace (t i : ℚ) (m : Nat) :
    (List.range (m + 1)).map (fun k : Nat => t + (k : ℚ) * i) =
      t :: (List.range m).map (fun k : Nat => t + i + (k : ℚ) * i) := by
  rw [List.range_succ_eq_map, List.map_cons, List.map_map]
  congr 1
  · simp
  · apply List.map_congr_left
    intro k _
    simp only [Function.comp, Nat.succ_eq_add_one]
    push_cast
    ring

/-- A burst of `m + 1` packets: the pending `SendPacket` event at time `t` and
the `m` that follow it, spaced by the interval, all inside the window; the
burst ends because the counter reaches `m_nPackets` or because the next send
would not be before `m_stopTime`. -/
theorem run_sends (m : Nat) : ∀ (s : TdmaClientApp) (t : ℚ),
    s.queue = [⟨t, Callback.sendPacket, true⟩] →
    0 ≤ s.m_interval →
    s.m_count + (m + 1) ≤ s.m_nPackets → s.m_nPackets < UINT32_MOD →
    t + (m : ℚ) * s.m_interval < s.m_stopTime →
    (s.m_count + (m + 1) = s.m_nPackets ∨
      s.m_stopTime ≤ t + ((m : ℚ) + 1) * s.m_interval) →
    (run (m + 1) s).queue = [] ∧
    (run (m + 1) s).sent =
      s.sent ++ (List.range (m + 1)).map (fun k : Nat => t + (k : ℚ) * s.m_interval) ∧
    (run (m + 1) s).m_count = s.m_count + (m + 1) := by
  induction m with
  | zero =>
    intro s t hq hI hc hW ht hend
    have hmod : (s.m_count + 1) % UINT32_MOD = s.m_count + 1 :=
      Nat.mod_eq_of_lt (by omega)
    simp only [Nat.cast_zero, zero_mul, add_zero, zero_add, one_mul] at ht hend hc
    rw [run_succ_of_step 0 (step_send s t true hq)]
    simp only [run]
    rcases SendPacket_cases t { s with queue := [] } rfl with
      ⟨hcl, _⟩ | ⟨_, hc1, hn1, _⟩ | ⟨_, _, e⟩
    · exact absurd ht (not_lt.2 hcl)
    · simp only [hmod] at hc1 hn1
      rcases hend with h | h
      · omega
      · exact absurd hn1 (not_lt.2 h)
    · rw [e]
      simp [hmod, List.range_succ]
  | succ m ih =>
    intro s t hq hI hc hW ht hend
    have hmod : (s.m_count + 1) % UINT32_MOD = s.m_count + 1 :=
      Nat.mod_eq_of_lt (by omega)
    have hm : (0 : ℚ) ≤ (m : ℚ) := Nat.cast_nonneg m
    push_cast at ht hend
    have hmI : 0 ≤ (m : ℚ) * s.m_interval := mul_nonneg hm hI
    rw [run_succ_of_step (m + 1) (step_send s t true hq)]
    rcases SendPacket_cases t { s with queue := [] } rfl with
      ⟨hcl, _⟩ | ⟨_, _, _, e⟩ | ⟨_, hno, _⟩
    · simp only at hcl
      exact absurd hcl (not_le.2 (by nlinarith))
    · rw [e]
      simp only [hmod]
      have key := ih
        { s with sent := s.sent ++ [t], m_count := s.m_count + 1,
                 queue := [⟨t + s.m_interval, Callback.sendPacket, true⟩] }
        (t + s.m_interval) rfl hI (by simp only; omega) hW
        (by simp only; linarith)
        (by
          simp only
          rcases hend with h | h
          · left; omega
          · right; linarith)
      simp only at key
      refine ⟨key.1, ?_, ?_⟩
      · rw [key.2.1, range_succ_map_pace t s.m_interval (m + 1), List.append_assoc]
        rfl
      · rw [key.2.2]; omega
    · exfalso
      apply hno
      simp only [hmod]
      exact ⟨by omega, by nlinarith⟩

/-- C5. Missed-window drop: a configured generator whose `StartApplication`
runs at a time `now ≥ m_stopTime` (equality included) never sends a packet, and
once the event registered by the activation (if any) has been dispatched
nothing is pending. -/
theorem missed_window_drop (a : TdmaClientApp) (now : ℚ) (ha : Configured a)
    (hnow : a.m_stopTime ≤ now) :
    (∀ fuel, (run fuel (StartApplication now a)).sent = []) ∧
    (∀ fuel, 1 ≤ fuel → (run fuel (StartApplication now a)).queue = []) := by
  obtain ⟨hs, hc, hq, hsent⟩ := ha
  have one : (run 1 (StartApplication now a)).queue = [] ∧
      (run 1 (StartApplication now a)).sent = [] ∧
      (StartApplication now a).sent = [] := by
    rcases StartApplication_cases now a hs hq with ⟨hlt, e⟩ | ⟨_, _, e⟩ | ⟨_, hle, e⟩
    · rw [e, run_succ_of_step 0 (step_start _ _ _ rfl)]
      simp only [run]
      rcases StartApplication_cases a.m_startTime
          { a with m_count := 0, queue := [] } hs rfl with
        ⟨h, _⟩ | ⟨_, _, e1⟩ | ⟨_, h, _⟩
      · exact absurd h (lt_irrefl _)
      · simp only at e1
        rw [e1]
        exact ⟨rfl, hsent, hsent⟩
      · simp only at h
        exact absurd (lt_of_le_of_lt hnow hlt) (not_lt.2 h)
    · rw [e, run_of_queue_nil 1 _ (by exact hq)]
      exact ⟨hq, hsent, hsent⟩
    · rw [e, run_succ_of_step 0 (step_send _ _ _ rfl)]
      simp only [run]
      rcases SendPacket_cases now { a with m_count := 0, queue := [] } rfl with
        ⟨_, e1⟩ | ⟨h, _⟩ | ⟨h, _⟩
      · rw [e1]
        exact ⟨rfl, hsent, hsent⟩
      · exact absurd h (not_lt.2 hnow)
      · exact absurd h (not_lt.2 hnow)
  refine ⟨fun fuel => ?_, fun fuel hf => ?_⟩
  · cases fuel with
    | zero => exact one.2.2
    | succ k => rw [run_of_le (Nat.succ_le_succ (Nat.zero_le k)) _ one.1]; exact one.2.1
  · rw [run_of_le hf _ one.1]; exact one.1

/-- C6. In-window activation: when `StartApplication` of a configured generator
runs at a time `now` with `m_startTime ≤ now < m_stopTime`, it registers one
`SendPacket` event for time `now` itself, and the dispatch of that event sends
the first packet at time `now` and leaves `m_count = 1`. -/
theorem in_window_activation (a : TdmaClientApp) (now : ℚ) (ha : Configured a)
    (h1 : a.m_startTime ≤ now) (h2 : now < a.m_stopTime) :
    (StartApplication now a).queue = [⟨now, Callback.sendPacket, true⟩] ∧
    (StartApplication now a).sent = [] ∧
    ∃ s1, step (StartApplication now a) = some s1 ∧ s1.sent = [now] ∧ s1.m_count = 1 := by
  obtain ⟨hs, hc, hq, hsent⟩ := ha
  rcases StartApplication_cases now a hs hq with ⟨hlt, _⟩ | ⟨_, hgt, _⟩ | ⟨_, _, e⟩
  · exact absurd hlt (not_lt.2 h1)
  · exact absurd hgt (not_lt.2 h2.le)
  · rw [e]
    refine ⟨rfl, hsent, _, step_send _ _ _ rfl, ?_⟩
    rcases SendPacket_cases now { a with m_count := 0, queue := [] } rfl with
      ⟨h, _⟩ | ⟨_, _, _, e1⟩ | ⟨_, _, e1⟩
    · exact absurd h2 (not_lt.2 h)
    · rw [e1]; simp [hsent, UINT32_MOD]
    · rw [e1]; simp [hsent, UINT32_MOD]

/-- An activation before the window start only re-registers itself for the
window start. -/
theorem StartApplication_early (a : TdmaClientApp) (now : ℚ) (ha : Configured a)
    (h : now < a.m_startTime) :
    (StartApplication now a).sent = [] ∧
    (StartApplication now a).m_count = 0 ∧
    (StartApplication now a).queue =
      [⟨a.m_startTime, Callback.startApplication, false⟩] ∧
    step (StartApplication now a) = some (StartApplication a.m_startTime a) := by
  obtain ⟨hs, hc, hq, hsent⟩ := ha
  rcases StartApplication_cases now a hs hq with ⟨_, e⟩ | ⟨hle, _, _⟩ | ⟨hle, _, _⟩
  · rw [e]
    refine ⟨hsent, rfl, rfl, ?_⟩
    rw [step_start _ _ _ rfl]
    have ea : ({ a with m_count := 0, queue := [] } : TdmaClientApp) = a := by
      cases a
      simp only at hc hq
      subst hc hq
      rfl
    simp only [ea]
  · exact absurd h (not_lt.2 hle)
  · exact absurd h (not_lt.2 hle)

/-- C7. Early activation: when `StartApplication` of a configured generator runs
at a time `now < m_startTime`, no packet is sent, `m_count` is 0, and exactly
one callback is registered: a `StartApplication` for time `m_startTime`. Its
dispatch leaves the generator in the very state that an activation at
`m_startTime` produces. -/
theorem early_activation (a : TdmaClientApp) (now : ℚ) (ha : Configured a)
    (h : now < a.m_startTime) :
    (StartApplication now a).sent = [] ∧
    (StartApplication now a).m_count = 0 ∧
    (StartApplication now a).queue =
      [⟨a.m_startTime, Callback.startApplication, false⟩] ∧
    step (StartApplication now a) = some (StartApplication a.m_startTime a) :=
  StartApplication_early a now ha h

/-! ## Generator: the configured instance and the full burst -/

theorem slotGenerator_configured (kSlotDuration kGuardTime : ℚ) (nPackets : Nat)
    (startTime stopTime : ℚ) :
    Configured (slotGenerator kSlotDuration kGuardTime nPackets startTime stopTime) :=
  ⟨rfl, rfl, rfl, rfl⟩

theorem demoApp_interval : demoApp.m_interval = 192 / 10000 := by
  norm_num [demoApp, slotGenerator, Setup, SetStartStopTime]

theorem demoApp_startTime : demoApp.m_startTime = 3 := rfl

theorem demoApp_stopTime : demoApp.m_stopTime = 3 + 96 / 1000 := by
  norm_num [demoApp, slotGenerator, Setup, SetStartStopTime]

theorem demoApp_nPackets : demoApp.m_nPackets = 5 := rfl

/-- The complete burst of a generator whose interval is the window length
divided by the packet count and whose activation is on time. -/
theorem run_full_burst (n : Nat) (slotDuration guardTime s : ℚ) (hn : 1 ≤ n)
    (hW : n < UINT32_MOD) (hd : guardTime < slotDuration) (fuel : Nat) (hf : n ≤ fuel) :
    (run fuel (StartApplication s
      (slotGenerator slotDuration guardTime n s (s + slotDuration - guardTime)))).sent =
      (List.range n).map (fun k : Nat => s + (k : ℚ) * ((slotDuration - guardTime) / n)) ∧
    (run fuel (StartApplication s
      (slotGenerator slotDuration guardTime n s (s + slotDuration - guardTime)))).queue = [] ∧
    ∀ k : Nat, k < n →
      s + (k : ℚ) * ((slotDuration - guardTime) / n) < s + slotDuration - guardTime := by
  obtain ⟨m, rfl⟩ : ∃ m, n = m + 1 := ⟨n - 1, by omega⟩
  have hpos : (0 : ℚ) < ((m + 1 : Nat) : ℚ) := by exact_mod_cast Nat.succ_pos m
  have hI : 0 < (slotDuration - guardTime) / ((m + 1 : Nat) : ℚ) :=
    div_pos (by linarith) hpos
  have hnI : ((m + 1 : Nat) : ℚ) * ((slotDuration - guardTime) / ((m + 1 : Nat) : ℚ)) =
      slotDuration - guardTime := by
    field_simp
  have hlt : ∀ k : Nat, k < m + 1 →
      s + (k : ℚ) * ((slotDuration - guardTime) / ((m + 1 : Nat) : ℚ)) <
        s + slotDuration - guardTime := by
    intro k hk
    have hk' : (k : ℚ) < ((m + 1 : Nat) : ℚ) := by exact_mod_cast hk
    have := mul_lt_mul_of_pos_right hk' hI
    linarith
  set a := slotGenerator slotDuration guardTime (m + 1) s (s + slotDuration - guardTime)
    with ha
  have hcfg : Configured a := slotGenerator_configured _ _ _ _ _
  have hint : a.m_interval = (slotDuration - guardTime) / ((m + 1 : Nat) : ℚ) := rfl
  have hstop : a.m_stopTime = s + slotDuration - guardTime := rfl
  have hstart : a.m_startTime = s := rfl
  have hnp : a.m_nPackets = m + 1 := rfl
  have hact : StartApplication s a =
      { a with m_count := 0, queue := [⟨s, Callback.sendPacket, true⟩] } := by
    rcases StartApplication_cases s a hcfg.1 hcfg.2.2.1 with ⟨h, _⟩ | ⟨_, h, _⟩ | ⟨_, _, e⟩
    · rw [hstart] at h; exact absurd h (lt_irrefl _)
    · rw [hstop] at h; linarith
    · exact e
  have hrun := run_sends m
    { a with m_count := 0, queue := [⟨s, Callback.sendPacket, true⟩] } s rfl
    (by simp only [hint]; exact hI.le) (by simp only [hnp]; omega)
    (by simp only [hnp]; exact hW)
    (by
      simp only [hint, hstop]
      have := hlt m (Nat.lt_succ_self m)
      exact this)
    (by left; simp only [hnp]; omega)
  obtain ⟨r1, r2, _⟩ := hrun
  rw [hact]
  refine ⟨?_, ?_, hlt⟩
  · rw [run_of_le hf _ r1, r2]
    rfl
  · rw [run_of_le hf _ r1]; exact r1

/-- C3. Pacing: for a packet count `1 ≤ n` (a `uint32_t`) and
`guardTime < slotDuration`, the generator with interval
`(slotDuration - guardTime) / n` and window `[s, s + slotDuration - guardTime)`,
activated at time `s`, sends exactly `n` packets, the `k`-th at
`s + k * interval`, each strictly before the stop time, and then has nothing
pending; any fuel `≥ n` gives this result. -/
theorem pacing (n : Nat) (slotDuration guardTime s : ℚ) (hn : 1 ≤ n)
    (hW : n < UINT32_MOD) (hd : guardTime < slotDuration) (fuel : Nat) (hf : n ≤ fuel) :
    (run fuel (StartApplication s
      (slotGenerator slotDuration guardTime n s (s + slotDuration - guardTime)))).sent =
      (List.range n).map (fun k : Nat => s + (k : ℚ) * ((slotDuration - guardTime) / n)) ∧
    (run fuel (StartApplication s
      (slotGenerator slotDuration guardTime n s (s + slotDuration - guardTime)))).queue = [] ∧
    ∀ k : Nat, k < n →
      s + (k : ℚ) * ((slotDuration - guardTime) / n) < s + slotDuration - guardTime :=
  run_full_burst n slotDuration guardTime s hn hW hd fuel hf

/-- Witness of `pacing` with the constants of the source: 5 packets, slot
0.1 s, guard 4 ms, window starting at 3 s. -/
theorem pacing_witness :
    1 ≤ 5 ∧ 5 < UINT32_MOD ∧ (4 / 1000 : ℚ) < 1 / 10 ∧ 5 ≤ 5 ∧
    ((run 5 (StartApplication 3
      (slotGenerator (1 / 10) (4 / 1000) 5 3 (3 + 1 / 10 - 4 / 1000)))).sent =
      (List.range 5).map (fun k : Nat => 3 + (k : ℚ) * ((1 / 10 - 4 / 1000) / (5 : Nat))) ∧
    (run 5 (StartApplication 3
      (slotGenerator (1 / 10) (4 / 1000) 5 3 (3 + 1 / 10 - 4 / 1000)))).queue = [] ∧
    ∀ k : Nat, k < 5 →
      3 + (k : ℚ) * ((1 / 10 - 4 / 1000) / (5 : Nat)) < 3 + 1 / 10 - 4 / 1000) :=
  ⟨by decide, by decide, by norm_num, le_refl 5,
    pacing 5 (1 / 10) (4 / 1000) 3 (by decide) (by decide) (by norm_num) 5 (le_refl 5)⟩

/-- The numbers of the pacing example, for every window start `s`: interval
0.0192, sends at `s + {0, 0.0192, 0.0384, 0.0576, 0.0768}`, stop `s + 0.096`. -/
theorem pacing_example (s : ℚ) :
    (slotGenerator (1 / 10) (4 / 1000) 5 s (s + 1 / 10 - 4 / 1000)).m_interval
      = 192 / 10000 ∧
    (slotGenerator (1 / 10) (4 / 1000) 5 s (s + 1 / 10 - 4 / 1000)).m_stopTime
      = s + 96 / 1000 ∧
    (run 5 (StartApplication s
      (slotGenerator (1 / 10) (4 / 1000) 5 s (s + 1 / 10 - 4 / 1000)))).sent =
      [s, s + 192 / 10000, s + 384 / 10000, s + 576 / 10000, s + 768 / 10000] := by
  refine ⟨?_, ?_, ?_⟩
  · norm_num [slotGenerator, Setup, SetStartStopTime]
  · simp only [slotGenerator, Setup, SetStartStopTime]; ring
  · rw [(run_full_burst 5 (1 / 10) (4 / 1000) s (by decide) (by decide) (by norm_num) 5
      (le_refl 5)).1]
    simp only [List.range_succ, List.range_zero, List.nil_append, List.map_append,
      List.map_cons, List.map_nil, List.cons_append]
    norm_num

/-! ## Generator: deactivation in the armed state, and instances -/

theorem demoApp_configured : Configured demoApp :=
  slotGenerator_configured _ _ _ _ _

/-- C10, evaluation of the code. The generator of the window `[3, 3.096)` is
activated at time 0, which re-registers `StartApplication` for time 3, and
`StopApplication` is called before that time. The re-registered callback is
still pending after `StopApplication` has returned, and the following
dispatches send the whole burst of 5 packets. -/
theorem stopApplication_keeps_start_callback :
    (StopApplication (StartApplication 0 demoApp)).queue =
      [⟨3, Callback.startApplication, false⟩] ∧
    (run 6 (StopApplication (StartApplication 0 demoApp))).sent =
      [3, 3 + 192 / 10000, 3 + 384 / 10000, 3 + 576 / 10000, 3 + 768 / 10000] := by
  have hearly : (0 : ℚ) < demoApp.m_startTime := by rw [demoApp_startTime]; norm_num
  obtain ⟨_, _, hq, hstep⟩ := StartApplication_early demoApp 0 demoApp_configured hearly
  have hstop : StopApplication (StartApplication 0 demoApp) = StartApplication 0 demoApp := by
    simp [StopApplication, hq, isPending]
  rw [hstop, hq, demoApp_startTime]
  refine ⟨rfl, ?_⟩
  rw [run_succ_of_step 5 hstep, demoApp_startTime]
  exact (pacing_example 3).2.2

/-- Witness of `window_confinement`: the generator of the window `[3, 3.096)`,
activated on time, after three dispatches. -/
theorem window_confinement_witness :
    Configured demoApp ∧ 0 < demoApp.m_interval ∧
    Reachable demoApp (run 3 (StartApplication 3 demoApp)) ∧
    ∀ t ∈ (run 3 (StartApplication 3 demoApp)).sent,
      demoApp.m_startTime ≤ t ∧ t < demoApp.m_stopTime :=
  ⟨demoApp_configured, by rw [demoApp_interval]; norm_num, (Reachable.activate 3).run 3,
    window_confinement demoApp _ demoApp_configured (by rw [demoApp_interval]; norm_num)
      ((Reachable.activate 3).run 3)⟩

/-- Witness of `missed_window_drop`: activation at 4 s, after the window
`[3, 3.096)` has closed. -/
theorem missed_window_drop_witness :
    Configured demoApp ∧ demoApp.m_stopTime ≤ 4 ∧
    (∀ fuel, (run fuel (StartApplication 4 demoApp)).sent = []) ∧
    (∀ fuel, 1 ≤ fuel → (run fuel (StartApplication 4 demoApp)).queue = []) :=
  ⟨demoApp_configured, by rw [demoApp_stopTime]; norm_num,
    missed_window_drop demoApp 4 demoApp_configured (by rw [demoApp_stopTime]; norm_num)⟩

/-- Witness of `in_window_activation`: activation at 3.05 s inside the window
`[3, 3.096)`. -/
theorem in_window_activation_witness :
    Configured demoApp ∧ demoApp.m_startTime ≤ 305 / 100 ∧ 305 / 100 < demoApp.m_stopTime ∧
    (StartApplication (305 / 100) demoApp).queue =
      [⟨305 / 100, Callback.sendPacket, true⟩] ∧
    (StartApplication (305 / 100) demoApp).sent = [] ∧
    ∃ s1, step (StartApplication (305 / 100) demoApp) = some s1 ∧
      s1.sent = [305 / 100] ∧ s1.m_count = 1 :=
  ⟨demoApp_configured, by rw [demoApp_startTime]; norm_num,
    by rw [demoApp_stopTime]; norm_num,
    in_window_activation demoApp (305 / 100) demoApp_configured
      (by rw [demoApp_startTime]; norm_num) (by rw [demoApp_stopTime]; norm_num)⟩

/-- Witness of `early_activation`: activation at 1 s, before the window
`[3, 3.096)`. -/
theorem early_activation_witness :
    Configured demoApp ∧ 1 < demoApp.m_startTime ∧
    (StartApplication 1 demoApp).sent = [] ∧
    (StartApplication 1 demoApp).m_count = 0 ∧
    (StartApplication 1 demoApp).queue =
      [⟨demoApp.m_startTime, Callback.startApplication, false⟩] ∧
    step (StartApplication 1 demoApp) = some (StartApplication demoApp.m_startTime demoApp) :=
  ⟨demoApp_configured, by rw [demoApp_startTime]; norm_num,
    early_activation demoApp 1 demoApp_configured (by rw [demoApp_startTime]; norm_num)⟩

/-- Witness of `bounded_burst`: 5 packets per slot. -/
theorem bounded_burst_witness :
    Configured demoApp ∧ 1 ≤ demoApp.m_nPackets ∧ demoApp.m_nPackets < UINT32_MOD ∧
    (∀ s, Reachable demoApp s →
      s.m_count ≤ demoApp.m_nPackets ∧ s.sent.length ≤ demoApp.m_nPackets) ∧
    (∀ now, (run (demoApp.m_nPackets + 1) (StartApplication now demoApp)).queue = []) ∧
    (∀ now, demoApp.m_startTime ≤ now →
      (run demoApp.m_nPackets (StartApplication now demoApp)).queue = []) :=
  ⟨demoApp_configured, by rw [demoApp_nPackets]; decide, by rw [demoApp_nPackets]; decide,
    bounded_burst demoApp demoApp_configured (by rw [demoApp_nPackets]; decide)
      (by rw [demoApp_nPackets]; decide)⟩

/-- Witness of `single_outstanding_callback`: early activation at 1 s, then
`StopApplication`, then two dispatches. -/
theorem single_outstanding_callback_witness :
    Configured demoApp ∧
    Reachable demoApp (run 2 (StopApplication (StartApplication 1 demoApp))) ∧
    (run 2 (StopApplication (StartApplication 1 demoApp))).queue.length ≤ 1 :=
  ⟨demoApp_configured, ((Reachable.activate 1).stop).run 2,
    single_outstanding_callback demoApp _ demoApp_configured
      (((Reachable.activate 1).stop).run 2)⟩

/-! ## Deactivation twice -/

theorem isPending_cancelHeld (q : List Event) : isPending (cancelHeld q) = false := by
  simp [isPending, cancelHeld]

/-- C11. Deactivate is idempotent: for every generator state, `StopApplication`
applied twice gives the same state (pending events and the handle
`m_sendEvent`, counter, window, all other members) as applied once. -/
theorem stopApplication_idempotent (a : TdmaClientApp) :
    StopApplication (StopApplication a) = StopApplication a := by
  unfold StopApplication
  by_cases h : isPending a.queue = true
  · simp [h, isPending_cancelHeld]
  · simp [h]

/-! ## Scheduling loop: horizon, order, cycle count -/

theorem mem_schedule {numUes : Nat} {slotDuration simDuration kGuardTime : ℚ} {x : Slot} :
    x ∈ schedule numUes slotDuration simDuration kGuardTime ↔
    ∃ cycle, cycle < numCycles simDuration (cycleDuration numUes slotDuration) ∧
      ∃ i, i < numUes ∧
      x ∈ loopBody numUes slotDuration simDuration kGuardTime
        (cycleDuration numUes slotDuration) cycle i :=
  mem_scheduleLoop

/-- The floor of line 210: cycle `c` is iterated exactly when `c + 1` whole
cycles fit into the simulation duration. -/
theorem lt_numCycles_iff {simDuration cycleDur : ℚ} (hD : 0 < cycleDur) (c : Nat) :
    c < numCycles simDuration cycleDur ↔ ((c : ℚ) + 1) * cycleDur ≤ simDuration := by
  unfold numCycles
  have e : (simDuration / cycleDur).floor = ⌊simDuration / cycleDur⌋ := rfl
  rw [e, Int.lt_toNat, ← Int.add_one_le_iff, Int.le_floor, le_div_iff₀ hD]
  push_cast
  rfl

theorem numCycles_eq {simDuration cycleDur : ℚ} (hD : 0 < cycleDur) (k : Nat)
    (h1 : (k : ℚ) * cycleDur ≤ simDuration) (h2 : simDuration < ((k : ℚ) + 1) * cycleDur) :
    numCycles simDuration cycleDur = k := by
  apply le_antisymm
  · by_contra hlt
    have := (lt_numCycles_iff hD k).1 (not_le.1 hlt)
    linarith
  · cases k with
    | zero => exact Nat.zero_le _
    | succ k =>
      apply (lt_numCycles_iff hD k).2
      push_cast at h1
      exact h1

theorem cycleDuration_pos {numUes : Nat} {slotDuration : ℚ} (hN : 1 ≤ numUes)
    (hd : 0 < slotDuration) : 0 < cycleDuration numUes slotDuration := by
  unfold cycleDuration
  have : (0 : ℚ) < numUes := by exact_mod_cast hN
  positivity

/-- C12. Horizon bound: no slot emitted by the scheduling loop of
`TDMA_RR_Mobility.cc` starts at or after `simDuration`; this holds for every
input and for every trip count of the outer loop. -/
theorem horizon_bound (numUes : Nat) (slotDuration simDuration kGuardTime : ℚ) :
    (∀ x ∈ schedule numUes slotDuration simDuration kGuardTime, x.start < simDuration) ∧
    (∀ nCycles, ∀ x ∈ scheduleLoop numUes slotDuration simDuration kGuardTime nCycles,
      x.start < simDuration) := by
  have key : ∀ nCycles,
      ∀ x ∈ scheduleLoop numUes slotDuration simDuration kGuardTime nCycles,
      x.start < simDuration := by
    intro nCycles x hx
    obtain ⟨c, _, i, _, hb⟩ := mem_scheduleLoop.1 hx
    exact (mem_loopBody hb).2.2.2.2.2.2
  exact ⟨fun x hx => key _ x hx, key⟩

theorem mem_loopBodySingle {slotDuration kGuardTime cycleDur : ℚ} {cycle i : Nat} {x : Slot}
    (hx : x ∈ loopBodySingle slotDuration kGuardTime cycleDur cycle i) :
    x.cycle = cycle ∧ x.node = i ∧ x.bsIndex = 0 ∧
    x.start = cycle * cycleDur +
      ((i * 2 % UINT32_MOD + x.direction.index : Nat) : ℚ) * slotDuration ∧
    x.stop = x.start + slotDuration - kGuardTime := by
  unfold loopBodySingle at hx
  simp only [List.mem_cons, List.mem_singleton, List.not_mem_nil, or_false] at hx
  rcases hx with rfl | rfl
  · refine ⟨rfl, rfl, rfl, ?_, rfl⟩
    simp [Direction.index]
  · refine ⟨rfl, rfl, rfl, ?_, rfl⟩
    simp only [Direction.index]
    push_cast
    ring

theorem loopBody_pairwise_before (numUes : Nat)
    (slotDuration simDuration kGuardTime cycleDur : ℚ) (cycle i : Nat) :
    (loopBody numUes slotDuration simDuration kGuardTime cycleDur cycle i).Pairwise
      Slot.Before := by
  unfold loopBody
  simp only
  split_ifs
  · exact List.Pairwise.nil
  · exact List.Pairwise.nil
  · simp [Slot.Before, Direction.index]

theorem loopBodySingle_pairwise_before (slotDuration kGuardTime cycleDur : ℚ)
    (cycle i : Nat) :
    (loopBodySingle slotDuration kGuardTime cycleDur cycle i).Pairwise Slot.Before := by
  simp [loopBodySingle, Slot.Before, Direction.index]

/-- Nested loops whose bodies tag their slots with the loop variables emit in
ascending `(cycle, node, direction)` order. -/
theorem nested_pairwise_before (body : Nat → Nat → List Slot) (nCycles numUes : Nat)
    (htag : ∀ c i, ∀ x ∈ body c i, x.cycle = c ∧ x.node = i)
    (hbody : ∀ c i, (body c i).Pairwise Slot.Before) :
    ((List.range nCycles).flatMap fun c =>
      (List.range numUes).flatMap fun i => body c i).Pairwise Slot.Before := by
  rw [List.pairwise_flatMap]
  refine ⟨fun c _ => ?_, ?_⟩
  · rw [List.pairwise_flatMap]
    refine ⟨fun i _ => hbody c i, ?_⟩
    refine (List.pairwise_lt_range numUes).imp ?_
    intro i1 i2 hlt x hx y hy
    have ex := htag c i1 x hx
    have ey := htag c i2 y hy
    right
    exact ⟨ex.1.trans ey.1.symm, Or.inl (by rw [ex.2, ey.2]; exact hlt)⟩
  · refine (List.pairwise_lt_range nCycles).imp ?_
    intro c1 c2 hlt x hx y hy
    rw [List.mem_flatMap] at hx hy
    obtain ⟨i1, _, hx⟩ := hx
    obtain ⟨i2, _, hy⟩ := hy
    left
    rw [(htag c1 i1 x hx).1, (htag c2 i2 y hy).1]
    exact hlt

/-- C13. Output order: the slot sequences produced by the scheduling loops of
`TDMA_RR_Mobility.cc` and of `tdmaMobilitynew.cc` are in strictly ascending
lexicographic order of `(cycle, node, direction)`, uplink before downlink, for
every input. -/
theorem output_order (numUes : Nat) (slotDuration simDuration kGuardTime : ℚ) :
    (schedule numUes slotDuration simDuration kGuardTime).Pairwise Slot.Before ∧
    (scheduleSingle numUes slotDuration simDuration kGuardTime).Pairwise Slot.Before := by
  constructor
  · exact nested_pairwise_before _ _ _
      (fun c i x hx => ⟨(mem_loopBody hx).1, (mem_loopBody hx).2.1⟩)
      (fun c i => loopBody_pairwise_before _ _ _ _ _ c i)
  · exact nested_pairwise_before _ _ _
      (fun c i x hx => ⟨(mem_loopBodySingle hx).1, (mem_loopBodySingle hx).2.1⟩)
      (fun c i => loopBodySingle_pairwise_before _ _ _ c i)

/-! ## Scheduling loop: the truncation scenario -/

theorem loopBody_eq_nil_of_le (numUes : Nat) (slotDuration simDuration kGuardTime cycleDur : ℚ)
    (cycle i : Nat) (h : slotDuration ≤ kGuardTime) :
    loopBody numUes slotDuration simDuration kGuardTime cycleDur cycle i = [] := by
  unfold loopBody
  simp only
  rw [if_pos]
  right
  linarith

/-- The iteration that creates both applications: neither `continue` fires. -/
theorem loopBody_eq_of_keep (numUes : Nat) (slotDuration simDuration kGuardTime cycleDur : ℚ)
    (cycle i : Nat) (hg : kGuardTime < slotDuration)
    (hs : (cycle : ℚ) * cycleDur + ((i * 2 % UINT32_MOD : Nat) : ℚ) * slotDuration
      + slotDuration < simDuration)
    (hd : 0 ≤ slotDuration) :
    loopBody numUes slotDuration simDuration kGuardTime cycleDur cycle i =
      [ ⟨cycle, i, Direction.uplink, bsIndexOf numUes i,
          cycle * cycleDur + ((i * 2 % UINT32_MOD : Nat) : ℚ) * slotDuration,
          cycle * cycleDur + ((i * 2 % UINT32_MOD : Nat) : ℚ) * slotDuration
            + slotDuration - kGuardTime⟩,
        ⟨cycle, i, Direction.downlink, bsIndexOf numUes i,
          cycle * cycleDur + ((i * 2 % UINT32_MOD : Nat) : ℚ) * slotDuration + slotDuration,
          cycle * cycleDur + ((i * 2 % UINT32_MOD : Nat) : ℚ) * slotDuration + slotDuration
            + slotDuration - kGuardTime⟩ ] := by
  unfold loopBody
  simp only
  rw [if_neg, if_neg]
  · rintro (h | h) <;> linarith
  · rintro (h | h) <;> linarith

theorem cycleDuration_scenario : cycleDuration 3 (1 / 10) = 6 / 10 := by
  norm_num [cycleDuration]

theorem numCycles_scenario : numCycles (7 / 10) (cycleDuration 3 (1 / 10)) = 1 := by
  rw [cycleDuration_scenario]
  exact numCycles_eq (by norm_num) 1 (by norm_num) (by norm_num)

/-- The output of `tdmaMobilitynew.cc` for 3 UEs, slot 0.1 s, guard 0, horizon
0.7 s. -/
theorem scheduleSingle_scenario :
    scheduleSingle 3 (1 / 10) (7 / 10) 0 =
      [ ⟨0, 0, Direction.uplink, 0, 0, 1 / 10⟩,
        ⟨0, 0, Direction.downlink, 0, 1 / 10, 2 / 10⟩,
        ⟨0, 1, Direction.uplink, 0, 2 / 10, 3 / 10⟩,
        ⟨0, 1, Direction.downlink, 0, 3 / 10, 4 / 10⟩,
        ⟨0, 2, Direction.uplink, 0, 4 / 10, 5 / 10⟩,
        ⟨0, 2, Direction.downlink, 0, 5 / 10, 6 / 10⟩ ] := by
  unfold scheduleSingle
  rw [numCycles_scenario]
  simp only [scheduleLoopSingle, cycleDuration_scenario, List.range_succ, List.range_zero, List.nil_append,
    List.cons_append, List.flatMap_cons, List.flatMap_nil, List.append_nil, loopBodySingle,
    UINT32_MOD, cycleDuration]
  norm_num

/-- The output of `TDMA_RR_Mobility.cc` for 3 UEs, slot 0.1 s, guard 0, horizon
0.7 s: the same windows, UE 0 on base station 0 and UEs 1, 2 on base
station 1. -/
theorem schedule_scenario :
    schedule 3 (1 / 10) (7 / 10) 0 =
      [ ⟨0, 0, Direction.uplink, 0, 0, 1 / 10⟩,
        ⟨0, 0, Direction.downlink, 0, 1 / 10, 2 / 10⟩,
        ⟨0, 1, Direction.uplink, 1, 2 / 10, 3 / 10⟩,
        ⟨0, 1, Direction.downlink, 1, 3 / 10, 4 / 10⟩,
        ⟨0, 2, Direction.uplink, 1, 4 / 10, 5 / 10⟩,
        ⟨0, 2, Direction.downlink, 1, 5 / 10, 6 / 10⟩ ] := by
  unfold schedule
  rw [numCycles_scenario]
  simp only [scheduleLoop, cycleDuration_scenario, List.range_succ, List.range_zero, List.nil_append,
    List.cons_append, List.flatMap_cons, List.flatMap_nil, List.append_nil]
  rw [loopBody_eq_of_keep 3 _ _ _ _ 0 0 (by norm_num) (by norm_num [UINT32_MOD]) (by norm_num),
    loopBody_eq_of_keep 3 _ _ _ _ 0 1 (by norm_num) (by norm_num [UINT32_MOD]) (by norm_num),
    loopBody_eq_of_keep 3 _ _ _ _ 0 2 (by norm_num) (by norm_num [UINT32_MOD]) (by norm_num)]
  simp only [bsIndexOf, UINT32_MOD]
  norm_num

/-- C15. Truncation scenario, first cycle: with 3 UEs, slot 0.1 s, guard 0 and
horizon 0.7 s the cycle duration is 0.6 s, the number of cycles is 1, and the
single-medium scheduler (`tdmaMobilitynew.cc`) emits, in this order, UE 0 uplink
`[0, 0.1)`, downlink `[0.1, 0.2)`, UE 1 uplink `[0.2, 0.3)`, downlink
`[0.3, 0.4)`, UE 2 uplink `[0.4, 0.5)`, downlink `[0.5, 0.6)`; the loop of
`TDMA_RR_Mobility.cc` emits the same windows in the same order. -/
theorem truncation_first_cycle :
    cycleDuration 3 (1 / 10) = 6 / 10 ∧
    numCycles (7 / 10) (cycleDuration 3 (1 / 10)) = 1 ∧
    scheduleSingle 3 (1 / 10) (7 / 10) 0 =
      [ ⟨0, 0, Direction.uplink, 0, 0, 1 / 10⟩,
        ⟨0, 0, Direction.downlink, 0, 1 / 10, 2 / 10⟩,
        ⟨0, 1, Direction.uplink, 0, 2 / 10, 3 / 10⟩,
        ⟨0, 1, Direction.downlink, 0, 3 / 10, 4 / 10⟩,
        ⟨0, 2, Direction.uplink, 0, 4 / 10, 5 / 10⟩,
        ⟨0, 2, Direction.downlink, 0, 5 / 10, 6 / 10⟩ ] ∧
    (schedule 3 (1 / 10) (7 / 10) 0).map (fun x => (x.cycle, x.node, x.direction, x.start, x.stop)) =
      [ (0, 0, Direction.uplink, 0, 1 / 10),
        (0, 0, Direction.downlink, 1 / 10, 2 / 10),
        (0, 1, Direction.uplink, 2 / 10, 3 / 10),
        (0, 1, Direction.downlink, 3 / 10, 4 / 10),
        (0, 2, Direction.uplink, 4 / 10, 5 / 10),
        (0, 2, Direction.downlink, 5 / 10, 6 / 10) ] :=
  ⟨cycleDuration_scenario, numCycles_scenario, scheduleSingle_scenario,
    by rw [schedule_scenario]; rfl⟩

/-- C16, refutation. In the truncation scenario (3 UEs, slot 0.1 s, guard 0,
horizon 0.7 s) neither scheduler emits 7 slots, and neither emits a slot of
cycle 1 or a slot that starts at 0.6 s. -/
theorem truncation_second_cycle_counterexample :
    (scheduleSingle 3 (1 / 10) (7 / 10) 0).length ≠ 7 ∧
    (schedule 3 (1 / 10) (7 / 10) 0).length ≠ 7 ∧
    (∀ x ∈ scheduleSingle 3 (1 / 10) (7 / 10) 0, x.cycle ≠ 1 ∧ x.start ≠ 6 / 10) ∧
    (∀ x ∈ schedule 3 (1 / 10) (7 / 10) 0, x.cycle ≠ 1 ∧ x.start ≠ 6 / 10) := by
  rw [scheduleSingle_scenario, schedule_scenario]
  refine ⟨by simp, by simp, ?_, ?_⟩
  · intro x hx
    simp only [List.mem_cons, List.mem_singleton, List.not_mem_nil, or_false] at hx
    rcases hx with rfl | rfl | rfl | rfl | rfl | rfl <;> norm_num
  · intro x hx
    simp only [List.mem_cons, List.mem_singleton, List.not_mem_nil, or_false] at hx
    rcases hx with rfl | rfl | rfl | rfl | rfl | rfl <;> norm_num

/-- C16, amended. In the truncation scenario the number of cycles is
`floor (0.7 / 0.6) = 1`, so the outer loop runs for cycle 0 only: both
schedulers emit exactly 6 slots, all of cycle 0, all ending at or before 0.6 s;
nothing of a second cycle is emitted. -/
theorem truncation_whole_cycles_only :
    numCycles (7 / 10) (cycleDuration 3 (1 / 10)) = 1 ∧
    (scheduleSingle 3 (1 / 10) (7 / 10) 0).length = 6 ∧
    (schedule 3 (1 / 10) (7 / 10) 0).length = 6 ∧
    (∀ x ∈ scheduleSingle 3 (1 / 10) (7 / 10) 0, x.cycle = 0 ∧ x.stop ≤ 6 / 10) ∧
    (∀ x ∈ schedule 3 (1 / 10) (7 / 10) 0, x.cycle = 0 ∧ x.stop ≤ 6 / 10) := by
  refine ⟨numCycles_scenario, ?_⟩
  rw [scheduleSingle_scenario, schedule_scenario]
  refine ⟨by simp, by simp, ?_, ?_⟩
  · intro x hx
    simp only [List.mem_cons, List.mem_singleton, List.not_mem_nil, or_false] at hx
    rcases hx with rfl | rfl | rfl | rfl | rfl | rfl <;> norm_num
  · intro x hx
    simp only [List.mem_cons, List.mem_singleton, List.not_mem_nil, or_false] at hx
    rcases hx with rfl | rfl | rfl | rfl | rfl | rfl <;> norm_num

/-! ## Lines 209-210 in `double` arithmetic: the trip count -/

/-- Rounding to the nearest integer moves a number by at most one half. -/
theorem roundHalfEven_sub_le (x : ℚ) : |(roundHalfEven x : ℚ) - x| ≤ 1 / 2 := by
  have h1 := Int.floor_le x
  have h2 := Int.lt_floor_add_one x
  unfold roundHalfEven
  split_ifs with a b c
  · rw [abs_le]; constructor <;> linarith
  · rw [abs_le]; push_cast; constructor <;> linarith
  · have := not_lt.1 b
    rw [abs_le]; constructor <;> linarith
  · have := not_lt.1 a
    rw [abs_le]; push_cast; constructor <;> linarith

/-- Relative error of one `double` operation: at most `2^-53`. -/
theorem binary64_error (x : ℚ) : |binary64 x - x| ≤ |x| / 2 ^ 53 := by
  unfold binary64
  split_ifs with h0
  · simp [h0]
  · have hle : (2 : ℚ) ^ Int.log 2 |x| ≤ |x| := by
      have := Int.zpow_log_le_self (b := 2) (r := |x|) (by norm_num) (abs_pos.2 h0)
      exact_mod_cast this
    have he : (2 : ℚ) ^ (Int.log 2 |x| - 52) = 2 ^ Int.log 2 |x| / 2 ^ 52 := by
      rw [zpow_sub₀ (by norm_num)]
      norm_num
    have hpos : (0 : ℚ) < 2 ^ (Int.log 2 |x| - 52) := by positivity
    have hr := roundHalfEven_sub_le (x / 2 ^ (Int.log 2 |x| - 52))
    have e : (roundHalfEven (x / 2 ^ (Int.log 2 |x| - 52)) : ℚ) * 2 ^ (Int.log 2 |x| - 52) - x
        = ((roundHalfEven (x / 2 ^ (Int.log 2 |x| - 52)) : ℚ) - x / 2 ^ (Int.log 2 |x| - 52))
          * 2 ^ (Int.log 2 |x| - 52) := by
      field_simp
    rw [e, abs_mul, abs_of_pos hpos]
    have h3 := mul_le_mul_of_nonneg_right hr hpos.le
    rw [he] at h3 ⊢
    have : (1 : ℚ) / 2 * (2 ^ Int.log 2 |x| / 2 ^ 52) ≤ |x| / 2 ^ 53 := by
      rw [show (1 : ℚ) / 2 * (2 ^ Int.log 2 |x| / 2 ^ 52) = 2 ^ Int.log 2 |x| / 2 ^ 53 by ring]
      exact div_le_div_of_nonneg_right hle (by positivity)
    linarith

theorem binary64_bounds {x : ℚ} (hx : 0 ≤ x) :
    x * (1 - 1 / 2 ^ 53) ≤ binary64 x ∧ binary64 x ≤ x * (1 + 1 / 2 ^ 53) := by
  have h := binary64_error x
  rw [abs_of_nonneg hx, abs_le] at h
  constructor <;> linarith [h.1, h.2]

theorem binary64_pos {x : ℚ} (hx : 0 < x) : 0 < binary64 x := by
  have h := (binary64_bounds hx.le).1
  have : 0 < x * (1 - 1 / 2 ^ 53) := mul_pos hx (by norm_num)
  linarith

/-- The trip count computed in binary64 stays within the rounding error of the
exact quotient. -/
theorem numCyclesBinary64_withinRounding (numUes : Nat) (slotDuration simDuration : ℚ)
    (hN : 1 ≤ numUes) (hd : 0 < slotDuration) (hs : 0 ≤ simDuration) :
    WithinRounding simDuration (cycleDuration numUes slotDuration)
      (numCyclesBinary64 numUes slotDuration simDuration) := by
  unfold WithinRounding numCyclesBinary64 cycleDurationBinary64 cycleDuration
  have hNq : (0 : ℚ) < numUes := by exact_mod_cast hN
  have h2d : (0 : ℚ) < 2 * slotDuration := by linarith
  have ha := (binary64_bounds h2d.le).1
  have hapos := binary64_pos h2d
  have haN : 0 < binary64 (2 * slotDuration) * numUes := mul_pos hapos hNq
  have hD := (binary64_bounds haN.le).1
  have hDpos := binary64_pos haN
  set Df := binary64 (binary64 (2 * slotDuration) * numUes) with hDf
  have hq : 0 ≤ simDuration / Df := div_nonneg hs hDpos.le
  have hQ := binary64_bounds hq
  set Q := binary64 (simDuration / Df) with hQdef
  have hQ0 : 0 ≤ Q := by
    have : 0 ≤ simDuration / Df * (1 - 1 / 2 ^ 53) := mul_nonneg hq (by norm_num)
    linarith [hQ.1]
  have hfl : (0 : ℤ) ≤ ⌊Q⌋ := Int.floor_nonneg.2 hQ0
  have hn : ((Q.floor.toNat : Nat) : ℚ) ≤ Q := by
    have e : Q.floor = ⌊Q⌋ := rfl
    rw [e]
    have : ((⌊Q⌋.toNat : Nat) : ℤ) = ⌊Q⌋ := Int.toNat_of_nonneg hfl
    have h2 : ((⌊Q⌋.toNat : Nat) : ℚ) = ((⌊Q⌋ : ℤ) : ℚ) := by exact_mod_cast this
    rw [h2]
    exact Int.floor_le Q
  -- the exact cycle duration against the rounded one
  have hDD : 2 * slotDuration * numUes * ((1 - 1 / 2 ^ 53) * (1 - 1 / 2 ^ 53)) ≤ Df := by
    have h1 : 2 * slotDuration * (1 - 1 / 2 ^ 53) * numUes
        ≤ binary64 (2 * slotDuration) * numUes :=
      mul_le_mul_of_nonneg_right ha hNq.le
    have h2 : 2 * slotDuration * (1 - 1 / 2 ^ 53) * numUes * (1 - 1 / 2 ^ 53)
        ≤ binary64 (2 * slotDuration) * numUes * (1 - 1 / 2 ^ 53) :=
      mul_le_mul_of_nonneg_right h1 (by norm_num)
    linarith
  have hDex : (0 : ℚ) < 2 * slotDuration * numUes := mul_pos h2d hNq
  have step1 : ((Q.floor.toNat : Nat) : ℚ) * (2 * slotDuration * numUes)
      ≤ simDuration / Df * (1 + 1 / 2 ^ 53) * (2 * slotDuration * numUes) :=
    mul_le_mul_of_nonneg_right (hn.trans hQ.2) hDex.le
  have step2 : simDuration / Df * (2 * slotDuration * numUes)
      ≤ simDuration / ((1 - 1 / 2 ^ 53) * (1 - 1 / 2 ^ 53)) := by
    rw [div_mul_eq_mul_div, div_le_div_iff₀ hDpos (by norm_num)]
    have := mul_le_mul_of_nonneg_left hDD hs
    linarith
  have step3 : simDuration / ((1 - 1 / 2 ^ 53) * (1 - 1 / 2 ^ 53)) * (1 + 1 / 2 ^ 53)
      ≤ simDuration * (1 + 1 / 2 ^ 51) := by
    rw [div_mul_eq_mul_div, div_le_iff₀ (by norm_num)]
    have : (1 + 1 / 2 ^ 53 : ℚ) ≤ (1 + 1 / 2 ^ 51) * ((1 - 1 / 2 ^ 53) * (1 - 1 / 2 ^ 53)) := by
      norm_num
    have := mul_le_mul_of_nonneg_left this hs
    linarith
  have step4 := mul_le_mul_of_nonneg_right step2 (by norm_num : (0 : ℚ) ≤ 1 + 1 / 2 ^ 53)
  linarith

theorem roundHalfEven_eq_of_lt {x : ℚ} {m : ℤ} (h1 : (m : ℚ) - 1 / 2 < x)
    (h2 : x < (m : ℚ) + 1 / 2) : roundHalfEven x = m := by
  unfold roundHalfEven
  by_cases hx : (m : ℚ) ≤ x
  · have hf : ⌊x⌋ = m := Int.floor_eq_iff.2 ⟨hx, by linarith⟩
    rw [hf, if_pos (by linarith)]
  · have hf : ⌊x⌋ = m - 1 := Int.floor_eq_iff.2 ⟨by push_cast; linarith, by
      push_cast; linarith⟩
    rw [hf, if_neg (by push_cast; linarith), if_pos (by push_cast; linarith)]
    ring

theorem roundHalfEven_tie_odd {x : ℚ} {f : ℤ} (hx : x = (f : ℚ) + 1 / 2) (hf : f % 2 = 1) :
    roundHalfEven x = f + 1 := by
  unfold roundHalfEven
  have hfl : ⌊x⌋ = f := Int.floor_eq_iff.2 ⟨by linarith, by linarith⟩
  rw [hfl, if_neg (by linarith), if_neg (by linarith), if_neg (by omega)]

/-- Evaluation of `binary64` at a positive argument with known binade. -/
theorem binary64_eq_of {x : ℚ} (e m : ℤ) (p : ℚ) (hp : p = 2 ^ (e - 52)) (hx : 0 < x)
    (h1 : (2 : ℚ) ^ e ≤ x) (h2 : x < 2 ^ (e + 1)) (hm : roundHalfEven (x / p) = m) :
    binary64 x = m * p := by
  have hlog : Int.log 2 |x| = e := by
    rw [abs_of_pos hx]
    apply le_antisymm
    · have : Int.log 2 x < e + 1 :=
        (Int.lt_zpow_iff_log_lt (b := 2) (by norm_num) hx).1 (by exact_mod_cast h2)
      omega
    · exact (Int.zpow_le_iff_le_log (b := 2) (by norm_num) hx).1 (by exact_mod_cast h1)
  unfold binary64
  rw [if_neg hx.ne', hlog, ← hp, hm]

/-- The literal `0.1` denotes `kSlotDurationBinary64`. -/
theorem binary64_tenth : binary64 (1 / 10) = kSlotDurationBinary64 := by
  rw [binary64_eq_of (-4) 7205759403792794 (1 / 72057594037927936) (by norm_num) (by norm_num)
    (by norm_num) (by norm_num) (roundHalfEven_eq_of_lt (by norm_num) (by norm_num))]
  norm_num [kSlotDurationBinary64]

theorem cycleDurationBinary64_one :
    cycleDurationBinary64 1 kSlotDurationBinary64 = 3602879701896397 / 18014398509481984 := by
  unfold cycleDurationBinary64 kSlotDurationBinary64
  have e1 : binary64 (2 * (3602879701896397 / 36028797018963968))
      = 3602879701896397 / 18014398509481984 := by
    rw [binary64_eq_of (-3) 7205759403792794 (1 / 36028797018963968) (by norm_num)
      (by norm_num) (by norm_num) (by norm_num)
      (roundHalfEven_eq_of_lt (by norm_num) (by norm_num))]
    norm_num
  rw [e1]
  rw [binary64_eq_of (-3) 7205759403792794 (1 / 36028797018963968) (by norm_num)
    (by norm_num) (by norm_num) (by norm_num)
    (roundHalfEven_eq_of_lt (by norm_num) (by norm_num))]
  norm_num

/-- One UE, slot `0.1` and horizon 1 s: the `double` quotient `1 / 0.2` rounds to
5, and line 210 computes 5 cycles. -/
theorem numCyclesBinary64_one : numCyclesBinary64 1 kSlotDurationBinary64 1 = 5 := by
  unfold numCyclesBinary64
  rw [cycleDurationBinary64_one]
  rw [binary64_eq_of 2 5629499534213120 (1 / 1125899906842624) (by norm_num)
    (by norm_num) (by norm_num) (by norm_num)
    (roundHalfEven_eq_of_lt (by norm_num) (by norm_num))]
  have e : (((5629499534213120 : ℤ) : ℚ) * (1 / 1125899906842624)) = 5 := by norm_num
  rw [e]
  have : (5 : ℚ).floor = 5 := by
    show ⌊(5 : ℚ)⌋ = 5
    exact Int.floor_eq_iff.2 ⟨by norm_num, by norm_num⟩
  rw [this]
  rfl

theorem cycleDurationBinary64_three :
    cycleDurationBinary64 3 kSlotDurationBinary64 = 1351079888211149 / 2251799813685248 := by
  unfold cycleDurationBinary64 kSlotDurationBinary64
  have e1 : binary64 (2 * (3602879701896397 / 36028797018963968))
      = 3602879701896397 / 18014398509481984 := by
    rw [binary64_eq_of (-3) 7205759403792794 (1 / 36028797018963968) (by norm_num)
      (by norm_num) (by norm_num) (by norm_num)
      (roundHalfEven_eq_of_lt (by norm_num) (by norm_num))]
    norm_num
  rw [e1]
  rw [binary64_eq_of (-1) 5404319552844596 (1 / 9007199254740992) (by norm_num)
    (by norm_num) (by norm_num) (by norm_num)
    (roundHalfEven_tie_odd (f := 5404319552844595) (by norm_num) (by norm_num))]
  norm_num

/-- Three UEs, slot `0.1` and horizon 60 s: line 209 computes
`0.6000000000000001`, and line 210 computes 99 cycles. -/
theorem numCyclesBinary64_three : numCyclesBinary64 3 kSlotDurationBinary64 60 = 99 := by
  unfold numCyclesBinary64
  rw [cycleDurationBinary64_three]
  rw [binary64_eq_of 6 7036874417766399 (1 / 70368744177664) (by norm_num)
    (by norm_num) (by norm_num) (by norm_num)
    (roundHalfEven_eq_of_lt (by norm_num) (by norm_num))]
  have : ((((7036874417766399 : ℤ) : ℚ) * (1 / 70368744177664))).floor = 99 := by
    show ⌊(((7036874417766399 : ℤ) : ℚ) * (1 / 70368744177664))⌋ = 99
    exact Int.floor_eq_iff.2 ⟨by norm_num, by norm_num⟩
  rw [this]
  rfl

/-- Three UEs, a slot of exactly one tenth and horizon 60 s: the exact floor is
100 cycles. -/
theorem numCycles_three_exact : numCycles 60 (cycleDuration 3 (1 / 10)) = 100 :=
  numCycles_eq (by norm_num [cycleDuration]) 100 (by norm_num [cycleDuration])
    (by norm_num [cycleDuration])

theorem numCycles_mul_le (simDuration cycleDur : ℚ) (hD : 0 < cycleDur)
    (hs : 0 ≤ simDuration) :
    (numCycles simDuration cycleDur : ℚ) * cycleDur ≤ simDuration := by
  cases h : numCycles simDuration cycleDur with
  | zero => simpa using hs
  | succ k =>
    have := (lt_numCycles_iff hD k).1 (by rw [h]; exact Nat.lt_succ_self k)
    push_cast
    exact this

/-- The exact floor is a trip count within the rounding of lines 209-210. -/
theorem numCycles_withinRounding (simDuration cycleDur : ℚ) (hD : 0 < cycleDur)
    (hs : 0 ≤ simDuration) :
    WithinRounding simDuration cycleDur (numCycles simDuration cycleDur) := by
  unfold WithinRounding
  have h := numCycles_mul_le simDuration cycleDur hD hs
  have : simDuration * 1 ≤ simDuration * (1 + 1 / 2 ^ 51) :=
    mul_le_mul_of_nonneg_left (by norm_num) hs
  linarith

/-- A trip count within the rounding of lines 209-210 overshoots a horizon of
fewer than `2^51` slot durations by less than one slot. -/
theorem fit_of_withinRounding {simDuration cycleDur slotDuration : ℚ} {nCycles : Nat}
    (hr : WithinRounding simDuration cycleDur nCycles)
    (hh : simDuration < 2 ^ 51 * slotDuration) :
    (nCycles : ℚ) * cycleDur < simDuration + slotDuration := by
  unfold WithinRounding at hr
  have : simDuration * (1 + 1 / 2 ^ 51) = simDuration + simDuration / 2 ^ 51 := by ring
  have h2 : simDuration / 2 ^ 51 < slotDuration := by
    rw [div_lt_iff₀ (by positivity)]
    linarith
  linarith

/-- A window that starts at position `off + k` (`k ≤ 1`) of cycle `c` ends, guard
time included, inside the cycles that the outer loop iterates. -/
theorem start_add_le_cycles (numUes : Nat) (slotDuration : ℚ) (hd : 0 < slotDuration)
    (nCycles c i k : Nat) (hc : c < nCycles) (hi : i < numUes) (hk : k ≤ 1) (start : ℚ)
    (hstart : start = (c : ℚ) * cycleDuration numUes slotDuration
      + ((i * 2 % UINT32_MOD + k : Nat) : ℚ) * slotDuration) :
    start + slotDuration ≤ (nCycles : ℚ) * cycleDuration numUes slotDuration := by
  have hoff : i * 2 % UINT32_MOD + k + 1 ≤ 2 * numUes := by
    have := Nat.mod_le (i * 2) UINT32_MOD
    omega
  have hoffq : ((i * 2 % UINT32_MOD + k : Nat) : ℚ) + 1 ≤ 2 * (numUes : ℚ) := by
    exact_mod_cast hoff
  have hcq : (c : ℚ) + 1 ≤ (nCycles : ℚ) := by exact_mod_cast hc
  have hD := cycleDuration_pos (by omega : 1 ≤ numUes) hd
  have h1 := mul_le_mul_of_nonneg_right hoffq hd.le
  have h2 := mul_le_mul_of_nonneg_right hcq hD.le
  rw [hstart]
  unfold cycleDuration at h2 hD ⊢
  nlinarith

/-- For a trip count that overshoots the horizon by less than one slot, the
downlink window of every iteration starts before the horizon. -/
theorem downlinkStart_lt_of_fit (numUes : Nat) (slotDuration simDuration : ℚ)
    (nCycles : Nat) (hd : 0 < slotDuration) (c i : Nat) (hc : c < nCycles) (hi : i < numUes)
    (hfit : (nCycles : ℚ) * cycleDuration numUes slotDuration < simDuration + slotDuration) :
    (c : ℚ) * cycleDuration numUes slotDuration
      + ((i * 2 % UINT32_MOD : Nat) : ℚ) * slotDuration + slotDuration < simDuration := by
  have h := start_add_le_cycles numUes slotDuration hd nCycles c i 1 hc hi (le_refl 1) _ rfl
  push_cast at h
  linarith

/-- For such a trip count and a slot longer than the guard time, neither
`continue` fires in any iteration. -/
theorem loopBody_eq_of_fit (numUes : Nat) (slotDuration simDuration kGuardTime : ℚ)
    (nCycles : Nat) (hd : 0 < slotDuration) (hg : kGuardTime < slotDuration)
    (hfit : (nCycles : ℚ) * cycleDuration numUes slotDuration < simDuration + slotDuration)
    (c i : Nat) (hc : c < nCycles) (hi : i < numUes) :
    loopBody numUes slotDuration simDuration kGuardTime
        (cycleDuration numUes slotDuration) c i =
      [ ⟨c, i, Direction.uplink, bsIndexOf numUes i,
          c * cycleDuration numUes slotDuration
            + ((i * 2 % UINT32_MOD : Nat) : ℚ) * slotDuration,
          c * cycleDuration numUes slotDuration
            + ((i * 2 % UINT32_MOD : Nat) : ℚ) * slotDuration + slotDuration - kGuardTime⟩,
        ⟨c, i, Direction.downlink, bsIndexOf numUes i,
          c * cycleDuration numUes slotDuration
            + ((i * 2 % UINT32_MOD : Nat) : ℚ) * slotDuration + slotDuration,
          c * cycleDuration numUes slotDuration
            + ((i * 2 % UINT32_MOD : Nat) : ℚ) * slotDuration + slotDuration
            + slotDuration - kGuardTime⟩ ] :=
  loopBody_eq_of_keep _ _ _ _ _ c i hg
    (downlinkStart_lt_of_fit numUes slotDuration simDuration nCycles hd c i hc hi hfit) hd.le

/-- For such a trip count and a slot longer than the guard time nothing is
dropped: the output is the list of all candidates. -/
theorem scheduleLoop_eq_candidateSlots (numUes : Nat)
    (slotDuration simDuration kGuardTime : ℚ) (nCycles : Nat) (hd : 0 < slotDuration)
    (hg : kGuardTime < slotDuration)
    (hfit : (nCycles : ℚ) * cycleDuration numUes slotDuration < simDuration + slotDuration) :
    scheduleLoop numUes slotDuration simDuration kGuardTime nCycles =
      candidateSlots numUes slotDuration kGuardTime nCycles := by
  unfold scheduleLoop candidateSlots
  apply List.flatMap_congr
  intro c hc
  apply List.flatMap_congr
  intro i hi
  rw [List.mem_range] at hc hi
  exact loopBody_eq_of_fit numUes slotDuration simDuration kGuardTime nCycles hd hg hfit
    c i hc hi

/-! ## Scheduling loop: slot starts -/

/-- A list that is strictly ascending in a key and holds, below each of its
keys, every key down to the key of its head, has consecutive keys at consecutive
places. -/
theorem chain_succ_of_sorted_closed {α : Type} (f : α → Nat) :
    ∀ l : List α, l.Pairwise (fun x y => f x < f y) →
      (∀ h ∈ l.head?, ∀ x ∈ l, ∀ k, f h ≤ k → k < f x → ∃ z ∈ l, f z = k) →
      l.Chain' (fun x y => f y = f x + 1)
  | [], _, _ => List.chain'_nil
  | [_], _, _ => List.chain'_singleton _
  | a :: b :: t, hs, hc => by
    rw [List.chain'_cons]
    have hab : f a < f b := (List.pairwise_cons.1 hs).1 b (List.mem_cons_self _ _)
    have hs' : (b :: t).Pairwise (fun x y => f x < f y) := (List.pairwise_cons.1 hs).2
    constructor
    · by_contra hne
      have hlt : f a + 1 < f b := by omega
      obtain ⟨z, hz, hfz⟩ := hc a rfl b (List.mem_cons_of_mem _ (List.mem_cons_self _ _))
        (f a + 1) (by omega) hlt
      rcases List.mem_cons.1 hz with rfl | hz
      · omega
      · rcases List.mem_cons.1 hz with rfl | hz
        · omega
        · have := (List.pairwise_cons.1 hs').1 z hz
          omega
    · apply chain_succ_of_sorted_closed f (b :: t) hs'
      intro h hh x hx k hk1 hk2
      have hh' : h = b := by simpa using hh.symm
      subst hh'
      obtain ⟨z, hz, hfz⟩ := hc a rfl x (List.mem_cons_of_mem _ hx) k (by omega) hk2
      rcases List.mem_cons.1 hz with rfl | hz
      · omega
      · exact ⟨z, hz, hfz⟩

/-- Ascending `(cycle, node, direction)` order is ascending position, for
slots of nodes below `numUes`. -/
theorem position_lt_of_before {numUes : Nat} {x y : Slot} (hx : x.node < numUes)
    (h : Slot.Before x y) : Slot.position numUes x < Slot.position numUes y := by
  unfold Slot.position
  have kx := x.direction.index_le_one
  rcases h with h | ⟨h1, h | ⟨h2, h3⟩⟩
  · have h' : x.cycle + 1 ≤ y.cycle := h
    have key : (x.cycle + 1) * (2 * numUes) ≤ y.cycle * (2 * numUes) :=
      Nat.mul_le_mul_right (2 * numUes) h'
    have e1 : (x.cycle + 1) * (2 * numUes) = x.cycle * 2 * numUes + 2 * numUes := by ring
    have e2 : y.cycle * (2 * numUes) = y.cycle * 2 * numUes := by ring
    rw [e1, e2] at key
    omega
  · rw [h1]; omega
  · rw [h1, h2]; omega

/-- Slots of one iteration: the test on the slot length passed and the
downlink window of the iteration starts before the horizon. -/
theorem loopBody_keep_of_mem {numUes : Nat} {slotDuration simDuration kGuardTime cycleDur : ℚ}
    {cycle i : Nat} {x : Slot}
    (hx : x ∈ loopBody numUes slotDuration simDuration kGuardTime cycleDur cycle i) :
    kGuardTime < slotDuration ∧
    (cycle : ℚ) * cycleDur + ((i * 2 % UINT32_MOD : Nat) : ℚ) * slotDuration + slotDuration
      < simDuration := by
  unfold loopBody at hx
  simp only at hx
  split_ifs at hx with h1 h2
  · simp at hx
  · simp at hx
  · simp only [not_or, not_le, ge_iff_le] at h1 h2
    constructor <;> linarith [h1.1, h1.2, h2.1, h2.2]

theorem mem_scheduleLoopSingle {numUes : Nat} {slotDuration kGuardTime : ℚ}
    {nCycles : Nat} {x : Slot} :
    x ∈ scheduleLoopSingle numUes slotDuration kGuardTime nCycles ↔
    ∃ cycle, cycle < nCycles ∧ ∃ i, i < numUes ∧
      x ∈ loopBodySingle slotDuration kGuardTime (cycleDuration numUes slotDuration) cycle i := by
  simp [scheduleLoopSingle, List.mem_flatMap, List.mem_range]

/-- Every position is the position of one `(cycle, node, direction)`. -/
theorem position_decode (numUes K : Nat) (hN : 0 < numUes) :
    ∃ c i k, i < numUes ∧ k ≤ 1 ∧ K = c * 2 * numUes + 2 * i + k := by
  refine ⟨K / (2 * numUes), K % (2 * numUes) / 2, K % (2 * numUes) % 2, ?_, ?_, ?_⟩
  · have := Nat.mod_lt K (by omega : 0 < 2 * numUes)
    omega
  · omega
  · have h := Nat.div_add_mod K (2 * numUes)
    have e : 2 * numUes * (K / (2 * numUes)) = K / (2 * numUes) * 2 * numUes := by ring
    rw [e] at h
    omega

/-- A smaller position belongs to an earlier iteration or to the same one. -/
theorem position_lt_cases {numUes c i k c1 i1 k1 : Nat} (hi : i < numUes) (hk : k ≤ 1)
    (h : c1 * 2 * numUes + 2 * i1 + k1 < c * 2 * numUes + 2 * i + k) :
    c1 ≤ c ∧ c1 * 2 * numUes + 2 * i1 ≤ c * 2 * numUes + 2 * i := by
  constructor
  · by_contra hlt
    have h' : c + 1 ≤ c1 := by omega
    have key : (c + 1) * (2 * numUes) ≤ c1 * (2 * numUes) := Nat.mul_le_mul_right _ h'
    have e1 : (c + 1) * (2 * numUes) = c * 2 * numUes + 2 * numUes := by ring
    have e2 : c1 * (2 * numUes) = c1 * 2 * numUes := by ring
    rw [e1, e2] at key
    omega
  · omega

/-- The slots before an emitted slot are emitted as well: the output of the
scheduling loop of `TDMA_RR_Mobility.cc` has no hole. -/
theorem scheduleLoop_closed (numUes nCycles : Nat) (slotDuration simDuration kGuardTime : ℚ)
    (hN : numUes * 2 ≤ UINT32_MOD) (hd : 0 ≤ slotDuration) (x : Slot)
    (hx : x ∈ scheduleLoop numUes slotDuration simDuration kGuardTime nCycles) (K : Nat)
    (hK : K < Slot.position numUes x) :
    ∃ z ∈ scheduleLoop numUes slotDuration simDuration kGuardTime nCycles,
      Slot.position numUes z = K := by
  obtain ⟨c, hc, i, hi, hb⟩ := mem_scheduleLoop.1 hx
  have e := mem_loopBody hb
  have keep := loopBody_keep_of_mem hb
  obtain ⟨c1, i1, k1, hi1, hk1, rfl⟩ := position_decode numUes K (by omega)
  unfold Slot.position at hK
  rw [e.1, e.2.1] at hK
  have ho := position_lt_cases hi x.direction.index_le_one hK
  have hmod : i * 2 % UINT32_MOD = i * 2 := Nat.mod_eq_of_lt (by omega)
  have hmod1 : i1 * 2 % UINT32_MOD = i1 * 2 := Nat.mod_eq_of_lt (by omega)
  have hq : ((c1 * 2 * numUes + 2 * i1 : Nat) : ℚ) ≤ ((c * 2 * numUes + 2 * i : Nat) : ℚ) := by
    exact_mod_cast ho.2
  have hq2 := mul_le_mul_of_nonneg_right hq hd
  have hk := loopBody_eq_of_keep numUes slotDuration simDuration kGuardTime
    (cycleDuration numUes slotDuration) c1 i1 keep.1
    (by
      have h2 := keep.2
      rw [hmod] at h2
      rw [hmod1]
      unfold cycleDuration at h2 ⊢
      push_cast at hq2 h2 ⊢
      linarith)
    hd
  have hc1 : c1 < nCycles := lt_of_le_of_lt ho.1 hc
  rcases Nat.le_one_iff_eq_zero_or_eq_one.1 hk1 with rfl | rfl
  · exact ⟨_, mem_scheduleLoop.2 ⟨c1, hc1, i1, hi1, by rw [hk]; exact List.mem_cons_self _ _⟩,
      by simp [Slot.position, Direction.index]⟩
  · exact ⟨_, mem_scheduleLoop.2 ⟨c1, hc1, i1, hi1, by
        rw [hk]; exact List.mem_cons_of_mem _ (List.mem_cons_self _ _)⟩,
      by simp [Slot.position, Direction.index]⟩

/-- The output of the scheduling loop of `tdmaMobilitynew.cc` has no hole. -/
theorem scheduleLoopSingle_closed (numUes nCycles : Nat) (slotDuration kGuardTime : ℚ)
    (x : Slot) (hx : x ∈ scheduleLoopSingle numUes slotDuration kGuardTime nCycles) (K : Nat)
    (hK : K < Slot.position numUes x) :
    ∃ z ∈ scheduleLoopSingle numUes slotDuration kGuardTime nCycles,
      Slot.position numUes z = K := by
  obtain ⟨c, hc, i, hi, hb⟩ := mem_scheduleLoopSingle.1 hx
  have e := mem_loopBodySingle hb
  obtain ⟨c1, i1, k1, hi1, hk1, rfl⟩ := position_decode numUes K (by omega)
  unfold Slot.position at hK
  rw [e.1, e.2.1] at hK
  have ho := position_lt_cases hi x.direction.index_le_one hK
  have hc1 : c1 < nCycles := lt_of_le_of_lt ho.1 hc
  rcases Nat.le_one_iff_eq_zero_or_eq_one.1 hk1 with rfl | rfl
  · exact ⟨_, mem_scheduleLoopSingle.2 ⟨c1, hc1, i1, hi1, List.mem_cons_self _ _⟩,
      by simp [Slot.position, Direction.index]⟩
  · exact ⟨_, mem_scheduleLoopSingle.2 ⟨c1, hc1, i1, hi1,
        List.mem_cons_of_mem _ (List.mem_cons_self _ _)⟩,
      by simp [Slot.position, Direction.index]⟩

/-- A relation that holds between the members of a list wherever another one
does, holds at consecutive places wherever the other one does. -/
theorem chain_imp_of_mem {α : Type} {R S : α → α → Prop} :
    ∀ l : List α, (∀ x ∈ l, ∀ y ∈ l, R x y → S x y) → l.Chain' R → l.Chain' S
  | [], _, _ => List.chain'_nil
  | [_], _, _ => List.chain'_singleton _
  | a :: b :: t, h, hc => by
    rw [List.chain'_cons] at hc ⊢
    exact ⟨h a (List.mem_cons_self _ _) b (List.mem_cons_of_mem _ (List.mem_cons_self _ _)) hc.1,
      chain_imp_of_mem (b :: t)
        (fun x hx y hy => h x (List.mem_cons_of_mem _ hx) y (List.mem_cons_of_mem _ hy)) hc.2⟩

/-- Consecutive places of a sorted list without holes hold consecutive
positions. -/
theorem chain_position (numUes : Nat) (l : List Slot) (hnode : ∀ x ∈ l, x.node < numUes)
    (hs : l.Pairwise Slot.Before)
    (hc : ∀ x ∈ l, ∀ K, K < Slot.position numUes x → ∃ z ∈ l, Slot.position numUes z = K) :
    l.Chain' (fun x y => Slot.position numUes y = Slot.position numUes x + 1) := by
  apply chain_succ_of_sorted_closed (Slot.position numUes) l
  · exact hs.imp_of_mem (fun hx _ h => position_lt_of_before (hnode _ hx) h)
  · intro _ _ x hx k _ hk
    exact hc x hx k hk

/-- Start of every slot of both scheduling loops as a multiple of the slot
duration, as long as the 32-bit product `i * 2` cannot wrap. -/
theorem start_eq_position_mul (numUes nCycles : Nat) (slotDuration simDuration kGuardTime : ℚ)
    (hN : numUes * 2 ≤ UINT32_MOD) :
    (∀ x ∈ scheduleLoop numUes slotDuration simDuration kGuardTime nCycles,
      x.start = (Slot.position numUes x : ℚ) * slotDuration) ∧
    (∀ x ∈ scheduleLoopSingle numUes slotDuration kGuardTime nCycles,
      x.start = (Slot.position numUes x : ℚ) * slotDuration) := by
  constructor
  · intro x hx
    obtain ⟨c, _, i, hi, hb⟩ := mem_scheduleLoop.1 hx
    have e := mem_loopBody hb
    have hmod : i * 2 % UINT32_MOD = i * 2 := Nat.mod_eq_of_lt (by omega)
    rw [e.2.2.2.1, Slot.position, e.1, e.2.1, hmod, cycleDuration]
    push_cast
    ring
  · intro x hx
    obtain ⟨c, _, i, hi, hb⟩ := mem_scheduleLoopSingle.1 hx
    have e := mem_loopBodySingle hb
    have hmod : i * 2 % UINT32_MOD = i * 2 := Nat.mod_eq_of_lt (by omega)
    rw [e.2.2.2.1, Slot.position, e.1, e.2.1, hmod, cycleDuration]
    push_cast
    ring

/-- In both scheduling loops each slot starts one slot duration after the
slot emitted before it, and one guard time after that slot stops. -/
theorem chain_start (numUes nCycles : Nat) (slotDuration simDuration kGuardTime : ℚ)
    (hN : numUes * 2 ≤ UINT32_MOD) (hd : 0 < slotDuration) :
    (scheduleLoop numUes slotDuration simDuration kGuardTime nCycles).Chain'
      (fun x y => y.start = x.start + slotDuration ∧ y.start - x.stop = kGuardTime) ∧
    (scheduleLoopSingle numUes slotDuration kGuardTime nCycles).Chain'
      (fun x y => y.start = x.start + slotDuration ∧ y.start - x.stop = kGuardTime) := by
  have hst := start_eq_position_mul numUes nCycles slotDuration simDuration kGuardTime hN
  constructor
  · apply chain_imp_of_mem _ _
      (chain_position numUes _
        (fun x hx => by
          obtain ⟨c, _, i, hi, hb⟩ := mem_scheduleLoop.1 hx
          rw [(mem_loopBody hb).2.1]
          exact hi)
        (nested_pairwise_before _ _ _
          (fun c i x hx => ⟨(mem_loopBody hx).1, (mem_loopBody hx).2.1⟩)
          (fun c i => loopBody_pairwise_before _ _ _ _ _ c i))
        (scheduleLoop_closed numUes nCycles slotDuration simDuration kGuardTime hN hd.le))
    intro x hx y hy hxy
    obtain ⟨c, _, i, _, hb⟩ := mem_scheduleLoop.1 hx
    have hstop := (mem_loopBody hb).2.2.2.2.1
    have e : y.start = x.start + slotDuration := by
      rw [hst.1 x hx, hst.1 y hy, hxy]
      push_cast
      ring
    exact ⟨e, by rw [hstop, e]; ring⟩
  · apply chain_imp_of_mem _ _
      (chain_position numUes _
        (fun x hx => by
          obtain ⟨c, _, i, hi, hb⟩ := mem_scheduleLoopSingle.1 hx
          rw [(mem_loopBodySingle hb).2.1]
          exact hi)
        (nested_pairwise_before _ _ _
          (fun c i x hx => ⟨(mem_loopBodySingle hx).1, (mem_loopBodySingle hx).2.1⟩)
          (fun c i => loopBodySingle_pairwise_before _ _ _ c i))
        (scheduleLoopSingle_closed numUes nCycles slotDuration kGuardTime))
    intro x hx y hy hxy
    obtain ⟨c, _, i, _, hb⟩ := mem_scheduleLoopSingle.1 hx
    have hstop := (mem_loopBodySingle hb).2.2.2.2
    have e : y.start = x.start + slotDuration := by
      rw [hst.2 x hx, hst.2 y hy, hxy]
      push_cast
      ring
    exact ⟨e, by rw [hstop, e]; ring⟩

/-- Consecutive cycles of the same UE and direction start one cycle duration
`2 * slotDuration * numUes` apart, for every trip count of the outer loop. -/
theorem start_next_cycle (numUes : Nat) (slotDuration simDuration kGuardTime : ℚ)
    (nCycles : Nat) (x y : Slot)
    (hx : x ∈ scheduleLoop numUes slotDuration simDuration kGuardTime nCycles)
    (hy : y ∈ scheduleLoop numUes slotDuration simDuration kGuardTime nCycles)
    (hn : x.node = y.node) (hdir : x.direction = y.direction) (hc : y.cycle = x.cycle + 1) :
    y.start - x.start = 2 * slotDuration * numUes := by
  obtain ⟨c1, _, i1, _, hb1⟩ := mem_scheduleLoop.1 hx
  obtain ⟨c2, _, i2, _, hb2⟩ := mem_scheduleLoop.1 hy
  have e1 := mem_loopBody hb1
  have e2 := mem_loopBody hb2
  have hi : i1 = i2 := by rw [← e1.2.1, ← e2.2.1]; exact hn
  have hcc : c2 = c1 + 1 := by rw [← e1.1, ← e2.1]; exact hc
  rw [e1.2.2.2.1, e2.2.2.2.1, hi, hcc, hdir, cycleDuration]
  push_cast
  ring

/-- For a trip count that overshoots the horizon by less than one slot, every
UE gets its uplink slot in every cycle below the trip count. -/
theorem uplink_emitted (numUes : Nat) (slotDuration simDuration kGuardTime : ℚ)
    (nCycles : Nat) (hd : 0 < slotDuration) (hg : kGuardTime < slotDuration)
    (hfit : (nCycles : ℚ) * cycleDuration numUes slotDuration < simDuration + slotDuration)
    (c i : Nat) (hc : c < nCycles) (hi : i < numUes) :
    ∃ x ∈ scheduleLoop numUes slotDuration simDuration kGuardTime nCycles,
      x.cycle = c ∧ x.node = i ∧ x.direction = Direction.uplink ∧
      x.bsIndex = bsIndexOf numUes i :=
  ⟨_, mem_scheduleLoop.2 ⟨c, hc, i, hi, by
      rw [loopBody_eq_of_fit numUes slotDuration simDuration kGuardTime nCycles hd hg hfit
        c i hc hi]
      exact List.mem_cons_self _ _⟩, rfl, rfl, rfl, rfl⟩

/-- For such a trip count the cycles that appear in the output are exactly
those below the trip count. -/
theorem cycle_emitted_iff (numUes : Nat) (slotDuration simDuration kGuardTime : ℚ)
    (nCycles : Nat) (hN : 1 ≤ numUes) (hd : 0 < slotDuration)
    (hg : kGuardTime < slotDuration)
    (hfit : (nCycles : ℚ) * cycleDuration numUes slotDuration < simDuration + slotDuration)
    (c : Nat) :
    (∃ x ∈ scheduleLoop numUes slotDuration simDuration kGuardTime nCycles, x.cycle = c) ↔
      c < nCycles := by
  constructor
  · rintro ⟨x, hx, rfl⟩
    obtain ⟨c, hc, i, _, hb⟩ := mem_scheduleLoop.1 hx
    rw [(mem_loopBody hb).1]
    exact hc
  · intro hc
    obtain ⟨x, hx, h, _⟩ := uplink_emitted numUes slotDuration simDuration kGuardTime
      nCycles hd hg hfit c 0 hc hN
    exact ⟨x, hx, h⟩

theorem groupSize_four : groupSize 4 0 = 2 := by decide

theorem Static.half_eq : Static.half = 125 := by decide

theorem Static.ueLoop_of_ge (ue bs fuel k : Nat) (t : ℚ) (h : 60 ≤ t) :
    Static.ueLoop ue bs fuel k t = [] := by
  cases fuel with
  | zero => rfl
  | succ f =>
    unfold Static.ueLoop
    rw [if_neg]
    simp only [Static.kSimDuration]
    exact not_lt.2 h

theorem Static.ueLoop_of_lt (ue bs fuel k : Nat) (t : ℚ) (h : t < 60) :
    Static.ueLoop ue bs (fuel + 1) k t =
      ⟨k, ue, Direction.uplink, bs, t, t + 1 / 10⟩ ::
      ⟨k, ue, Direction.downlink, bs, t + 1 / 10, t + 2 * (1 / 10)⟩ ::
      Static.ueLoop ue bs fuel (k + 1) (t + 25) := by
  have e : (2 : ℚ) * Static.kSlotDuration * (Static.half : ℚ) = 25 := by
    rw [Static.half_eq]
    norm_num [Static.kSlotDuration]
  conv_lhs => unfold Static.ueLoop
  rw [if_pos (by simpa [Static.kSimDuration] using h), e]
  rfl

theorem Static.firstStart_eq (i : Nat) (hi : i < Static.half) :
    Static.firstStart i = (i : ℚ) / 5 := by
  rw [Static.half_eq] at hi
  have hmod : i * 2 % UINT32_MOD = i * 2 := Nat.mod_eq_of_lt (by simp only [UINT32_MOD]; omega)
  rw [Static.firstStart, hmod, Static.kSlotDuration]
  push_cast
  ring

/-- The while loop of a UE whose first start is below 10 s does three
iterations. -/
theorem Static.ueLoop_three (ue bs fuel : Nat) (t : ℚ) (hf : 3 ≤ fuel) (h0 : 0 ≤ t)
    (h1 : t < 10) :
    Static.ueLoop ue bs fuel 0 t =
      [ ⟨0, ue, Direction.uplink, bs, t, t + 1 / 10⟩,
        ⟨0, ue, Direction.downlink, bs, t + 1 / 10, t + 2 * (1 / 10)⟩,
        ⟨1, ue, Direction.uplink, bs, t + 25, t + 25 + 1 / 10⟩,
        ⟨1, ue, Direction.downlink, bs, t + 25 + 1 / 10, t + 25 + 2 * (1 / 10)⟩,
        ⟨2, ue, Direction.uplink, bs, t + 25 + 25, t + 25 + 25 + 1 / 10⟩,
        ⟨2, ue, Direction.downlink, bs, t + 25 + 25 + 1 / 10,
          t + 25 + 25 + 2 * (1 / 10)⟩ ] := by
  obtain ⟨f, rfl⟩ := Nat.exists_eq_add_of_le' hf
  rw [Static.ueLoop_of_lt _ _ _ _ _ (by linarith), Static.ueLoop_of_lt _ _ _ _ _ (by linarith),
    Static.ueLoop_of_lt _ _ _ _ _ (by linarith), Static.ueLoop_of_ge _ _ _ _ _ (by linarith)]

/-- The while loop of a UE whose first start is in `[10, 35)` s does two
iterations. -/
theorem Static.ueLoop_two (ue bs fuel : Nat) (t : ℚ) (hf : 3 ≤ fuel) (h0 : 10 ≤ t)
    (h1 : t < 35) :
    Static.ueLoop ue bs fuel 0 t =
      [ ⟨0, ue, Direction.uplink, bs, t, t + 1 / 10⟩,
        ⟨0, ue, Direction.downlink, bs, t + 1 / 10, t + 2 * (1 / 10)⟩,
        ⟨1, ue, Direction.uplink, bs, t + 25, t + 25 + 1 / 10⟩,
        ⟨1, ue, Direction.downlink, bs, t + 25 + 1 / 10, t + 25 + 2 * (1 / 10)⟩ ] := by
  obtain ⟨f, rfl⟩ := Nat.exists_eq_add_of_le' hf
  rw [Static.ueLoop_of_lt _ _ _ _ _ (by linarith), Static.ueLoop_of_lt _ _ _ _ _ (by linarith),
    Static.ueLoop_of_ge _ _ _ _ _ (by linarith)]

theorem Static.ueLoop_counts (ue bs fuel i : Nat) (hf : 3 ≤ fuel) (hi : i < Static.half) :
    uplinkCount (Static.ueLoop ue bs fuel 0 (Static.firstStart i)) = (if i < 50 then 3 else 2) ∧
    downlinkCount (Static.ueLoop ue bs fuel 0 (Static.firstStart i)) =
      (if i < 50 then 3 else 2) := by
  have ht := Static.firstStart_eq i hi
  rw [Static.half_eq] at hi
  have hpos : (0 : ℚ) ≤ (i : ℚ) := Nat.cast_nonneg i
  by_cases h : i < 50
  · have hq : (i : ℚ) < 50 := by exact_mod_cast h
    rw [Static.ueLoop_three ue bs fuel _ hf (by rw [ht]; linarith) (by rw [ht]; linarith),
      if_pos h]
    exact ⟨by simp [uplinkCount], by simp [downlinkCount]⟩
  · have hq : (50 : ℚ) ≤ (i : ℚ) := by exact_mod_cast not_lt.1 h
    have hq2 : (i : ℚ) < 125 := by exact_mod_cast hi
    rw [Static.ueLoop_two ue bs fuel _ hf (by rw [ht]; linarith) (by rw [ht]; linarith),
      if_neg h]
    exact ⟨by simp [uplinkCount], by simp [downlinkCount]⟩

/-- C18, refutation. In `TDMA_RR_Static.cc` (250 UEs, slot 0.1 s, horizon 60 s)
`floor (kSimDuration / (2 * kSlotDuration * half)) = floor (60 / 25) = 2`, but
the while loop of UE 0 of base station 1 creates three uplink and three downlink
applications, with uplink windows `[0, 0.1)`, `[25, 25.1)` and `[50, 50.1)`. -/
theorem static_cycle_count_counterexample :
    Static.half = 125 ∧
    2 * Static.kSlotDuration * (Static.half : ℚ) = 25 ∧
    numCycles Static.kSimDuration (2 * Static.kSlotDuration * (Static.half : ℚ)) = 2 ∧
    uplinkCount (Static.ueLoop 0 0 10 0 (Static.firstStart 0)) = 3 ∧
    downlinkCount (Static.ueLoop 0 0 10 0 (Static.firstStart 0)) = 3 ∧
    ((Static.ueLoop 0 0 10 0 (Static.firstStart 0)).filter
        (fun x => decide (x.direction = Direction.uplink))).map (fun x => (x.start, x.stop)) =
      [(0, 1 / 10), (25, 25 + 1 / 10), (50, 50 + 1 / 10)] := by
  have e : (2 : ℚ) * Static.kSlotDuration * (Static.half : ℚ) = 25 := by
    rw [Static.half_eq]
    norm_num [Static.kSlotDuration]
  have ht : Static.firstStart 0 = 0 := by
    rw [Static.firstStart_eq 0 (by decide)]
    norm_num
  refine ⟨Static.half_eq, e, ?_, ?_, ?_, ?_⟩
  · rw [e, Static.kSimDuration]
    exact numCycles_eq (by norm_num) 2 (by norm_num) (by norm_num)
  · exact (Static.ueLoop_counts 0 0 10 0 (by decide) (by decide)).1
  · exact (Static.ueLoop_counts 0 0 10 0 (by decide) (by decide)).2
  · rw [ht, Static.ueLoop_three 0 0 10 0 (by decide) (le_refl 0) (by norm_num)]
    simp [List.filter_cons]
    norm_num

/-- C18, amended. In `TDMA_RR_Static.cc` (250 UEs, slot 0.1 s, horizon 60 s,
25 s between the windows of a UE) the loop `while (t < kSimDuration)` gives the
UE of local index `i < 125` of either base station three uplink and three
downlink applications when `i < 50` and two of each when `50 ≤ i`; the loop
ends by its own test (any fuel `≥ 3` gives the same result). -/
theorem static_window_count (fuel i : Nat) (hf : 3 ≤ fuel) (hi : i < Static.half) :
    uplinkCount (Static.ueLoop i 0 fuel 0 (Static.firstStart i)) = (if i < 50 then 3 else 2) ∧
    downlinkCount (Static.ueLoop i 0 fuel 0 (Static.firstStart i)) =
      (if i < 50 then 3 else 2) ∧
    uplinkCount (Static.ueLoop (Static.half + i) 1 fuel 0 (Static.firstStart i)) =
      (if i < 50 then 3 else 2) ∧
    downlinkCount (Static.ueLoop (Static.half + i) 1 fuel 0 (Static.firstStart i)) =
      (if i < 50 then 3 else 2) :=
  ⟨(Static.ueLoop_counts i 0 fuel i hf hi).1, (Static.ueLoop_counts i 0 fuel i hf hi).2,
    (Static.ueLoop_counts (Static.half + i) 1 fuel i hf hi).1,
    (Static.ueLoop_counts (Static.half + i) 1 fuel i hf hi).2⟩

/-- Witness of `static_window_count`: the UE of local index 50, the first one
with two windows, and fuel 4. -/
theorem static_window_count_witness :
    3 ≤ 4 ∧ 50 < Static.half ∧
    (uplinkCount (Static.ueLoop 50 0 4 0 (Static.firstStart 50)) =
      (if 50 < 50 then 3 else 2) ∧
    downlinkCount (Static.ueLoop 50 0 4 0 (Static.firstStart 50)) =
      (if 50 < 50 then 3 else 2) ∧
    uplinkCount (Static.ueLoop (Static.half + 50) 1 4 0 (Static.firstStart 50)) =
      (if 50 < 50 then 3 else 2) ∧
    downlinkCount (Static.ueLoop (Static.half + 50) 1 4 0 (Static.firstStart 50)) =
      (if 50 < 50 then 3 else 2)) :=
  ⟨by decide, by decide, static_window_count 4 50 (by decide) (by decide)⟩

/-! ## Configurations that the specification calls invalid -/

theorem scheduleLoop_eq_nil_of_degenerate (numUes : Nat)
    (slotDuration simDuration kGuardTime : ℚ) (nCycles : Nat)
    (h : slotDuration ≤ kGuardTime ∨ numUes = 0) :
    scheduleLoop numUes slotDuration simDuration kGuardTime nCycles = [] := by
  unfold scheduleLoop
  rw [List.flatMap_eq_nil_iff]
  intro c _
  rw [List.flatMap_eq_nil_iff]
  intro i hi
  rcases h with h | h
  · exact loopBody_eq_nil_of_le _ _ _ _ _ _ _ h
  · rw [h] at hi
    simp at hi

theorem groupSize_one : groupSize 1 0 = 0 := by decide

/-- C19, refutation. With `numUes = 1` the group of base station 0 is empty
(line 215 assigns UE 0 to base station 1), yet the scheduling loop of
`TDMA_RR_Mobility.cc` (slot 0.1 s, horizon 1 s, guard 4 ms) produces slots, all
of them for base station 1. -/
theorem empty_group_counterexample :
    groupSize 1 0 = 0 ∧
    schedule 1 (1 / 10) 1 (4 / 1000) ≠ [] ∧
    ∀ x ∈ schedule 1 (1 / 10) 1 (4 / 1000), x.bsIndex = 1 := by
  refine ⟨groupSize_one, ?_, ?_⟩
  · have hD : cycleDuration 1 (1 / 10) = 2 / 10 := by norm_num [cycleDuration]
    have hc : 0 < numCycles 1 (cycleDuration 1 (1 / 10)) := by
      rw [hD]
      exact (lt_numCycles_iff (by norm_num) 0).2 (by norm_num)
    have hk := loopBody_eq_of_keep 1 (1 / 10) 1 (4 / 1000) (cycleDuration 1 (1 / 10)) 0 0
      (by norm_num) (by rw [hD]; norm_num) (by norm_num)
    obtain ⟨x, hx⟩ : ∃ x, x ∈ loopBody 1 (1 / 10) 1 (4 / 1000)
        (cycleDuration 1 (1 / 10)) 0 0 :=
      ⟨_, by rw [hk]; exact List.mem_cons_self _ _⟩
    exact List.ne_nil_of_mem (mem_schedule.2 ⟨0, hc, 0, by decide, hx⟩)
  · intro x hx
    obtain ⟨c, _, i, hi, hb⟩ := mem_schedule.1 hx
    have hi0 : i = 0 := by omega
    rw [(mem_loopBody hb).2.2.1, hi0]
    decide

/-- C19, amended. The scheduling loop of `TDMA_RR_Mobility.cc` validates
nothing and has no error outcome (`schedule` is a total function). It produces
no slot, for every trip count of the outer loop, whenever `slotDuration ≤ 0`
with a non-negative guard, or `kGuardTime ≥ slotDuration`, or `numUes = 0`. -/
theorem no_slot_when_degenerate (numUes : Nat) (slotDuration simDuration kGuardTime : ℚ)
    (h : (slotDuration ≤ 0 ∧ 0 ≤ kGuardTime) ∨ slotDuration ≤ kGuardTime ∨ numUes = 0) :
    schedule numUes slotDuration simDuration kGuardTime = [] ∧
    ∀ nCycles, scheduleLoop numUes slotDuration simDuration kGuardTime nCycles = [] := by
  have h' : slotDuration ≤ kGuardTime ∨ numUes = 0 := by
    rcases h with ⟨h1, h2⟩ | h | h
    · exact Or.inl (h1.trans h2)
    · exact Or.inl h
    · exact Or.inr h
  exact ⟨scheduleLoop_eq_nil_of_degenerate _ _ _ _ _ h',
    fun n => scheduleLoop_eq_nil_of_degenerate _ _ _ _ n h'⟩

/-- Witness of `no_slot_when_degenerate`: 3 UEs and a slot of 4 ms, equal to the
guard time. -/
theorem no_slot_when_degenerate_witness :
    (((4 / 1000 : ℚ) ≤ 0 ∧ (0 : ℚ) ≤ 4 / 1000) ∨ (4 / 1000 : ℚ) ≤ 4 / 1000 ∨ 3 = 0) ∧
    schedule 3 (4 / 1000) 60 (4 / 1000) = [] ∧
    ∀ nCycles, scheduleLoop 3 (4 / 1000) 60 (4 / 1000) nCycles = [] :=
  ⟨Or.inr (Or.inl (le_refl _)),
    no_slot_when_degenerate 3 (4 / 1000) 60 (4 / 1000) (Or.inr (Or.inl (le_refl _)))⟩

/-- The first dispatch after an activation inside the window sends a packet at
the activation time. -/
theorem run_one_in_window (a : TdmaClientApp) (now : ℚ) (ha : Configured a)
    (h1 : a.m_startTime ≤ now) (h2 : now < a.m_stopTime) :
    (run 1 (StartApplication now a)).sent = [now] := by
  obtain ⟨hs, hc, hq, hsent⟩ := ha
  rcases StartApplication_cases now a hs hq with ⟨hlt, _⟩ | ⟨_, hgt, _⟩ | ⟨_, _, e⟩
  · exact absurd hlt (not_lt.2 h1)
  · exact absurd hgt (not_lt.2 h2.le)
  · rw [e, run_succ_of_step 0 (step_send _ _ _ rfl)]
    simp only [run]
    rcases SendPacket_cases now { a with m_count := 0, queue := [] } rfl with
      ⟨h, _⟩ | ⟨_, _, _, e1⟩ | ⟨_, _, e1⟩
    · exact absurd h2 (not_lt.2 h)
    · rw [e1]; simp [hsent]
    · rw [e1]; simp [hsent]

/-- C20, refutation. `Setup` with `nPackets = 0` does not fail: the generator is
configured (socket stored, nothing pending), and when it is activated at the
start of its window `[3, 4)` it sends a packet at time 3. -/
theorem setup_zero_packets_counterexample :
    (Setup (1 / 10) (4 / 1000) 0 TdmaClientApp.new).m_socket = true ∧
    (Setup (1 / 10) (4 / 1000) 0 TdmaClientApp.new).m_nPackets = 0 ∧
    Configured (slotGenerator (1 / 10) (4 / 1000) 0 3 4) ∧
    (run 1 (StartApplication 3 (slotGenerator (1 / 10) (4 / 1000) 0 3 4))).sent = [3] := by
  refine ⟨rfl, rfl, slotGenerator_configured _ _ _ _ _, ?_⟩
  apply run_one_in_window _ _ (slotGenerator_configured _ _ _ _ _)
  · exact le_refl _
  · show (3 : ℚ) < 4
    norm_num

/-- C20, amended. `Setup` has no failure path: for every `nPackets`, 0 included,
it stores the socket and the packet count, changes neither the counter, the
window, the pending events nor the log, and the generator that `main` builds
with it is configured. -/
theorem setup_total (kSlotDuration kGuardTime : ℚ) (nPackets : Nat) (a : TdmaClientApp)
    (startTime stopTime : ℚ) :
    (Setup kSlotDuration kGuardTime nPackets a).m_socket = true ∧
    (Setup kSlotDuration kGuardTime nPackets a).m_nPackets = nPackets ∧
    (Setup kSlotDuration kGuardTime nPackets a).m_count = a.m_count ∧
    (Setup kSlotDuration kGuardTime nPackets a).m_startTime = a.m_startTime ∧
    (Setup kSlotDuration kGuardTime nPackets a).m_stopTime = a.m_stopTime ∧
    (Setup kSlotDuration kGuardTime nPackets a).queue = a.queue ∧
    (Setup kSlotDuration kGuardTime nPackets a).sent = a.sent ∧
    Configured (slotGenerator kSlotDuration kGuardTime nPackets startTime stopTime) :=
  ⟨rfl, rfl, rfl, rfl, rfl, rfl, rfl, slotGenerator_configured _ _ _ _ _⟩

/-! ## Generator: activation later than the window start -/

theorem lt_ceil_toNat (q : ℚ) (m : Nat) : m < ⌈q⌉.toNat ↔ (m : ℚ) < q := by
  rw [Int.lt_toNat, Int.lt_ceil]
  norm_cast

theorem ceil_toNat_le (q : ℚ) (m : Nat) : ⌈q⌉.toNat ≤ m ↔ q ≤ (m : ℚ) := by
  rw [← not_lt, lt_ceil_toNat, not_lt]

/-- State right after an activation inside the window. -/
theorem StartApplication_in_window (a : TdmaClientApp) (now : ℚ) (ha : Configured a)
    (h1 : a.m_startTime ≤ now) (h2 : now < a.m_stopTime) :
    StartApplication now a =
      { a with m_count := 0, queue := [⟨now, Callback.sendPacket, true⟩] } := by
  rcases StartApplication_cases now a ha.1 ha.2.2.1 with ⟨hlt, _⟩ | ⟨_, hgt, _⟩ | ⟨_, _, e⟩
  · exact absurd hlt (not_lt.2 h1)
  · exact absurd hgt (not_lt.2 h2.le)
  · exact e

/-- The burst after an activation at `now` inside the window has
`burstLength` packets, sent at `now + k * interval`. -/
theorem run_late_burst (a : TdmaClientApp) (now : ℚ) (ha : Configured a)
    (hn : 1 ≤ a.m_nPackets) (hW : a.m_nPackets < UINT32_MOD) (hI : 0 < a.m_interval)
    (h1 : a.m_startTime ≤ now) (h2 : now < a.m_stopTime) (fuel : Nat)
    (hf : burstLength a.m_nPackets a.m_interval a.m_stopTime now ≤ fuel) :
    (run fuel (StartApplication now a)).sent =
      (List.range (burstLength a.m_nPackets a.m_interval a.m_stopTime now)).map
        (fun k : Nat => now + (k : ℚ) * a.m_interval) ∧
    (run fuel (StartApplication now a)).queue = [] := by
  have hq : 0 < (a.m_stopTime - now) / a.m_interval := div_pos (by linarith) hI
  have hM : 1 ≤ ⌈(a.m_stopTime - now) / a.m_interval⌉.toNat := by
    have := (lt_ceil_toNat ((a.m_stopTime - now) / a.m_interval) 0).2 (by simpa using hq)
    omega
  have hB : 1 ≤ burstLength a.m_nPackets a.m_interval a.m_stopTime now :=
    le_min hn hM
  obtain ⟨m, hm⟩ : ∃ m, burstLength a.m_nPackets a.m_interval a.m_stopTime now = m + 1 :=
    ⟨_, (Nat.sub_add_cancel hB).symm⟩
  have hmn : m + 1 ≤ a.m_nPackets := hm ▸ min_le_left _ _
  have hmM : m < ⌈(a.m_stopTime - now) / a.m_interval⌉.toNat := by
    have : m + 1 ≤ ⌈(a.m_stopTime - now) / a.m_interval⌉.toNat := hm ▸ min_le_right _ _
    omega
  have hlt : now + (m : ℚ) * a.m_interval < a.m_stopTime := by
    have := (lt_div_iff₀ hI).1 ((lt_ceil_toNat _ m).1 hmM)
    linarith
  have hend : 0 + (m + 1) = a.m_nPackets ∨
      a.m_stopTime ≤ now + ((m : ℚ) + 1) * a.m_interval := by
    rcases le_total a.m_nPackets ⌈(a.m_stopTime - now) / a.m_interval⌉.toNat with h | h
    · left
      have : burstLength a.m_nPackets a.m_interval a.m_stopTime now = a.m_nPackets :=
        min_eq_left h
      omega
    · right
      have e : burstLength a.m_nPackets a.m_interval a.m_stopTime now =
          ⌈(a.m_stopTime - now) / a.m_interval⌉.toNat := min_eq_right h
      have hle := (ceil_toNat_le ((a.m_stopTime - now) / a.m_interval) (m + 1)).1
        (by rw [← hm, e])
      have := (div_le_iff₀ hI).1 hle
      push_cast at this
      linarith
  have hrun := run_sends m
    { a with m_count := 0, queue := [⟨now, Callback.sendPacket, true⟩] } now rfl
    hI.le (by simp only; omega) hW hlt hend
  obtain ⟨r1, r2, _⟩ := hrun
  rw [StartApplication_in_window a now ha h1 h2, hm]
  rw [hm] at hf
  constructor
  · rw [run_of_le hf _ r1, r2]
    simp only [ha.2.2.2, List.nil_append]
  · rw [run_of_le hf _ r1]; exact r1

/-- When the window is `n` intervals long, the burst is complete exactly when
the activation is less than one interval late. -/
theorem burstLength_eq_iff (n : Nat) (interval start stop now : ℚ) (hn : 1 ≤ n)
    (hI : 0 < interval) (hw : stop - start = (n : ℚ) * interval) :
    burstLength n interval stop now = n ↔ now - start < interval := by
  unfold burstLength
  rw [min_eq_left_iff]
  obtain ⟨k, rfl⟩ : ∃ k, n = k + 1 := ⟨n - 1, by omega⟩
  rw [Nat.succ_le_iff, lt_ceil_toNat, lt_div_iff₀ hI]
  push_cast at hw
  constructor <;> intro h <;> nlinarith

/-- C28. Late-activation packet count: for a configured generator of
`TDMA_RR_Mobility.cc` (same code in `tdmaMobilitynew.cc`) with
`1 ≤ m_nPackets` (a `uint32_t`) and a positive interval, activated at `now`
with `m_startTime ≤ now < m_stopTime`, the run (any fuel at least the burst
length) ends with nothing pending after sending exactly
`min (n, ceil ((stop - now) / interval))` packets, the `k`-th at
`now + k * interval`; when `stop - start = n * interval` that number is `n` if
and only if `now - start < interval`. -/
theorem late_activation_count (a : TdmaClientApp) (now : ℚ) (ha : Configured a)
    (hn : 1 ≤ a.m_nPackets) (hW : a.m_nPackets < UINT32_MOD) (hI : 0 < a.m_interval)
    (h1 : a.m_startTime ≤ now) (h2 : now < a.m_stopTime) (fuel : Nat)
    (hf : burstLength a.m_nPackets a.m_interval a.m_stopTime now ≤ fuel) :
    (run fuel (StartApplication now a)).sent =
      (List.range (min a.m_nPackets ⌈(a.m_stopTime - now) / a.m_interval⌉.toNat)).map
        (fun k : Nat => now + (k : ℚ) * a.m_interval) ∧
    (run fuel (StartApplication now a)).sent.length =
      min a.m_nPackets ⌈(a.m_stopTime - now) / a.m_interval⌉.toNat ∧
    (run fuel (StartApplication now a)).queue = [] ∧
    (a.m_stopTime - a.m_startTime = (a.m_nPackets : ℚ) * a.m_interval →
      (min a.m_nPackets ⌈(a.m_stopTime - now) / a.m_interval⌉.toNat = a.m_nPackets ↔
        now - a.m_startTime < a.m_interval)) := by
  have h := run_late_burst a now ha hn hW hI h1 h2 fuel hf
  refine ⟨h.1, ?_, h.2, fun hw => burstLength_eq_iff _ _ _ _ now hn hI hw⟩
  rw [h.1, List.length_map, List.length_range]
  rfl

/-- Witness of `late_activation_count`: the generator of the window
`[3, 3.096)` (5 packets, interval 0.0192) activated at 3.05 s. -/
theorem late_activation_count_witness :
    Configured demoApp ∧ 1 ≤ demoApp.m_nPackets ∧ demoApp.m_nPackets < UINT32_MOD ∧
    0 < demoApp.m_interval ∧ demoApp.m_startTime ≤ 305 / 100 ∧
    305 / 100 < demoApp.m_stopTime ∧
    burstLength demoApp.m_nPackets demoApp.m_interval demoApp.m_stopTime (305 / 100) ≤ 5 ∧
    ((run 5 (StartApplication (305 / 100) demoApp)).sent =
      (List.range (min demoApp.m_nPackets
        ⌈(demoApp.m_stopTime - 305 / 100) / demoApp.m_interval⌉.toNat)).map
        (fun k : Nat => 305 / 100 + (k : ℚ) * demoApp.m_interval) ∧
    (run 5 (StartApplication (305 / 100) demoApp)).sent.length =
      min demoApp.m_nPackets ⌈(demoApp.m_stopTime - 305 / 100) / demoApp.m_interval⌉.toNat ∧
    (run 5 (StartApplication (305 / 100) demoApp)).queue = [] ∧
    (demoApp.m_stopTime - demoApp.m_startTime = (demoApp.m_nPackets : ℚ) * demoApp.m_interval →
      (min demoApp.m_nPackets ⌈(demoApp.m_stopTime - 305 / 100) / demoApp.m_interval⌉.toNat
          = demoApp.m_nPackets ↔
        305 / 100 - demoApp.m_startTime < demoApp.m_interval))) :=
  ⟨demoApp_configured, by rw [demoApp_nPackets]; decide, by rw [demoApp_nPackets]; decide,
    by rw [demoApp_interval]; norm_num, by rw [demoApp_startTime]; norm_num,
    by rw [demoApp_stopTime]; norm_num, min_le_left _ _,
    late_activation_count demoApp (305 / 100) demoApp_configured
      (by rw [demoApp_nPackets]; decide) (by rw [demoApp_nPackets]; decide)
      (by rw [demoApp_interval]; norm_num) (by rw [demoApp_startTime]; norm_num)
      (by rw [demoApp_stopTime]; norm_num) 5 (min_le_left _ _)⟩

theorem burstLength_demo :
    burstLength demoApp.m_nPackets demoApp.m_interval demoApp.m_stopTime (305 / 100) = 3 := by
  rw [demoApp_nPackets, demoApp_interval, demoApp_stopTime]
  unfold burstLength
  have e : ⌈((3 : ℚ) + 96 / 1000 - 305 / 100) / (192 / 10000)⌉.toNat = 3 := by
    apply le_antisymm
    · rw [ceil_toNat_le]; norm_num
    · rw [Nat.succ_le_iff, lt_ceil_toNat]; norm_num
  rw [e]
  rfl

/-- C21, refutation. The generator of the window `[3, 3.096)` has 5 packets and
interval 0.0192, so `stop - start = 5 * interval`; activated at 3.05 s, inside
the window, it sends 3 packets (at 3.05, 3.0692 and 3.0884 s) and then has
nothing pending. -/
theorem late_activation_full_count_counterexample :
    demoApp.m_stopTime - demoApp.m_startTime = (demoApp.m_nPackets : ℚ) * demoApp.m_interval ∧
    demoApp.m_startTime ≤ 305 / 100 ∧ 305 / 100 < demoApp.m_stopTime ∧
    (run 5 (StartApplication (305 / 100) demoApp)).sent =
      [305 / 100, 305 / 100 + 192 / 10000, 305 / 100 + 384 / 10000] ∧
    (run 5 (StartApplication (305 / 100) demoApp)).queue = [] ∧
    (run 5 (StartApplication (305 / 100) demoApp)).sent.length ≠ demoApp.m_nPackets := by
  have hs : demoApp.m_startTime ≤ 305 / 100 := by rw [demoApp_startTime]; norm_num
  have ht : (305 / 100 : ℚ) < demoApp.m_stopTime := by rw [demoApp_stopTime]; norm_num
  have h := run_late_burst demoApp (305 / 100) demoApp_configured
    (by rw [demoApp_nPackets]; decide) (by rw [demoApp_nPackets]; decide)
    (by rw [demoApp_interval]; norm_num) hs ht 5 (by rw [burstLength_demo]; decide)
  rw [burstLength_demo, demoApp_interval] at h
  have hl : (run 5 (StartApplication (305 / 100) demoApp)).sent =
      [305 / 100, 305 / 100 + 192 / 10000, 305 / 100 + 384 / 10000] := by
    rw [h.1]
    simp only [List.range_succ, List.range_zero, List.nil_append, List.map_append,
      List.map_cons, List.map_nil, List.cons_append]
    norm_num
  refine ⟨?_, hs, ht, hl, h.2, ?_⟩
  · rw [demoApp_stopTime, demoApp_startTime, demoApp_nPackets, demoApp_interval]
    norm_num
  · rw [hl, demoApp_nPackets]
    decide

/-- C21, amended. For a configured generator with `1 ≤ m_nPackets`
(a `uint32_t`), a positive interval and a window with
`stop - start = n * interval`, an activation at `now` with
`start ≤ now < start + interval` (less than one interval late) still sends
exactly `n` packets, the `k`-th at `now + k * interval`, and then has nothing
pending; any fuel `≥ n` gives this result. -/
theorem late_activation_within_first_interval (a : TdmaClientApp) (now : ℚ)
    (ha : Configured a) (hn : 1 ≤ a.m_nPackets) (hW : a.m_nPackets < UINT32_MOD)
    (hI : 0 < a.m_interval)
    (hw : a.m_stopTime - a.m_startTime = (a.m_nPackets : ℚ) * a.m_interval)
    (h1 : a.m_startTime ≤ now) (h2 : now - a.m_startTime < a.m_interval)
    (fuel : Nat) (hf : a.m_nPackets ≤ fuel) :
    (run fuel (StartApplication now a)).sent =
      (List.range a.m_nPackets).map (fun k : Nat => now + (k : ℚ) * a.m_interval) ∧
    (run fuel (StartApplication now a)).sent.length = a.m_nPackets ∧
    (run fuel (StartApplication now a)).queue = [] := by
  have hb := (burstLength_eq_iff a.m_nPackets a.m_interval a.m_startTime a.m_stopTime now
    hn hI hw).2 h2
  have hn' : (1 : ℚ) ≤ (a.m_nPackets : ℚ) := by exact_mod_cast hn
  have hstop : now < a.m_stopTime := by nlinarith
  have h := run_late_burst a now ha hn hW hI h1 hstop fuel (by rw [hb]; exact hf)
  rw [hb] at h
  refine ⟨h.1, ?_, h.2⟩
  rw [h.1, List.length_map, List.length_range]

/-- Witness of `late_activation_within_first_interval`: the generator of the
window `[3, 3.096)` activated 10 ms late. -/
theorem late_activation_within_first_interval_witness :
    Configured demoApp ∧ 1 ≤ demoApp.m_nPackets ∧ demoApp.m_nPackets < UINT32_MOD ∧
    0 < demoApp.m_interval ∧
    demoApp.m_stopTime - demoApp.m_startTime = (demoApp.m_nPackets : ℚ) * demoApp.m_interval ∧
    demoApp.m_startTime ≤ 301 / 100 ∧ 301 / 100 - demoApp.m_startTime < demoApp.m_interval ∧
    demoApp.m_nPackets ≤ 5 ∧
    ((run 5 (StartApplication (301 / 100) demoApp)).sent =
      (List.range demoApp.m_nPackets).map
        (fun k : Nat => 301 / 100 + (k : ℚ) * demoApp.m_interval) ∧
    (run 5 (StartApplication (301 / 100) demoApp)).sent.length = demoApp.m_nPackets ∧
    (run 5 (StartApplication (301 / 100) demoApp)).queue = []) :=
  have hw : demoApp.m_stopTime - demoApp.m_startTime =
      (demoApp.m_nPackets : ℚ) * demoApp.m_interval := by
    rw [demoApp_stopTime, demoApp_startTime, demoApp_nPackets, demoApp_interval]
    norm_num
  ⟨demoApp_configured, by rw [demoApp_nPackets]; decide, by rw [demoApp_nPackets]; decide,
    by rw [demoApp_interval]; norm_num, hw, by rw [demoApp_startTime]; norm_num,
    by rw [demoApp_startTime, demoApp_interval]; norm_num, le_refl 5,
    late_activation_within_first_interval demoApp (301 / 100) demoApp_configured
      (by rw [demoApp_nPackets]; decide) (by rw [demoApp_nPackets]; decide)
      (by rw [demoApp_interval]; norm_num) hw (by rw [demoApp_startTime]; norm_num)
      (by rw [demoApp_startTime, demoApp_interval]; norm_num) 5 (le_refl 5)⟩

/-! ## Interval of the generators that `main` creates -/

/-- With the default `slotDuration = kSlotDuration` the interval of the
generator of every slot times the packet count is the window length. -/
theorem slotApp_interval_of_default (numUes : Nat) (kSlotDuration simDuration kGuardTime : ℚ)
    (kPacketsPerSlot : Nat) (hn : 1 ≤ kPacketsPerSlot) :
    ∀ x ∈ schedule numUes kSlotDuration simDuration kGuardTime,
      (kPacketsPerSlot : ℚ) * (slotApp kSlotDuration kGuardTime kPacketsPerSlot x).m_interval =
        x.stop - x.start := by
  intro x hx
  obtain ⟨c, _, i, _, hb⟩ := mem_schedule.1 hx
  have hpos : (0 : ℚ) < (kPacketsPerSlot : ℚ) := by exact_mod_cast hn
  rw [(mem_loopBody hb).2.2.2.2.1]
  show (kPacketsPerSlot : ℚ) * ((kSlotDuration - kGuardTime) / (kPacketsPerSlot : ℚ)) = _
  field_simp
  ring

/-- C22, evaluation of the code. With `--slotDuration=0.2` (3 UEs, horizon
2 s; constants `kSlotDuration = 0.1`, `kGuardTime = 0.004`,
`kPacketsPerSlot = 5`) slots are emitted, every window is 0.196 s long, and the
interval stored by `Setup` in the generator of every slot is
`(0.1 - 0.004) / 5 = 0.0192`, not `(0.2 - 0.004) / 5 = 0.0392`: five intervals
cover 0.096 s, not the window. -/
theorem interval_ignores_slotDuration :
    schedule 3 (2 / 10) 2 (4 / 1000) ≠ [] ∧
    ∀ x ∈ schedule 3 (2 / 10) 2 (4 / 1000),
      x.stop - x.start = 196 / 1000 ∧
      (slotApp (1 / 10) (4 / 1000) 5 x).m_interval = 192 / 10000 ∧
      (slotApp (1 / 10) (4 / 1000) 5 x).m_interval ≠ (2 / 10 - 4 / 1000) / 5 ∧
      5 * (slotApp (1 / 10) (4 / 1000) 5 x).m_interval ≠ x.stop - x.start := by
  constructor
  · have hD : cycleDuration 3 (2 / 10) = 12 / 10 := by norm_num [cycleDuration]
    have hc : 0 < numCycles 2 (cycleDuration 3 (2 / 10)) := by
      rw [hD]
      exact (lt_numCycles_iff (by norm_num) 0).2 (by norm_num)
    have hk := loopBody_eq_of_keep 3 (2 / 10) 2 (4 / 1000) (cycleDuration 3 (2 / 10)) 0 0
      (by norm_num) (by rw [hD]; norm_num) (by norm_num)
    obtain ⟨x, hx⟩ : ∃ x, x ∈ loopBody 3 (2 / 10) 2 (4 / 1000)
        (cycleDuration 3 (2 / 10)) 0 0 :=
      ⟨_, by rw [hk]; exact List.mem_cons_self _ _⟩
    exact List.ne_nil_of_mem (mem_schedule.2 ⟨0, hc, 0, by decide, hx⟩)
  · intro x hx
    obtain ⟨c, _, i, _, hb⟩ := mem_schedule.1 hx
    have hi : (slotApp (1 / 10) (4 / 1000) 5 x).m_interval = 192 / 10000 := by
      show ((1 : ℚ) / 10 - 4 / 1000) / ((5 : Nat) : ℚ) = 192 / 10000
      norm_num
    have hw : x.stop - x.start = 196 / 1000 := by
      rw [(mem_loopBody hb).2.2.2.2.1]
      ring
    refine ⟨hw, hi, ?_, ?_⟩
    · rw [hi]; norm_num
    · rw [hi, hw]; norm_num

/-! ## Partition of the UEs over the two base stations -/

theorem countP_lt_range (n h : Nat) :
    (List.range n).countP (fun i => decide (i < h)) = min h n := by
  induction n with
  | zero => simp
  | succ n ih =>
    rw [List.range_succ, List.countP_append, ih]
    by_cases hlt : n < h
    · have e : List.countP (fun i => decide (i < h)) [n] = 1 := by simp [hlt]
      rw [e, min_eq_right (le_of_lt hlt), min_eq_right (Nat.succ_le_of_lt hlt)]
    · have e : List.countP (fun i => decide (i < h)) [n] = 0 := by simp [hlt]
      rw [e, min_eq_left (not_lt.1 hlt), min_eq_left (Nat.le_succ_of_le (not_lt.1 hlt))]
      rfl

theorem countP_not_lt_range (n h : Nat) :
    (List.range n).countP (fun i => decide (¬ i < h)) = n - min h n := by
  induction n with
  | zero => simp
  | succ n ih =>
    rw [List.range_succ, List.countP_append, ih]
    by_cases hlt : n < h
    · have e : List.countP (fun i => decide (¬ i < h)) [n] = 0 := by simp [hlt]
      rw [e, min_eq_right (le_of_lt hlt), min_eq_right (Nat.succ_le_of_lt hlt)]
      omega
    · have e : List.countP (fun i => decide (¬ i < h)) [n] = 1 := by
        simp [not_lt.1 hlt]
      rw [e, min_eq_left (not_lt.1 hlt), min_eq_left (Nat.le_succ_of_le (not_lt.1 hlt))]
      have := not_lt.1 hlt
      omega

theorem bsIndexOf_eq_zero_iff (numUes i : Nat) : bsIndexOf numUes i = 0 ↔ i < numUes / 2 := by
  unfold bsIndexOf
  split_ifs with h <;> simp [h]

theorem bsIndexOf_eq_one_iff (numUes i : Nat) : bsIndexOf numUes i = 1 ↔ ¬ i < numUes / 2 := by
  unfold bsIndexOf
  split_ifs with h <;> simp [h]

theorem groupSize_zero (numUes : Nat) : groupSize numUes 0 = numUes / 2 := by
  unfold groupSize
  rw [← List.countP_eq_length_filter]
  have e : (fun i => decide (bsIndexOf numUes i = 0)) =
      (fun i => decide (i < numUes / 2)) := by
    funext i
    simp [bsIndexOf_eq_zero_iff]
  rw [e, countP_lt_range]
  omega

theorem groupSize_one_eq (numUes : Nat) : groupSize numUes 1 = (numUes + 1) / 2 := by
  unfold groupSize
  rw [← List.countP_eq_length_filter]
  have e : (fun i => decide (bsIndexOf numUes i = 1)) =
      (fun i => decide (¬ i < numUes / 2)) := by
    funext i
    simp [bsIndexOf_eq_one_iff]
  rw [e, countP_not_lt_range]
  omega

/-- C23. Default partition of `TDMA_RR_Mobility.cc`: UE `i` goes to base station
0 exactly when `i < numUes / 2` (integer division) and to base station 1
otherwise, so every UE has exactly one base station; base station 0 has
`floor (numUes / 2)` UEs and base station 1 has `ceil (numUes / 2)`; every
emitted slot, uplink or downlink, of every cycle carries the index of its
node. -/
theorem default_partition (numUes : Nat) (slotDuration simDuration kGuardTime : ℚ) :
    (∀ i, bsIndexOf numUes i = 0 ↔ i < numUes / 2) ∧
    (∀ i, bsIndexOf numUes i = 1 ↔ ¬ i < numUes / 2) ∧
    (∀ i, bsIndexOf numUes i = 0 ∨ bsIndexOf numUes i = 1) ∧
    groupSize numUes 0 = numUes / 2 ∧
    groupSize numUes 1 = (numUes + 1) / 2 ∧
    groupSize numUes 0 + groupSize numUes 1 = numUes ∧
    (∀ x ∈ schedule numUes slotDuration simDuration kGuardTime,
      x.bsIndex = bsIndexOf numUes x.node) ∧
    (∀ x ∈ schedule numUes slotDuration simDuration kGuardTime,
      ∀ y ∈ schedule numUes slotDuration simDuration kGuardTime,
      x.node = y.node → x.bsIndex = y.bsIndex) := by
  have hbs : ∀ x ∈ schedule numUes slotDuration simDuration kGuardTime,
      x.bsIndex = bsIndexOf numUes x.node := by
    intro x hx
    obtain ⟨c, _, i, _, hb⟩ := mem_schedule.1 hx
    rw [(mem_loopBody hb).2.2.1, (mem_loopBody hb).2.1]
  refine ⟨bsIndexOf_eq_zero_iff numUes, bsIndexOf_eq_one_iff numUes, fun i => ?_,
    groupSize_zero numUes, groupSize_one_eq numUes, ?_, hbs, ?_⟩
  · by_cases h : i < numUes / 2
    · exact Or.inl ((bsIndexOf_eq_zero_iff numUes i).2 h)
    · exact Or.inr ((bsIndexOf_eq_one_iff numUes i).2 h)
  · rw [groupSize_zero, groupSize_one_eq]
    omega
  · intro x hx y hy hxy
    rw [hbs x hx, hbs y hy, hxy]

/-! ## The single-medium scheduler without drop test -/

/-- The slot invariant of `tdmaMobilitynew.cc` as long as the slot is longer
than the guard time. -/
theorem scheduleSingle_invariant_of_lt (numUes : Nat)
    (slotDuration simDuration kGuardTime : ℚ) (hg : kGuardTime < slotDuration) :
    ∀ x ∈ scheduleSingle numUes slotDuration simDuration kGuardTime,
      x.stop = x.start + slotDuration - kGuardTime ∧ x.start < x.stop := by
  intro x hx
  unfold scheduleSingle scheduleLoopSingle at hx
  simp only [List.mem_flatMap, List.mem_range] at hx
  obtain ⟨c, _, i, _, hb⟩ := hx
  have e := (mem_loopBodySingle hb).2.2.2.2
  exact ⟨e, by rw [e]; linarith⟩

/-- C24, evaluation of the code. With `--slotDuration=0.0005` (10 UEs, horizon
20 s, constant `kGuardTime = 0.001`) the loop of `tdmaMobilitynew.cc` creates
the uplink application of UE 0 in cycle 0 with start 0 and stop `-0.0005`:
the stop time is before the start time. -/
theorem single_scheduler_degenerate_slot :
    ∃ x ∈ scheduleSingle 10 (1 / 2000) 20 (1 / 1000),
      x.cycle = 0 ∧ x.node = 0 ∧ x.direction = Direction.uplink ∧
      x.start = 0 ∧ x.stop = -(1 / 2000) ∧ x.stop < x.start := by
  have hD : cycleDuration 10 (1 / 2000) = 1 / 100 := by norm_num [cycleDuration]
  have hc : 0 < numCycles 20 (cycleDuration 10 (1 / 2000)) := by
    rw [hD]
    exact (lt_numCycles_iff (by norm_num) 0).2 (by norm_num)
  refine ⟨⟨0, 0, Direction.uplink, 0,
      ((0 : Nat) : ℚ) * cycleDuration 10 (1 / 2000)
        + ((0 * 2 % UINT32_MOD : Nat) : ℚ) * (1 / 2000),
      ((0 : Nat) : ℚ) * cycleDuration 10 (1 / 2000)
        + ((0 * 2 % UINT32_MOD : Nat) : ℚ) * (1 / 2000) + 1 / 2000 - 1 / 1000⟩,
    ?_, rfl, rfl, rfl, ?_, ?_, ?_⟩
  · unfold scheduleSingle scheduleLoopSingle
    simp only [List.mem_flatMap, List.mem_range]
    exact ⟨0, hc, 0, by decide, List.mem_cons_self _ _⟩
  · norm_num
  · norm_num
  · norm_num

/-! ## Scheduling loop: candidates, drop test and counts -/

/-- Inside the cycles that the outer loop iterates, the downlink window of
every UE starts before the horizon. -/
theorem downlinkStart_lt_of_lt_numCycles (numUes : Nat) (slotDuration simDuration : ℚ)
    (hd : 0 < slotDuration) (c i : Nat) (hi : i < numUes)
    (hc : c < numCycles simDuration (cycleDuration numUes slotDuration)) :
    (c : ℚ) * cycleDuration numUes slotDuration
      + ((i * 2 % UINT32_MOD : Nat) : ℚ) * slotDuration + slotDuration + slotDuration
      ≤ simDuration := by
  have hD := cycleDuration_pos (by omega : 1 ≤ numUes) hd
  have hfit := (lt_numCycles_iff hD c).1 hc
  have hoff : i * 2 % UINT32_MOD + 2 ≤ 2 * numUes := by
    have := Nat.mod_le (i * 2) UINT32_MOD
    omega
  have hoffq : ((i * 2 % UINT32_MOD : Nat) : ℚ) + 2 ≤ 2 * (numUes : ℚ) := by
    exact_mod_cast hoff
  have hmul := mul_le_mul_of_nonneg_right hoffq hd.le
  unfold cycleDuration at hfit ⊢
  nlinarith

theorem loopBody_eq_candidates (numUes : Nat) (slotDuration simDuration kGuardTime : ℚ)
    (hd : 0 < slotDuration) (hg : kGuardTime < slotDuration) (c i : Nat) (hi : i < numUes)
    (hc : c < numCycles simDuration (cycleDuration numUes slotDuration)) :
    loopBody numUes slotDuration simDuration kGuardTime
        (cycleDuration numUes slotDuration) c i =
      [ ⟨c, i, Direction.uplink, bsIndexOf numUes i,
          c * cycleDuration numUes slotDuration
            + ((i * 2 % UINT32_MOD : Nat) : ℚ) * slotDuration,
          c * cycleDuration numUes slotDuration
            + ((i * 2 % UINT32_MOD : Nat) : ℚ) * slotDuration + slotDuration - kGuardTime⟩,
        ⟨c, i, Direction.downlink, bsIndexOf numUes i,
          c * cycleDuration numUes slotDuration
            + ((i * 2 % UINT32_MOD : Nat) : ℚ) * slotDuration + slotDuration,
          c * cycleDuration numUes slotDuration
            + ((i * 2 % UINT32_MOD : Nat) : ℚ) * slotDuration + slotDuration
            + slotDuration - kGuardTime⟩ ] := by
  have h := downlinkStart_lt_of_lt_numCycles numUes slotDuration simDuration hd c i hi hc
  exact loopBody_eq_of_keep _ _ _ _ _ c i hg (by linarith) hd.le

/-- With a slot longer than the guard time nothing is dropped: the output is
the list of all candidates. -/
theorem schedule_eq_candidateSlots (numUes : Nat) (slotDuration simDuration kGuardTime : ℚ)
    (hd : 0 < slotDuration) (hg : kGuardTime < slotDuration) :
    schedule numUes slotDuration simDuration kGuardTime =
      candidateSlots numUes slotDuration kGuardTime
        (numCycles simDuration (cycleDuration numUes slotDuration)) := by
  unfold schedule scheduleLoop candidateSlots
  apply List.flatMap_congr
  intro c hc
  apply List.flatMap_congr
  intro i hi
  rw [List.mem_range] at hc hi
  exact loopBody_eq_candidates numUes slotDuration simDuration kGuardTime hd hg c i hi hc

theorem schedule_eq_scheduleByFilter (numUes : Nat)
    (slotDuration simDuration kGuardTime : ℚ) (hd : 0 < slotDuration) :
    schedule numUes slotDuration simDuration kGuardTime =
      scheduleByFilter numUes slotDuration simDuration kGuardTime := by
  unfold schedule scheduleLoop scheduleByFilter candidateSlots
  simp only [List.filter_flatMap]
  apply List.flatMap_congr
  intro c hc
  apply List.flatMap_congr
  intro i hi
  rw [List.mem_range] at hc hi
  by_cases hg : kGuardTime < slotDuration
  · have h := downlinkStart_lt_of_lt_numCycles numUes slotDuration simDuration hd c i hi hc
    rw [loopBody_eq_candidates numUes slotDuration simDuration kGuardTime hd hg c i hi hc]
    have p1 : (c : ℚ) * cycleDuration numUes slotDuration
        + ((i * 2 % UINT32_MOD : Nat) : ℚ) * slotDuration < simDuration := by linarith
    have p2 : (c : ℚ) * cycleDuration numUes slotDuration
        + ((i * 2 % UINT32_MOD : Nat) : ℚ) * slotDuration + slotDuration < simDuration := by
      linarith
    have q1 : (c : ℚ) * cycleDuration numUes slotDuration
        + ((i * 2 % UINT32_MOD : Nat) : ℚ) * slotDuration <
        (c : ℚ) * cycleDuration numUes slotDuration
        + ((i * 2 % UINT32_MOD : Nat) : ℚ) * slotDuration + slotDuration - kGuardTime := by
      linarith
    have q2 : (c : ℚ) * cycleDuration numUes slotDuration
        + ((i * 2 % UINT32_MOD : Nat) : ℚ) * slotDuration + slotDuration <
        (c : ℚ) * cycleDuration numUes slotDuration
        + ((i * 2 % UINT32_MOD : Nat) : ℚ) * slotDuration + slotDuration + slotDuration
          - kGuardTime := by
      linarith
    simp [List.filter_cons, p1, p2, q1, q2]
  · rw [loopBody_eq_nil_of_le _ _ _ _ _ _ _ (not_lt.1 hg)]
    have q1 : ¬ ((c : ℚ) * cycleDuration numUes slotDuration
        + ((i * 2 % UINT32_MOD : Nat) : ℚ) * slotDuration <
        (c : ℚ) * cycleDuration numUes slotDuration
        + ((i * 2 % UINT32_MOD : Nat) : ℚ) * slotDuration + slotDuration - kGuardTime) := by
      intro h; linarith
    have q2 : ¬ ((c : ℚ) * cycleDuration numUes slotDuration
        + ((i * 2 % UINT32_MOD : Nat) : ℚ) * slotDuration + slotDuration <
        (c : ℚ) * cycleDuration numUes slotDuration
        + ((i * 2 % UINT32_MOD : Nat) : ℚ) * slotDuration + slotDuration + slotDuration
          - kGuardTime) := by
      intro h; linarith
    simp [List.filter_cons, q1, q2]

theorem loopBody_partner {numUes : Nat} {slotDuration simDuration kGuardTime cycleDur : ℚ}
    {cycle i : Nat} {x : Slot}
    (hx : x ∈ loopBody numUes slotDuration simDuration kGuardTime cycleDur cycle i) :
    ∃ y ∈ loopBody numUes slotDuration simDuration kGuardTime cycleDur cycle i,
      y.cycle = x.cycle ∧ y.node = x.node ∧ y.direction ≠ x.direction := by
  unfold loopBody at hx ⊢
  simp only at hx ⊢
  split_ifs at hx ⊢ with h1 h2
  · simp at hx
  · simp at hx
  · simp only [List.mem_cons, List.mem_singleton, List.not_mem_nil, or_false] at hx
    rcases hx with rfl | rfl
    · exact ⟨_, List.mem_cons_of_mem _ (List.mem_cons_self _ _), rfl, rfl,
        fun h => Direction.noConfusion h⟩
    · exact ⟨_, List.mem_cons_self _ _, rfl, rfl, fun h => Direction.noConfusion h⟩

/-- C25. Pairwise drop equals per-slot drop (`TDMA_RR_Mobility.cc`, exact
arithmetic): for a positive slot duration, whatever the number of UEs, the
horizon and the guard time, the sequence emitted by the loop, which skips both
slots of a UE when either fails its test, is the sequence obtained by keeping
every candidate slot on its own when `start < simDuration` and `stop > start`;
every emitted slot comes with the slot of the other direction of the same UE
and cycle. -/
theorem pairwise_drop_eq_per_slot_drop (numUes : Nat)
    (slotDuration simDuration kGuardTime : ℚ) (hd : 0 < slotDuration) :
    schedule numUes slotDuration simDuration kGuardTime =
      scheduleByFilter numUes slotDuration simDuration kGuardTime ∧
    ∀ x ∈ schedule numUes slotDuration simDuration kGuardTime,
      ∃ y ∈ schedule numUes slotDuration simDuration kGuardTime,
        y.cycle = x.cycle ∧ y.node = x.node ∧ y.direction ≠ x.direction := by
  refine ⟨schedule_eq_scheduleByFilter numUes slotDuration simDuration kGuardTime hd, ?_⟩
  intro x hx
  obtain ⟨c, hc, i, hi, hb⟩ := mem_schedule.1 hx
  obtain ⟨y, hy, h⟩ := loopBody_partner hb
  exact ⟨y, mem_schedule.2 ⟨c, hc, i, hi, hy⟩, h⟩

/-- Witness of `pairwise_drop_eq_per_slot_drop`: 3 UEs, slot 0.1 s, horizon
1.3 s, guard 4 ms. -/
theorem pairwise_drop_eq_per_slot_drop_witness :
    (0 : ℚ) < 1 / 10 ∧
    (schedule 3 (1 / 10) (13 / 10) (4 / 1000) =
      scheduleByFilter 3 (1 / 10) (13 / 10) (4 / 1000) ∧
    ∀ x ∈ schedule 3 (1 / 10) (13 / 10) (4 / 1000),
      ∃ y ∈ schedule 3 (1 / 10) (13 / 10) (4 / 1000),
        y.cycle = x.cycle ∧ y.node = x.node ∧ y.direction ≠ x.direction) :=
  ⟨by norm_num, pairwise_drop_eq_per_slot_drop 3 (1 / 10) (13 / 10) (4 / 1000) (by norm_num)⟩

theorem mem_candidateSlots {numUes : Nat} {slotDuration kGuardTime : ℚ} {nCycles : Nat}
    {x : Slot} (hx : x ∈ candidateSlots numUes slotDuration kGuardTime nCycles) :
    ∃ c i, c < nCycles ∧ i < numUes ∧ x.cycle = c ∧ x.node = i ∧
      x.start = (c : ℚ) * cycleDuration numUes slotDuration
        + ((i * 2 % UINT32_MOD + x.direction.index : Nat) : ℚ) * slotDuration ∧
      x.stop = x.start + slotDuration - kGuardTime := by
  unfold candidateSlots at hx
  simp only [List.mem_flatMap, List.mem_range, List.mem_cons, List.mem_singleton,
    List.not_mem_nil, or_false] at hx
  obtain ⟨c, hc, i, hi, rfl | rfl⟩ := hx
  · refine ⟨c, i, hc, hi, rfl, rfl, ?_, rfl⟩
    simp [Direction.index]
  · refine ⟨c, i, hc, hi, rfl, rfl, ?_, rfl⟩
    simp only [Direction.index]
    push_cast
    ring

theorem length_flatMap_range (f : Nat → List Slot) (n k : Nat)
    (h : ∀ c, c < n → (f c).length = k) :
    ((List.range n).flatMap f).length = n * k := by
  induction n with
  | zero => simp
  | succ n ih =>
    rw [List.range_succ, List.flatMap_append, List.length_append,
      ih (fun c hc => h c (Nat.lt_succ_of_lt hc)), List.flatMap_singleton,
      h n (Nat.lt_succ_self n), Nat.succ_mul]

theorem countP_flatMap_range (p : Slot → Bool) (f : Nat → List Slot) (n k : Nat)
    (h : ∀ c, c < n → (f c).countP p = k) :
    ((List.range n).flatMap f).countP p = n * k := by
  induction n with
  | zero => simp
  | succ n ih =>
    rw [List.range_succ, List.flatMap_append, List.countP_append,
      ih (fun c hc => h c (Nat.lt_succ_of_lt hc)), List.flatMap_singleton,
      h n (Nat.lt_succ_self n), Nat.succ_mul]

theorem countP_flatMap_range_one (p : Slot → Bool) (f : Nat → List Slot) (n i : Nat)
    (hi : i < n) (h : ∀ j, j < n → (f j).countP p = if j = i then 1 else 0) :
    ((List.range n).flatMap f).countP p = 1 := by
  induction n with
  | zero => exact absurd hi (Nat.not_lt_zero i)
  | succ n ih =>
    rw [List.range_succ, List.flatMap_append, List.countP_append, List.flatMap_singleton,
      h n (Nat.lt_succ_self n)]
    by_cases hn : n = i
    · rw [if_pos hn]
      have h0 : ((List.range n).flatMap f).countP p = n * 0 :=
        countP_flatMap_range p f n 0 (fun c hc => by
          rw [h c (Nat.lt_succ_of_lt hc), if_neg]
          omega)
      rw [h0, Nat.mul_zero]
    · rw [if_neg hn, ih (by omega) (fun j hj => h j (Nat.lt_succ_of_lt hj))]

theorem candidateSlots_counts (numUes : Nat) (slotDuration kGuardTime : ℚ) (nCycles : Nat) :
    (candidateSlots numUes slotDuration kGuardTime nCycles).length
      = 2 * numUes * nCycles ∧
    ∀ i, i < numUes →
      (uplinkApps (candidateSlots numUes slotDuration kGuardTime nCycles) i).length
        = nCycles ∧
      (downlinkApps (candidateSlots numUes slotDuration kGuardTime nCycles) i).length
        = nCycles := by
  constructor
  · unfold candidateSlots
    rw [length_flatMap_range _ nCycles (numUes * 2)
      (fun c _ => length_flatMap_range _ numUes 2 (fun i _ => by simp))]
    ring
  · intro i hi
    unfold uplinkApps downlinkApps candidateSlots
    rw [← List.countP_eq_length_filter, ← List.countP_eq_length_filter]
    constructor
    · rw [countP_flatMap_range _ _ nCycles 1 (fun c _ =>
        countP_flatMap_range_one _ _ numUes i hi (fun j _ => by
          by_cases hj : j = i <;> simp [List.countP_cons, hj]))]
      exact Nat.mul_one _
    · rw [countP_flatMap_range _ _ nCycles 1 (fun c _ =>
        countP_flatMap_range_one _ _ numUes i hi (fun j _ => by
          by_cases hj : j = i <;> simp [List.countP_cons, hj]))]
      exact Nat.mul_one _

theorem blind_step_eq_none_iff (s : TdmaClientApp) : Blind.step s = none ↔ s.queue = [] := by
  rw [← earliest_eq_none_iff]
  unfold Blind.step
  cases earliest s.queue with
  | none => simp
  | some e =>
    simp only
    cases h : e.cb <;> simp

theorem blind_step_send (s : TdmaClientApp) (t : ℚ) (h : Bool)
    (hq : s.queue = [⟨t, Callback.sendPacket, h⟩]) :
    Blind.step s = some (Blind.SendPacket t { s with queue := [] }) := by
  simp [Blind.step, hq, earliest]

theorem blind_run_of_queue_nil (k : Nat) (s : TdmaClientApp) (hq : s.queue = []) :
    Blind.run k s = s := by
  cases k with
  | zero => rfl
  | succ k => simp [Blind.run, (blind_step_eq_none_iff s).2 hq]

theorem blind_run_succ_of_step {s s1 : TdmaClientApp} (k : Nat) (h : Blind.step s = some s1) :
    Blind.run (k + 1) s = Blind.run k s1 := by
  simp [Blind.run, h]

theorem blind_run_add (j k : Nat) (s : TdmaClientApp) :
    Blind.run (j + k) s = Blind.run k (Blind.run j s) := by
  induction j generalizing s with
  | zero => simp [Blind.run]
  | succ j ih =>
    rw [Nat.succ_add]
    cases h : Blind.step s with
    | none =>
      have hq := (blind_step_eq_none_iff s).1 h
      rw [blind_run_of_queue_nil _ s hq, blind_run_of_queue_nil _ s hq,
        blind_run_of_queue_nil _ s hq]
    | some s1 =>
      rw [blind_run_succ_of_step _ h, blind_run_succ_of_step _ h, ih]

theorem blind_run_of_le {j k : Nat} (hjk : j ≤ k) (s : TdmaClientApp)
    (hq : (Blind.run j s).queue = []) : Blind.run k s = Blind.run j s := by
  obtain ⟨d, rfl⟩ := Nat.exists_eq_add_of_le hjk
  rw [blind_run_add, blind_run_of_queue_nil _ _ hq]

/-- The burst of the generator of `mobilityTDMA.cc`: the pending `SendPacket`
event at time `t` and the `m` that follow it, whatever the window. -/
theorem blind_run_sends (m : Nat) : ∀ (s : TdmaClientApp) (t : ℚ),
    s.queue = [⟨t, Callback.sendPacket, true⟩] →
    s.m_count + (m + 1) = s.m_nPackets → s.m_nPackets < UINT32_MOD →
    (Blind.run (m + 1) s).queue = [] ∧
    (Blind.run (m + 1) s).sent =
      s.sent ++ (List.range (m + 1)).map (fun k : Nat => t + (k : ℚ) * s.m_interval) ∧
    (Blind.run (m + 1) s).m_count = s.m_nPackets := by
  induction m with
  | zero =>
    intro s t hq hc hW
    have hmod : (s.m_count + 1) % UINT32_MOD = s.m_count + 1 :=
      Nat.mod_eq_of_lt (by omega)
    rw [blind_run_succ_of_step 0 (blind_step_send s t true hq)]
    simp only [Blind.run, Blind.SendPacket, hmod]
    rw [if_neg (by omega)]
    simp [List.range_succ]
    omega
  | succ m ih =>
    intro s t hq hc hW
    have hmod : (s.m_count + 1) % UINT32_MOD = s.m_count + 1 :=
      Nat.mod_eq_of_lt (by omega)
    rw [blind_run_succ_of_step (m + 1) (blind_step_send s t true hq)]
    have e : Blind.SendPacket t { s with queue := [] } =
        { s with sent := s.sent ++ [t], m_count := s.m_count + 1,
                 queue := [⟨t + s.m_interval, Callback.sendPacket, true⟩] } := by
      simp only [Blind.SendPacket, hmod]
      rw [if_pos (by omega)]
      simp [Blind.ScheduleNextTx, scheduleHeld]
    rw [e]
    have key := ih
      { s with sent := s.sent ++ [t], m_count := s.m_count + 1,
               queue := [⟨t + s.m_interval, Callback.sendPacket, true⟩] }
      (t + s.m_interval) rfl (by simp only; omega) hW
    simp only at key
    refine ⟨key.1, ?_, key.2.2⟩
    rw [key.2.1, range_succ_map_pace t s.m_interval (m + 1), List.append_assoc]
    rfl

theorem blind_run_burst (a : TdmaClientApp) (now : ℚ) (ha : Configured a)
    (hn : 1 ≤ a.m_nPackets) (hW : a.m_nPackets < UINT32_MOD) (fuel : Nat)
    (hf : a.m_nPackets ≤ fuel) :
    (Blind.run fuel (Blind.StartApplication now a)).sent =
      (List.range a.m_nPackets).map (fun k : Nat => now + (k : ℚ) * a.m_interval) ∧
    (Blind.run fuel (Blind.StartApplication now a)).queue = [] := by
  obtain ⟨m, hm⟩ : ∃ m, a.m_nPackets = m + 1 := ⟨a.m_nPackets - 1, by omega⟩
  have hst : Blind.StartApplication now a =
      { a with m_count := 0, queue := [⟨now, Callback.sendPacket, true⟩] } := by
    simp [Blind.StartApplication, scheduleHeld, ha.2.2.1]
  have h := blind_run_sends m
    { a with m_count := 0, queue := [⟨now, Callback.sendPacket, true⟩] } now rfl
    (by simp only; omega) hW
  obtain ⟨r1, r2, _⟩ := h
  rw [hst]
  rw [hm] at hf
  constructor
  · rw [blind_run_of_le hf _ r1, r2, hm]
    simp only [ha.2.2.2, List.nil_append]
  · rw [blind_run_of_le hf _ r1]; exact r1

/-- C29. Window-blind variant: the generator of `mobilityTDMA.cc`, configured
with `1 ≤ nPackets` (a `uint32_t`), whatever its stored window
`(m_startTime, m_stopTime)` and whatever the time `now` at which
`StartApplication` runs, sends exactly `nPackets` packets, the `k`-th at
`now + k * interval`, and then has nothing pending; any fuel `≥ nPackets` gives
this result. The window appears nowhere in the result. -/
theorem window_blind_burst (a : TdmaClientApp) (now : ℚ) (ha : Configured a)
    (hn : 1 ≤ a.m_nPackets) (hW : a.m_nPackets < UINT32_MOD) (fuel : Nat)
    (hf : a.m_nPackets ≤ fuel) :
    (Blind.run fuel (Blind.StartApplication now a)).sent =
      (List.range a.m_nPackets).map (fun k : Nat => now + (k : ℚ) * a.m_interval) ∧
    (Blind.run fuel (Blind.StartApplication now a)).sent.length = a.m_nPackets ∧
    (Blind.run fuel (Blind.StartApplication now a)).queue = [] := by
  have h := blind_run_burst a now ha hn hW fuel hf
  refine ⟨h.1, ?_, h.2⟩
  rw [h.1, List.length_map, List.length_range]

/-- Witness of `window_blind_burst`: a generator with the window `[3, 3.096)`
whose `StartApplication` runs at time 0. -/
theorem window_blind_burst_witness :
    Configured demoApp ∧ 1 ≤ demoApp.m_nPackets ∧ demoApp.m_nPackets < UINT32_MOD ∧
    demoApp.m_nPackets ≤ 5 ∧
    ((Blind.run 5 (Blind.StartApplication 0 demoApp)).sent =
      (List.range demoApp.m_nPackets).map
        (fun k : Nat => 0 + (k : ℚ) * demoApp.m_interval) ∧
    (Blind.run 5 (Blind.StartApplication 0 demoApp)).sent.length = demoApp.m_nPackets ∧
    (Blind.run 5 (Blind.StartApplication 0 demoApp)).queue = []) :=
  ⟨demoApp_configured, by rw [demoApp_nPackets]; decide, by rw [demoApp_nPackets]; decide,
    le_refl 5,
    window_blind_burst demoApp 0 demoApp_configured (by rw [demoApp_nPackets]; decide)
      (by rw [demoApp_nPackets]; decide) 5 (le_refl 5)⟩

/-- A run of the generator of `mobilityTDMA.cc` in which every packet is sent
outside the stored window: window `[3, 3.096)`, activation at time 0, sends at
0, 0.0192, 0.0384, 0.0576 and 0.0768 s. -/
theorem blind_sends_outside_window :
    (Blind.run 5 (Blind.StartApplication 0 demoApp)).sent =
      [0, 192 / 10000, 384 / 10000, 576 / 10000, 768 / 10000] ∧
    ∀ t ∈ (Blind.run 5 (Blind.StartApplication 0 demoApp)).sent, t < demoApp.m_startTime := by
  have h := (blind_run_burst demoApp 0 demoApp_configured (by rw [demoApp_nPackets]; decide)
    (by rw [demoApp_nPackets]; decide) 5 (le_refl 5)).1
  rw [demoApp_nPackets, demoApp_interval] at h
  have hl : (Blind.run 5 (Blind.StartApplication 0 demoApp)).sent =
      [0, 192 / 10000, 384 / 10000, 576 / 10000, 768 / 10000] := by
    rw [h]
    simp only [List.range_succ, List.range_zero, List.nil_append, List.map_append,
      List.map_cons, List.map_nil, List.cons_append]
    norm_num
  refine ⟨hl, ?_⟩
  rw [hl, demoApp_startTime]
  intro t ht
  simp only [List.mem_cons, List.mem_singleton, List.not_mem_nil, or_false] at ht
  rcases ht with rfl | rfl | rfl | rfl | rfl <;> norm_num

/-! ## The round-robin loop of `tdma1.cc` -/

theorem roundRobinLoop_of_ge (kNumUes : Nat) (kSlotDuration kSimDuration : ℚ) (fuel : Nat)
    (t : ℚ) (app : ClientApp) (h : kSimDuration ≤ t) :
    roundRobinLoop kNumUes kSlotDuration kSimDuration fuel t app = app := by
  cases fuel with
  | zero => rfl
  | succ f =>
    unfold roundRobinLoop
    rw [if_neg (not_lt.2 h)]

/-- The loop does `k + 1` iterations when the `k + 1` times `t + j * step`,
`j ≤ k`, are below the horizon and the next one is not; only the last call of
`ScheduleUeTraffic` is visible in the application. -/
theorem roundRobinLoop_iterations (kNumUes : Nat) (kSlotDuration kSimDuration : ℚ)
    (hstep : 0 ≤ kSlotDuration * kNumUes) (k : Nat) :
    ∀ (fuel : Nat) (t : ℚ) (app : ClientApp), k + 1 ≤ fuel →
    t + (k : ℚ) * (kSlotDuration * kNumUes) < kSimDuration →
    kSimDuration ≤ t + ((k : ℚ) + 1) * (kSlotDuration * kNumUes) →
    roundRobinLoop kNumUes kSlotDuration kSimDuration fuel t app =
      ⟨t + (k : ℚ) * (kSlotDuration * kNumUes),
        t + (k : ℚ) * (kSlotDuration * kNumUes) + kSlotDuration,
        app.calls + (k + 1)⟩ := by
  induction k with
  | zero =>
    intro fuel t app hf hlt hge
    obtain ⟨f, rfl⟩ : ∃ f, fuel = f + 1 := ⟨fuel - 1, by omega⟩
    simp only [Nat.cast_zero, zero_mul, add_zero, zero_add, one_mul] at hlt hge ⊢
    unfold roundRobinLoop
    rw [if_pos hlt, roundRobinLoop_of_ge _ _ _ _ _ _ hge]
    rfl
  | succ k ih =>
    intro fuel t app hf hlt hge
    obtain ⟨f, rfl⟩ : ∃ f, fuel = f + 1 := ⟨fuel - 1, by omega⟩
    push_cast at hlt hge ⊢
    have hk : (0 : ℚ) ≤ (k : ℚ) := Nat.cast_nonneg k
    have hks : 0 ≤ (k : ℚ) * (kSlotDuration * kNumUes) := mul_nonneg hk hstep
    have ht : t < kSimDuration := by linarith
    unfold roundRobinLoop
    rw [if_pos ht, ih f (t + kSlotDuration * kNumUes)
      (ScheduleUeTraffic app t kSlotDuration) (by omega) (by linarith) (by linarith)]
    simp only [ScheduleUeTraffic, ClientApp.mk.injEq]
    refine ⟨by ring, by ring, by omega⟩

theorem roundCount_pos (kNumUes : Nat) (kSlotDuration kSimDuration : ℚ) (i : Nat)
    (hN : 1 ≤ kNumUes) (hd : 0 < kSlotDuration) (hi : (i : ℚ) * kSlotDuration < kSimDuration) :
    1 ≤ roundCount kNumUes kSlotDuration kSimDuration i := by
  have hN' : (0 : ℚ) < (kNumUes : ℚ) := by exact_mod_cast hN
  have hq : 0 < (kSimDuration - (i : ℚ) * kSlotDuration) / ((kNumUes : ℚ) * kSlotDuration) :=
    div_pos (by linarith) (mul_pos hN' hd)
  have := (lt_ceil_toNat _ 0).2 (by simpa using hq)
  exact this

/-- The client of UE `i` after its while loop. -/
theorem ueClient_eq (kNumUes : Nat) (kSlotDuration kSimDuration : ℚ) (i fuel : Nat)
    (hN : 1 ≤ kNumUes) (hd : 0 < kSlotDuration) (hi : (i : ℚ) * kSlotDuration < kSimDuration)
    (hf : roundCount kNumUes kSlotDuration kSimDuration i ≤ fuel) :
    ueClient kNumUes kSlotDuration kSimDuration fuel i =
      ⟨(i : ℚ) * kSlotDuration
          + ((roundCount kNumUes kSlotDuration kSimDuration i : ℚ) - 1)
            * ((kNumUes : ℚ) * kSlotDuration),
        (i : ℚ) * kSlotDuration
          + ((roundCount kNumUes kSlotDuration kSimDuration i : ℚ) - 1)
            * ((kNumUes : ℚ) * kSlotDuration) + kSlotDuration,
        roundCount kNumUes kSlotDuration kSimDuration i⟩ := by
  have hN' : (0 : ℚ) < (kNumUes : ℚ) := by exact_mod_cast hN
  have hS : 0 < (kNumUes : ℚ) * kSlotDuration := mul_pos hN' hd
  have hpos := roundCount_pos kNumUes kSlotDuration kSimDuration i hN hd hi
  obtain ⟨k, hk⟩ : ∃ k, roundCount kNumUes kSlotDuration kSimDuration i = k + 1 :=
    ⟨_, (Nat.sub_add_cancel hpos).symm⟩
  have hlt : (k : ℚ) <
      (kSimDuration - (i : ℚ) * kSlotDuration) / ((kNumUes : ℚ) * kSlotDuration) := by
    apply (lt_ceil_toNat _ k).1
    have : k < roundCount kNumUes kSlotDuration kSimDuration i := by omega
    exact this
  have hge : (kSimDuration - (i : ℚ) * kSlotDuration) / ((kNumUes : ℚ) * kSlotDuration)
      ≤ ((k + 1 : Nat) : ℚ) := by
    apply (ceil_toNat_le _ (k + 1)).1
    have : roundCount kNumUes kSlotDuration kSimDuration i ≤ k + 1 := by omega
    exact this
  have hlt' := (lt_div_iff₀ hS).1 hlt
  have hge' := (div_le_iff₀ hS).1 hge
  push_cast at hge'
  rw [hk] at hf
  unfold ueClient
  rw [roundRobinLoop_iterations kNumUes kSlotDuration kSimDuration
    (by nlinarith) k fuel _ ClientApp.new hf (by nlinarith) (by nlinarith), hk]
  simp only [ClientApp.new, ClientApp.mk.injEq]
  push_cast
  refine ⟨by ring, by ring, by omega⟩

theorem roundCount_constants (i : Nat) (hi : i < 10) : roundCount 10 (1 / 10) 10 i = 10 := by
  unfold roundCount
  have hq : (i : ℚ) < 10 := by exact_mod_cast hi
  have h0 : (0 : ℚ) ≤ (i : ℚ) := Nat.cast_nonneg i
  apply le_antisymm
  · rw [ceil_toNat_le]
    rw [div_le_iff₀ (by norm_num)]
    push_cast
    linarith
  · rw [Nat.succ_le_iff, lt_ceil_toNat, lt_div_iff₀ (by norm_num)]
    push_cast
    linarith

/-- The surviving windows of two different UEs do not meet. -/
theorem surviving_windows_disjoint (kNumUes : Nat) (kSlotDuration : ℚ) (hd : 0 < kSlotDuration)
    (i j ki kj : Nat) (hi : i < kNumUes) (hj : j < kNumUes) (hij : i ≠ j) :
    (i : ℚ) * kSlotDuration + (ki : ℚ) * ((kNumUes : ℚ) * kSlotDuration) + kSlotDuration ≤
        (j : ℚ) * kSlotDuration + (kj : ℚ) * ((kNumUes : ℚ) * kSlotDuration) ∨
    (j : ℚ) * kSlotDuration + (kj : ℚ) * ((kNumUes : ℚ) * kSlotDuration) + kSlotDuration ≤
        (i : ℚ) * kSlotDuration + (ki : ℚ) * ((kNumUes : ℚ) * kSlotDuration) := by
  have hne : i + ki * kNumUes ≠ j + kj * kNumUes := by
    intro h
    have h2 := congrArg (fun x => x % kNumUes) h
    simp only [Nat.add_mul_mod_self_right, Nat.mod_eq_of_lt hi, Nat.mod_eq_of_lt hj] at h2
    exact hij h2
  rcases Nat.lt_or_gt_of_ne hne with h | h
  · left
    have hq : ((i + ki * kNumUes : Nat) : ℚ) + 1 ≤ ((j + kj * kNumUes : Nat) : ℚ) := by
      exact_mod_cast h
    push_cast at hq
    nlinarith
  · right
    have hq : ((j + kj * kNumUes : Nat) : ℚ) + 1 ≤ ((i + ki * kNumUes : Nat) : ℚ) := by
      exact_mod_cast h
    push_cast at hq
    nlinarith

theorem ueClient_constants (fuel j : Nat) (hj : j < 10) (hf : 10 ≤ fuel) :
    ueClient 10 (1 / 10) 10 fuel j = ⟨9 + (j : ℚ) / 10, 9 + (j : ℚ) / 10 + 1 / 10, 10⟩ := by
  have hq : (j : ℚ) < 10 := by exact_mod_cast hj
  rw [ueClient_eq 10 (1 / 10) 10 j fuel (by decide) (by norm_num) (by linarith)
    (by rw [roundCount_constants j hj]; exact hf), roundCount_constants j hj]
  simp only [ClientApp.mk.injEq]
  push_cast
  refine ⟨by ring, by ring, trivial⟩

/-- C30. Only the last window survives in `tdma1.cc`: for `N ≥ 1` UEs, slot
length `d > 0`, horizon `T` and a UE `i` with `i * d < T`, the loop
`while (currentTime < kSimDuration)` ends after exactly
`ceil ((T - i * d) / (N * d))` calls of `ScheduleUeTraffic` on the same
application (any fuel at least that number gives the same result); each call
overwrites the start and stop time, so the application keeps the single window
`[s, s + d)` with `s = i * d + (ceil ((T - i * d) / (N * d)) - 1) * N * d`,
the last round-robin start below `T`. The surviving windows of two different UEs
`i, j < N` are disjoint. With the constants of the source (`N = 10`, `d = 0.1`,
`T = 10`) UE `j` keeps `[9 + 0.1 j, 9.1 + 0.1 j)` after 10 calls. -/
theorem last_window_survives (kNumUes : Nat) (kSlotDuration kSimDuration : ℚ) (i fuel : Nat)
    (hN : 1 ≤ kNumUes) (hd : 0 < kSlotDuration)
    (hi : (i : ℚ) * kSlotDuration < kSimDuration)
    (hf : roundCount kNumUes kSlotDuration kSimDuration i ≤ fuel) :
    (ueClient kNumUes kSlotDuration kSimDuration fuel i).calls =
      ⌈(kSimDuration - (i : ℚ) * kSlotDuration) / ((kNumUes : ℚ) * kSlotDuration)⌉.toNat ∧
    (ueClient kNumUes kSlotDuration kSimDuration fuel i).startTime =
      (i : ℚ) * kSlotDuration +
        ((⌈(kSimDuration - (i : ℚ) * kSlotDuration)
            / ((kNumUes : ℚ) * kSlotDuration)⌉.toNat : ℚ) - 1)
          * ((kNumUes : ℚ) * kSlotDuration) ∧
    (ueClient kNumUes kSlotDuration kSimDuration fuel i).stopTime =
      (ueClient kNumUes kSlotDuration kSimDuration fuel i).startTime + kSlotDuration ∧
    (ueClient kNumUes kSlotDuration kSimDuration fuel i).startTime < kSimDuration ∧
    kSimDuration ≤ (ueClient kNumUes kSlotDuration kSimDuration fuel i).startTime
      + (kNumUes : ℚ) * kSlotDuration ∧
    (∀ j : Nat, i < kNumUes → j < kNumUes → i ≠ j →
      (j : ℚ) * kSlotDuration < kSimDuration →
      roundCount kNumUes kSlotDuration kSimDuration j ≤ fuel →
      (ueClient kNumUes kSlotDuration kSimDuration fuel i).stopTime ≤
          (ueClient kNumUes kSlotDuration kSimDuration fuel j).startTime ∨
      (ueClient kNumUes kSlotDuration kSimDuration fuel j).stopTime ≤
          (ueClient kNumUes kSlotDuration kSimDuration fuel i).startTime) ∧
    (∀ f j : Nat, j < 10 → 10 ≤ f →
      ueClient 10 (1 / 10) 10 f j = ⟨9 + (j : ℚ) / 10, 9 + (j : ℚ) / 10 + 1 / 10, 10⟩) := by
  have e := ueClient_eq kNumUes kSlotDuration kSimDuration i fuel hN hd hi hf
  have hN' : (0 : ℚ) < (kNumUes : ℚ) := by exact_mod_cast hN
  have hS : 0 < (kNumUes : ℚ) * kSlotDuration := mul_pos hN' hd
  have hpos := roundCount_pos kNumUes kSlotDuration kSimDuration i hN hd hi
  obtain ⟨k, hk⟩ : ∃ k, roundCount kNumUes kSlotDuration kSimDuration i = k + 1 :=
    ⟨_, (Nat.sub_add_cancel hpos).symm⟩
  have hlt : (k : ℚ) <
      (kSimDuration - (i : ℚ) * kSlotDuration) / ((kNumUes : ℚ) * kSlotDuration) := by
    apply (lt_ceil_toNat _ k).1
    have : k < roundCount kNumUes kSlotDuration kSimDuration i := by omega
    exact this
  have hge : (kSimDuration - (i : ℚ) * kSlotDuration) / ((kNumUes : ℚ) * kSlotDuration)
      ≤ ((k + 1 : Nat) : ℚ) := by
    apply (ceil_toNat_le _ (k + 1)).1
    have : roundCount kNumUes kSlotDuration kSimDuration i ≤ k + 1 := by omega
    exact this
  have hlt' := (lt_div_iff₀ hS).1 hlt
  have hge' := (div_le_iff₀ hS).1 hge
  push_cast at hge'
  have hkq : (roundCount kNumUes kSlotDuration kSimDuration i : ℚ) = (k : ℚ) + 1 := by
    rw [hk]; push_cast; rfl
  refine ⟨by rw [e]; rfl, by rw [e]; rfl, by rw [e], ?_, ?_, ?_,
    fun f j hj hf10 => ueClient_constants f j hj hf10⟩
  · rw [e]
    simp only [hkq]
    linarith
  · rw [e]
    simp only [hkq]
    linarith
  · intro j hiN hjN hij hjT hjf
    have ej := ueClient_eq kNumUes kSlotDuration kSimDuration j fuel hN hd hjT hjf
    have hposj := roundCount_pos kNumUes kSlotDuration kSimDuration j hN hd hjT
    obtain ⟨kj, hkj⟩ : ∃ kj, roundCount kNumUes kSlotDuration kSimDuration j = kj + 1 :=
      ⟨_, (Nat.sub_add_cancel hposj).symm⟩
    have hkjq : (roundCount kNumUes kSlotDuration kSimDuration j : ℚ) = (kj : ℚ) + 1 := by
      rw [hkj]; push_cast; rfl
    rw [e, ej]
    simp only [hkq, hkjq, add_sub_cancel_right]
    exact surviving_windows_disjoint kNumUes kSlotDuration hd i j k kj hiN hjN hij

/-- Witness of `last_window_survives`: the constants of the source and UE 3. -/
theorem last_window_survives_witness :
    1 ≤ 10 ∧ (0 : ℚ) < 1 / 10 ∧ ((3 : Nat) : ℚ) * (1 / 10) < 10 ∧
    roundCount 10 (1 / 10) 10 3 ≤ 10 ∧
    (ueClient 10 (1 / 10) 10 10 3).calls = 10 ∧
    (ueClient 10 (1 / 10) 10 10 3).startTime = 93 / 10 ∧
    (ueClient 10 (1 / 10) 10 10 3).stopTime = 94 / 10 := by
  have hf : roundCount 10 (1 / 10) 10 3 ≤ 10 := by
    rw [roundCount_constants 3 (by decide)]
  have h := last_window_survives 10 (1 / 10) 10 3 10 (by decide) (by norm_num)
    (by norm_num) hf
  have e := h.2.2.2.2.2.2 10 3 (by decide) (le_refl 10)
  refine ⟨by decide, by norm_num, by norm_num, hf, ?_, ?_, ?_⟩
  · rw [e]
  · rw [e]; norm_num
  · rw [e]; norm_num

end Tdma
